import Mathlib

/-! # unison-fsmonitor: path trie, watcher façade and protocol engine

A shallow embedding of `pathtrie/pathtrie.go`, `fswatch/fswatch.go` and `main.go`.

Conventions of the embedding.

* A Go `string` is a byte sequence.  It is represented by a Lean `String` in which every
  `Char` stands for one byte (all protocol words and separators are ASCII).
* A Go `map[string]V` is an association list `List (String × V)` with at most one entry
  per key; `range` visits the entries in list order, which is one of the orders that Go
  may take.
* A method with a pointer receiver returns the updated value.  A `*replica` is an index
  into the list of the replica objects made so far, so that the registry and `state.r`
  can point to the same object.
* The functions of the Go standard library that the program calls (`strings`,
  `path/filepath` for Unix, `net/url`) are given by definitions that work element by
  element on the separator-split path, which is what the byte loops of the library do.
* The operating system and the notify library are a parameter `Env` of each step.
* The log is not part of the state.
-/

/-! ## Standard library: `strings` -/

namespace strings

/-- Go `strings.Split(s, sep)` for a one-byte separator: the pieces of `s` between
occurrences of `sep`; the empty string gives one empty piece. -/
def Split (s : String) (sep : Char) : List String :=
  (s.data.splitOn sep).map String.mk

/-- Go `strings.Join(elems, sep)`. -/
def Join (elems : List String) (sep : String) : String :=
  String.mk (sep.data.intercalate (elems.map String.data))

/-- Go `strings.HasPrefix(s, pre)`. -/
def HasPrefix (s pre : String) : Bool :=
  pre.data.isPrefixOf s.data

/-- Go `strings.HasSuffix(s, suf)`. -/
def HasSuffix (s suf : String) : Bool :=
  suf.data.reverse.isPrefixOf s.data.reverse

end strings

/-! ## Standard library: `path/filepath` (Unix) -/

namespace filepath

/-- The Unix path separator. -/
def Separator : Char := '/'

/-- One round of the loop of `Clean` at path element `e`.  `out` is the list of elements
written to the buffer so far, the most recent first.  An empty element and `.` are
dropped; `..` removes the most recent element when that is a real one (`out.w > dotdot`),
is appended when the path is not rooted, and is dropped at the root; any other element
is appended. -/
def cleanElem (rooted : Bool) (out : List String) (e : String) : List String :=
  if e = "" ∨ e = "." then out
  else if e = ".." then
    match out with
    | [] => if rooted then [] else [".."]
    | last :: rest =>
      if last = ".." then (if rooted then out else ".." :: out) else rest
  else e :: out

/-- Go `filepath.Clean`: the shortest equivalent path, by purely lexical processing. -/
def Clean (path : String) : String :=
  if path = "" then "."
  else
    let rooted := strings.HasPrefix path "/"
    let out := (strings.Split path Separator).foldl (cleanElem rooted) []
    if rooted then "/" ++ strings.Join out.reverse "/"
    else if out = [] then "."
    else strings.Join out.reverse "/"

/-- Go `filepath.Join`: the elements from the first non-empty one on, joined with the
separator and cleaned; the empty string when every element is empty. -/
def Join : List String → String
  | [] => ""
  | e :: rest => if e = "" then Join rest else Clean (strings.Join (e :: rest) "/")

/-- The path elements that the comparison loop of `Rel` steps through: the pieces between
separators, without a last empty piece (the loop stops at the end of the string). -/
def relElems (s : String) : List String :=
  let parts := strings.Split s Separator
  if parts.getLast? = some "" then parts.dropLast else parts

/-- The loop of `Rel` that moves both positions past the equal leading elements. -/
def stripCommon : List String → List String → List String × List String
  | b :: bs, t :: ts => if t = b then stripCommon bs ts else (b :: bs, t :: ts)
  | bs, ts => (bs, ts)

/-- Go `filepath.Rel(basepath, targpath)`; `none` stands for its error: one path is absolute
and the other is not, or the base has the element `..` where the two paths part. -/
def Rel (basepath targpath : String) : Option String :=
  let base := Clean basepath
  let targ := Clean targpath
  if targ = base then some "."
  else
    let base := if base = "." then "" else base
    if strings.HasPrefix base "/" != strings.HasPrefix targ "/" then none
    else
      match stripCommon (relElems base) (relElems targ) with
      | ([], ts) => some (strings.Join ts "/")
      | (b :: bs, ts) =>
        if b = ".." then none
        else some (strings.Join (List.replicate (b :: bs).length ".." ++ ts) "/")

end filepath

/-- Inputs and results of `Clean` from the test table of the Go library. -/
def cleanExamples : List (String × String) :=
  [("abc", "abc"), ("abc/def", "abc/def"), ("a/b/c", "a/b/c"), (".", "."), ("..", ".."),
   ("../..", "../.."), ("../../abc", "../../abc"), ("/abc", "/abc"), ("/", "/"), ("", "."),
   ("abc/", "abc"), ("abc/def/", "abc/def"), ("a/b/c/", "a/b/c"), ("./", "."), ("../", ".."),
   ("../../", "../.."), ("/abc/", "/abc"), ("abc//def//ghi", "abc/def/ghi"), ("//abc", "/abc"),
   ("///abc", "/abc"), ("//abc//", "/abc"), ("abc//", "abc"), ("abc/./def", "abc/def"),
   ("/./abc/def", "/abc/def"), ("abc/.", "abc"), ("abc/def/ghi/../jkl", "abc/def/jkl"),
   ("abc/def/../ghi/../jkl", "abc/jkl"), ("abc/def/..", "abc"), ("abc/def/../..", "."),
   ("/abc/def/../..", "/"), ("abc/def/../../..", ".."), ("/abc/def/../../..", "/"),
   ("abc/def/../../../ghi/jkl/../../../mno", "../../mno"), ("/../abc", "/abc"),
   ("abc/./../def", "def"), ("abc//./../def", "def"), ("abc/../../././../def", "../../def")]

/-- Inputs and results of `Join` from the test table of the Go library. -/
def joinExamples : List (List String × String) :=
  [([], ""), ([""], ""), (["/"], "/"), (["a"], "a"), (["a", "b"], "a/b"), (["a", ""], "a"),
   (["", "b"], "b"), (["/", "a"], "/a"), (["/", "a/b"], "/a/b"), (["/", ""], "/"),
   (["/a", "b"], "/a/b"), (["a", "/b"], "a/b"), (["/a", "/b"], "/a/b"), (["a/", "b"], "a/b"),
   (["a/", ""], "a"), (["", ""], "")]

/-- Inputs and results of `Rel` from the test table of the Go library; `none` is an
error. -/
def relExamples : List (String × String × Option String) :=
  [("a/b", "a/b", some "."), ("a/b/.", "a/b", some "."), ("a/b", "a/b/.", some "."),
   ("./a/b", "a/b", some "."), ("a/b", "./a/b", some "."), ("ab/cd", "ab/cde", some "../cde"),
   ("ab/cd", "ab/c", some "../c"), ("a/b", "a/b/c/d", some "c/d"),
   ("a/b", "a/b/../c", some "../c"), ("a/b/../c", "a/b", some "../b"),
   ("a/b/c", "a/c/d", some "../../c/d"), ("a/b", "c/d", some "../../c/d"),
   ("a/b/c/d", "a/b", some "../.."), ("a/b/c/d", "a/b/", some "../.."),
   ("a/b/c/d/", "a/b", some "../.."), ("a/b/c/d/", "a/b/", some "../.."),
   ("../../a/b", "../../a/b/c/d", some "c/d"), ("/a/b", "/a/b", some "."),
   ("/a/b/.", "/a/b", some "."), ("/a/b", "/a/b/.", some "."),
   ("/ab/cd", "/ab/cde", some "../cde"), ("/ab/cd", "/ab/c", some "../c"),
   ("/a/b", "/a/b/c/d", some "c/d"), ("/a/b", "/a/b/../c", some "../c"),
   ("/a/b/../c", "/a/b", some "../b"), ("/a/b/c", "/a/c/d", some "../../c/d"),
   ("/a/b", "/c/d", some "../../c/d"), ("/a/b/c/d", "/a/b", some "../.."),
   ("/a/b/c/d", "/a/b/", some "../.."), ("/a/b/c/d/", "/a/b", some "../.."),
   ("/a/b/c/d/", "/a/b/", some "../.."), ("/../../a/b", "/../../a/b/c/d", some "c/d"),
   (".", "a/b", some "a/b"), (".", "..", some ".."),
   ("..", ".", none), ("..", "a", none), ("../..", "..", none), ("a", "/a", none),
   ("/a", "a", none)]

/-! ## Standard library: `net/url` -/

namespace url

/-- Go `ishex`. -/
def ishex (c : Char) : Bool :=
  ('0'.toNat ≤ c.toNat ∧ c.toNat ≤ '9'.toNat) ∨
  ('a'.toNat ≤ c.toNat ∧ c.toNat ≤ 'f'.toNat) ∨
  ('A'.toNat ≤ c.toNat ∧ c.toNat ≤ 'F'.toNat)

/-- Go `unhex`. -/
def unhex (c : Char) : Nat :=
  if '0'.toNat ≤ c.toNat ∧ c.toNat ≤ '9'.toNat then c.toNat - '0'.toNat
  else if 'a'.toNat ≤ c.toNat ∧ c.toNat ≤ 'f'.toNat then c.toNat - 'a'.toNat + 10
  else if 'A'.toNat ≤ c.toNat ∧ c.toNat ≤ 'F'.toNat then c.toNat - 'A'.toNat + 10
  else 0

/-- The two passes of Go `unescape` in mode `encodePathSegment`, on the bytes of the
string: a `%` must be followed by two hex digits and stands for the byte they spell;
every other byte (also `+`) stands for itself. -/
def unescapeBytes : List Char → Option (List Char)
  | [] => some []
  | c :: rest =>
    if c = '%' then
      match rest with
      | a :: b :: rest2 =>
        if ishex a && ishex b then
          (unescapeBytes rest2).map (fun t => Char.ofNat (unhex a * 16 + unhex b) :: t)
        else none
      | _ => none
    else (unescapeBytes rest).map (fun t => c :: t)

/-- Go `url.PathUnescape`; `none` stands for its `EscapeError`. -/
def PathUnescape (s : String) : Option String :=
  (unescapeBytes s.data).map String.mk

/-- Go `shouldEscape(c, encodePathSegment)`. -/
def shouldEscape (c : Char) : Bool :=
  if ('a'.toNat ≤ c.toNat ∧ c.toNat ≤ 'z'.toNat) ∨ ('A'.toNat ≤ c.toNat ∧ c.toNat ≤ 'Z'.toNat)
      ∨ ('0'.toNat ≤ c.toNat ∧ c.toNat ≤ '9'.toNat) then false
  else if c = '-' ∨ c = '_' ∨ c = '.' ∨ c = '~' then false
  else if c = '$' ∨ c = '&' ∨ c = '+' ∨ c = ':' ∨ c = '=' ∨ c = '@' then false
  else true

/-- The digit `"0123456789ABCDEF"[n]`. -/
def upperhex (n : Nat) : Char :=
  if n < 10 then Char.ofNat ('0'.toNat + n) else Char.ofNat ('A'.toNat + (n - 10))

/-- Go `escape(s, encodePathSegment)` on one byte. -/
def escapeByte (c : Char) : List Char :=
  if shouldEscape c then ['%', upperhex (c.toNat / 16 % 16), upperhex (c.toNat % 16)] else [c]

/-- Go `url.PathEscape`. -/
def PathEscape (s : String) : String :=
  String.mk (s.data.flatMap escapeByte)

end url

/-! ## Go maps -/

namespace gomap

/-- Go `m[k] = v`: the entry of `k` is replaced in place, a new key is added. -/
def set {α : Type} (k : String) (v : α) : List (String × α) → List (String × α)
  | [] => [(k, v)]
  | (k1, v1) :: rest => if k1 = k then (k1, v) :: rest else (k1, v1) :: set k v rest

/-- Go `delete(m, k)`. -/
def delete {α : Type} (k : String) (m : List (String × α)) : List (String × α) :=
  m.filter (fun e => e.1 != k)

end gomap

/-! ## `pathtrie/pathtrie.go` -/

/-- Go `type PathTrie struct { present bool; children map[string]*PathTrie }`. -/
inductive PathTrie where
  | mk (present : Bool) (children : List (String × PathTrie)) : PathTrie

namespace PathTrie

/-- Field `present`. -/
def present : PathTrie → Bool
  | mk p _ => p

/-- Field `children`. -/
def children : PathTrie → List (String × PathTrie)
  | mk _ cs => cs

/-- The zero value `PathTrie{}`. -/
def empty : PathTrie := mk false []

/-- Go `func (t *PathTrie) insert(segments []string)`. -/
def insert (t : PathTrie) : List String → PathTrie
  | [] => if t.present then t else mk true []
  | s :: rest =>
    if t.present then t
    else
      match t.children.lookup s with
      | some ct => mk false (gomap.set s (ct.insert rest) t.children)
      | none => mk false (gomap.set s (empty.insert rest) t.children)

/-- The `segments` that `Insert` computes from `path`. -/
def segmentsOf (path : String) : List String :=
  if path.length > 0 then strings.Split path filepath.Separator else []

/-- Go `func (t *PathTrie) Insert(path string)`. -/
def Insert (t : PathTrie) (path : String) : PathTrie :=
  t.insert (segmentsOf path)

mutual
/-- Go `func (t *PathTrie) walk(fn func(string), segments []string)`; the result lists
the arguments of the calls of `fn`, in the order of the calls. -/
def walk : PathTrie → List String → List String
  | mk true _, segments => [filepath.Join segments]
  | mk false cs, segments => walkChildren cs segments
/-- The loop `for s, c := range t.children` of `walk`. -/
def walkChildren : List (String × PathTrie) → List String → List String
  | [], _ => []
  | (s, c) :: rest, segments => walk c (segments ++ [s]) ++ walkChildren rest segments
end

/-- Go `func (t *PathTrie) Walk(fn func(string))`. -/
def Walk (t : PathTrie) : List String :=
  t.walk []

/-- Go `func (t *PathTrie) Clear()`. -/
def Clear (_t : PathTrie) : PathTrie :=
  mk false []

/-- Go `func (t *PathTrie) Empty() bool`. -/
def Empty (t : PathTrie) : Bool :=
  !t.present && t.children.length == 0

/-- The trie after `Insert` of each path of the list, in order, into the empty trie. -/
def build (paths : List String) : PathTrie :=
  paths.foldl Insert empty

end PathTrie

/-! ## `fswatch/fswatch.go` -/

/-- The errors of the operating system and of the notify library; `notExist` is the
one that `os.IsNotExist` recognises. -/
inductive FSError where
  | notExist : FSError
  | other : FSError
  deriving DecidableEq, Repr

/-- What the file system and the notify library answer during one step of the loop. -/
structure Env where
  /-- Go `os.Stat(path)`: an error, or whether `path` (symlinks followed) is a directory. -/
  stat : String → Except FSError Bool
  /-- Go `notify.Watch(path, ch, notify.All)`: `none` when the watch point is set. -/
  notifyWatch : String → Option FSError
  /-- Go `os.Readlink(path)`. -/
  readlink : String → Except FSError String

/-- The errors that `run` returns, one constructor for each place that makes one. -/
inductive Error where
  /-- The error `parseCommand: %s` around the error of `url.PathUnescape`. -/
  | parse : Error
  /-- The error `parseCommand: empty message`. -/
  | emptyMessage : Error
  /-- The error `expected ... args for CMD, but got %d`. -/
  | badArgs (cmd : String) (got : Nat) : Error
  /-- The error `START command issued with already-active replica`. -/
  | alreadyActive : Error
  /-- The error `CMD command issued without active replica`. -/
  | noActive (cmd : String) : Error
  /-- The error `unknown replica %q`. -/
  | unknownReplica (hash : String) : Error
  /-- The error `unknown command %q`. -/
  | unknownCommand (cmd : String) : Error
  /-- An error of `os.Stat`, `notify.Watch` or `os.Readlink`, passed on. -/
  | fs (e : FSError) : Error
  /-- The error `FSWatcher.Unwatch: no watcher registered for %q`. -/
  | notWatched (path : String) : Error
  /-- The error `internal error: receiving filesystem event: %s` around the error of
  `filepath.Rel`. -/
  | rel : Error
  /-- The error `filesystem event %s did not match any replica`. -/
  | unmatched (path : String) : Error
  /-- A `*replica` that points outside the heap; no state of the Go program has one. -/
  | dangling : Error
  deriving DecidableEq, Repr

/-- Go `type FSWatcher struct`, and the watch points that the notify library holds for it.
A channel is named by a number; `make(chan Event)` takes the next unused one. -/
structure FSWatcher where
  /-- Field `chans map[string]chan Event`. -/
  chans : List (String × Nat)
  /-- The watch points of the notify library: the watched path and the channel that
  receives its events. -/
  points : List (String × Nat)
  /-- The number of channels made so far. -/
  made : Nat
  deriving DecidableEq, Repr

namespace FSWatcher

/-- Go `fswatch.New()`. -/
def New : FSWatcher := { chans := [], points := [], made := 0 }

/-- Go `func (w *FSWatcher) Watch(path string) error`. -/
def Watch (env : Env) (w : FSWatcher) (path : String) : FSWatcher × Option FSError :=
  match env.stat path with
  | .error e => (w, some e)
  | .ok isDir =>
    let path := if isDir then filepath.Join [path, "..."] else path
    match w.chans.lookup path with
    | some _ => (w, none)
    | none =>
      let ch := w.made
      match env.notifyWatch path with
      | some e => ({ w with made := w.made + 1 }, some e)
      | none =>
        ({ chans := gomap.set path (w.made + 1) w.chans,
           points := w.points ++ [(path, ch)],
           made := w.made + 2 }, none)

/-- Go `func (w *FSWatcher) Unwatch(path string) error`; `notify.Stop(ch)` removes the
watch points registered for `ch`. -/
def Unwatch (w : FSWatcher) (path : String) : FSWatcher × Option Error :=
  match w.chans.lookup path with
  | none => (w, some (Error.notWatched path))
  | some ch =>
    ({ w with points := w.points.filter (fun p => p.2 != ch),
              chans := gomap.delete path w.chans }, none)

end FSWatcher

/-! ## `main.go` -/

/-- The loop of `parseCommand` over the pieces of the message. -/
def unescapeAll : List String → Option (List String)
  | [] => some []
  | arg :: rest =>
    match url.PathUnescape arg with
    | none => none
    | some a => (unescapeAll rest).map (fun out => a :: out)

/-- Go `func parseCommand(msg string) (cmd string, args []string, err error)`. -/
def parseCommand (msg : String) : Except Error (String × List String) :=
  match unescapeAll (strings.Split msg ' ') with
  | none => .error Error.parse
  | some [] => .error Error.emptyMessage
  | some (cmd :: args) => .ok (cmd, args)

/-- Go `func sendCommand(cmd string, args ...string)`: the text written to standard
output. -/
def sendCommand (cmd : String) (args : List String) : String :=
  cmd ++ String.join (args.map (fun arg => " " ++ url.PathEscape arg)) ++ "\n"

/-- Go `type replica struct`. -/
structure replica where
  hash : String
  basePath : String
  dirs : List (String × String)
  changes : PathTrie
  waiting : Bool

/-- The variables of `run` and the package variable `replicas`.  A `*replica` is an index
into `heap`, the list of the replica objects made so far. -/
structure Engine where
  /-- The replica objects made by `&replica{...}`, in the order of their making. -/
  heap : List replica
  /-- Go `var replicas = map[string]*replica{}`. -/
  replicas : List (String × Nat)
  /-- Go `state.r`; `none` is `nil`. -/
  r : Option Nat
  /-- Go `state.path`. -/
  path : String
  /-- Go `fsWatcher`. -/
  fsWatcher : FSWatcher

/-- The state of `run` when it enters its loop. -/
def Engine.init : Engine :=
  { heap := [], replicas := [], r := none, path := "", fsWatcher := FSWatcher.New }

/-- What one round of the loop of `run` does: the state it leaves, the text it writes with
`sendCommand`, in order, and the error with which `run` returns, if it returns. -/
structure Step where
  st : Engine
  out : List String
  err : Option Error

/-- Go `*p = f(*p)` for the pointer `i`. -/
def Engine.update (st : Engine) (i : Nat) (f : replica → replica) : Engine :=
  { st with heap := st.heap.modify f i }

/-- Go `for _, r := range replicas { r.waiting = false }`. -/
def clearWaiting : List (String × Nat) → Engine → Engine
  | [], st => st
  | (_, i) :: rest, st => clearWaiting rest (st.update i (fun r => { r with waiting := false }))

/-- A round that ends with `return err`. -/
def Step.fail (st : Engine) (e : Error) : Step :=
  { st := st, out := [], err := some e }

/-- Go `case "DEBUG"`.  The log is not part of the state. -/
def handleDEBUG (st : Engine) (args : List String) : Step :=
  if args.length ≠ 0 then Step.fail st (Error.badArgs "DEBUG" args.length)
  else { st := st, out := [], err := none }

/-- Go `case "START"`. -/
def handleSTART (env : Env) (st : Engine) (args : List String) : Step :=
  match args with
  | [hash, basePath, path] =>
    if st.r ≠ none then Step.fail st Error.alreadyActive
    else
      match st.replicas.lookup hash with
      | none =>
        let i := st.heap.length
        let st1 : Engine :=
          { st with
            heap := st.heap ++ [{ hash := hash, basePath := basePath,
                                  dirs := gomap.set basePath "" [],
                                  changes := PathTrie.empty, waiting := false }],
            replicas := gomap.set hash i st.replicas,
            r := some i }
        match FSWatcher.Watch env st1.fsWatcher basePath with
        | (w, some e) => Step.fail { st1 with fsWatcher := w } (Error.fs e)
        | (w, none) =>
          { st := { st1 with fsWatcher := w, path := path },
            out := [sendCommand "OK" []], err := none }
      | some i =>
        { st := { st with r := some i, path := path },
          out := [sendCommand "OK" []], err := none }
  | _ => Step.fail st (Error.badArgs "START" args.length)

/-- Go `case "DIR"`. -/
def handleDIR (st : Engine) (args : List String) : Step :=
  if args.length ≠ 1 then Step.fail st (Error.badArgs "DIR" args.length)
  else if st.r = none then Step.fail st (Error.noActive "DIR")
  else { st := st, out := [sendCommand "OK" []], err := none }

/-- Go `case "LINK"`. -/
def handleLINK (env : Env) (st : Engine) (args : List String) : Step :=
  match args with
  | [name] =>
    match st.r with
    | none => Step.fail st (Error.noActive "LINK")
    | some i =>
      match st.heap[i]? with
      | none => Step.fail st Error.dangling
      | some r =>
        let relPath := filepath.Join [st.path, name]
        let absPath := filepath.Join [r.basePath, relPath]
        match FSWatcher.Watch env st.fsWatcher absPath with
        | (w, some e) =>
          if e = FSError.notExist then { st := { st with fsWatcher := w }, out := [], err := none }
          else Step.fail { st with fsWatcher := w } (Error.fs e)
        | (w, none) =>
          let st1 : Engine := { st with fsWatcher := w }
          match env.readlink absPath with
          | .error e => Step.fail st1 (Error.fs e)
          | .ok target =>
            let relPath := if !strings.HasSuffix relPath "/" then relPath ++ "/" else relPath
            { st := st1.update i (fun r => { r with dirs := gomap.set target relPath r.dirs }),
              out := [sendCommand "OK" []], err := none }
  | _ => Step.fail st (Error.badArgs "LINK" args.length)

/-- Go `case "DONE"`. -/
def handleDONE (st : Engine) (args : List String) : Step :=
  if args.length ≠ 0 then Step.fail st (Error.badArgs "DONE" args.length)
  else if st.r = none then Step.fail st (Error.noActive "DONE")
  else { st := { st with r := none, path := "" }, out := [], err := none }

/-- Go `case "WAIT"`. -/
def handleWAIT (st : Engine) (args : List String) : Step :=
  match args with
  | [hash] =>
    match st.replicas.lookup hash with
    | none => Step.fail st (Error.unknownReplica hash)
    | some i =>
      match st.heap[i]? with
      | none => Step.fail st Error.dangling
      | some r =>
        if !r.changes.Empty then { st := st, out := [sendCommand "CHANGES" [hash]], err := none }
        else { st := st.update i (fun r => { r with waiting := true }), out := [], err := none }
  | _ => Step.fail st (Error.badArgs "WAIT" args.length)

/-- Go `case "CHANGES"`. -/
def handleCHANGES (st : Engine) (args : List String) : Step :=
  match args with
  | [hash] =>
    match st.replicas.lookup hash with
    | none => Step.fail st (Error.unknownReplica hash)
    | some i =>
      match st.heap[i]? with
      | none => Step.fail st Error.dangling
      | some r =>
        { st := st.update i (fun r => { r with changes := r.changes.Clear }),
          out := r.changes.Walk.map (fun c => sendCommand "RECURSIVE" [c])
                   ++ [sendCommand "DONE" []],
          err := none }
  | _ => Step.fail st (Error.badArgs "CHANGES" args.length)

/-- Go `for _, d := range r.dirs { if err := fsWatcher.Unwatch(...); err != nil { return err } }`
of `case "RESET"`. -/
def unwatchDirs (basePath : String) : List (String × String) → FSWatcher → FSWatcher × Option Error
  | [], w => (w, none)
  | (_, d) :: rest, w =>
    match FSWatcher.Unwatch w (filepath.Join [basePath, d]) with
    | (w1, some e) => (w1, some e)
    | (w1, none) => unwatchDirs basePath rest w1

/-- Go `case "RESET"`. -/
def handleRESET (st : Engine) (args : List String) : Step :=
  match args with
  | [hash] =>
    match st.replicas.lookup hash with
    | none => Step.fail st (Error.unknownReplica hash)
    | some i =>
      match st.heap[i]? with
      | none => Step.fail st Error.dangling
      | some r =>
        match unwatchDirs r.basePath r.dirs st.fsWatcher with
        | (w, some e) => Step.fail { st with fsWatcher := w } e
        | (w, none) =>
          { st := { st with fsWatcher := w, replicas := gomap.delete hash st.replicas },
            out := [], err := none }
  | _ => Step.fail st (Error.badArgs "RESET" args.length)

/-- Go `switch cmd` of `run`. -/
def dispatch (env : Env) (st : Engine) (cmd : String) (args : List String) : Step :=
  if cmd = "DEBUG" then handleDEBUG st args
  else if cmd = "START" then handleSTART env st args
  else if cmd = "DIR" then handleDIR st args
  else if cmd = "LINK" then handleLINK env st args
  else if cmd = "DONE" then handleDONE st args
  else if cmd = "WAIT" then handleWAIT st args
  else if cmd = "CHANGES" then handleCHANGES st args
  else if cmd = "RESET" then handleRESET st args
  else Step.fail st (Error.unknownCommand cmd)

/-- Go `case msg := <-messages` of `run`: one protocol line. -/
def handleMessage (env : Env) (st : Engine) (msg : String) : Step :=
  match parseCommand msg with
  | .error e => Step.fail st e
  | .ok (cmd, args) =>
    dispatch env (if cmd ≠ "WAIT" then clearWaiting st.replicas st else st) cmd args

/-- The state of the loops of the event case: the replica `r` of the outer loop, the text
written, the variable `found`, and the error with which `run` returns. -/
structure EventLoop where
  r : replica
  out : List String
  found : Bool
  err : Option Error

/-- The body of `for realPath, replPath := range r.dirs` of the event case; nothing runs
after a `return`. -/
def eventEntry (path : String) (acc : EventLoop) (entry : String × String) : EventLoop :=
  if acc.err ≠ none then acc
  else if strings.HasPrefix path entry.1 then
    match filepath.Rel entry.1 path with
    | none => { acc with err := some Error.rel }
    | some p =>
      let r1 : replica := { acc.r with changes := acc.r.changes.Insert (filepath.Join [entry.2, p]) }
      if r1.waiting then
        { r := { r1 with waiting := false },
          out := acc.out ++ [sendCommand "CHANGES" [r1.hash]],
          found := true, err := none }
      else { acc with r := r1, found := true }
  else acc

/-- The loop `for realPath, replPath := range r.dirs` on the replica `r`. -/
def eventReplica (path : String) (r : replica) (out : List String) (found : Bool) : EventLoop :=
  r.dirs.foldl (eventEntry path) { r := r, out := out, found := found, err := none }

/-- The loop `for _, r := range replicas` of the event case; the result is the state, the
text written, `found` and the error of a `return` inside the loop. -/
def eventReplicas (path : String) :
    List (String × Nat) → Engine → List String → Bool → Engine × List String × Bool × Option Error
  | [], st, out, found => (st, out, found, none)
  | (_, i) :: rest, st, out, found =>
    match st.heap[i]? with
    | none => (st, out, found, some Error.dangling)
    | some r =>
      let res := eventReplica path r out found
      let st1 := st.update i (fun _ => res.r)
      match res.err with
      | some e => (st1, res.out, res.found, some e)
      | none => eventReplicas path rest st1 res.out res.found

/-- Go `case event := <-fsWatcher.Events` of `run`: one filesystem event, `path` being
`event.Path()`. -/
def handleEvent (st : Engine) (path : String) : Step :=
  match eventReplicas path st.replicas st [] false with
  | (st1, out, _, some e) => { st := st1, out := out, err := some e }
  | (st1, out, found, none) =>
    if !found then { st := st1, out := out, err := some (Error.unmatched path) }
    else { st := st1, out := out, err := none }

/-- An input of the loop of `run`: a protocol line or a filesystem event, together with
what the file system answers while it is handled. -/
inductive Input where
  | message (env : Env) (msg : String) : Input
  | event (path : String) : Input

/-- One round of the loop of `run`. -/
def step (st : Engine) : Input → Step
  | Input.message env msg => handleMessage env st msg
  | Input.event path => handleEvent st path

/-- The rounds of `run` on a list of inputs, from the state `st` with `out` already
written: the loop ends at the first error. -/
def runFrom : List Input → Engine → List String → Step
  | [], st, out => { st := st, out := out, err := none }
  | i :: rest, st, out =>
    let s := step st i
    match s.err with
    | some e => { st := s.st, out := out ++ s.out, err := some e }
    | none => runFrom rest s.st (out ++ s.out)

/-- The replica that the registry holds for `hash`. -/
def Engine.replicaOf (st : Engine) (hash : String) : Option replica :=
  match st.replicas.lookup hash with
  | none => none
  | some i => st.heap[i]?

/-! ## Vocabulary of the statements -/

namespace PathTrie

/-- Whether the segments lead, child by child, exactly to a node with `present` set. -/
def isStored (t : PathTrie) : List String → Bool
  | [] => t.present
  | s :: rest =>
    !t.present && match t.children.lookup s with
      | some c => c.isStored rest
      | none => false

/-- Whether the descent of `insert` along the segments meets a node with `present` set. -/
def covered (t : PathTrie) : List String → Bool
  | [] => t.present
  | s :: rest =>
    t.present || match t.children.lookup s with
      | some c => c.covered rest
      | none => false

mutual
/-- The segment lists of the nodes that `walk` reports, relative to the node `t`. -/
def paths : PathTrie → List (List String)
  | mk true _ => [[]]
  | mk false cs => pathsChildren cs
/-- The segment lists that `walkChildren` reports. -/
def pathsChildren : List (String × PathTrie) → List (List String)
  | [] => []
  | (s, c) :: rest => (paths c).map (fun p => s :: p) ++ pathsChildren rest
end

mutual
/-- A trie as `insert` builds them: every map has one entry per key and every child holds
a path. -/
def wf : PathTrie → Prop
  | mk _ cs => wfChildren cs
/-- The condition `wf` on a map of children. -/
def wfChildren : List (String × PathTrie) → Prop
  | [] => True
  | (s, c) :: rest => rest.lookup s = none ∧ paths c ≠ [] ∧ wf c ∧ wfChildren rest
end

/-- The path `a` is a proper ancestor of the path `p`: the segments of `a` are a proper
prefix of the segments of `p`. -/
def properAncestor (a p : String) : Prop :=
  segmentsOf a <+: segmentsOf p ∧ segmentsOf a ≠ segmentsOf p

/-- The path `p` is one of `paths` and none of `paths` is a proper ancestor of it. -/
def minimalIn (paths : List String) (p : String) : Prop :=
  p ∈ paths ∧ ∀ q ∈ paths, ¬ properAncestor q p

/-- A call of `Insert` or of `Clear`. -/
inductive Op where
  | Insert (path : String) : Op
  | Clear : Op

/-- The trie after the call `op` on `t`. -/
def applyOp (t : PathTrie) : Op → PathTrie
  | Op.Insert path => t.Insert path
  | Op.Clear => t.Clear

/-- The trie after the calls `ops`, in order, on the empty trie. -/
def afterOps (ops : List Op) : PathTrie :=
  ops.foldl applyOp empty

end PathTrie

/-- A path element that `Clean` keeps as it is: not empty, not `.`, not `..`, without a
separator. -/
def isName (s : String) : Bool :=
  s != "" && s != "." && s != ".." && !decide (filepath.Separator ∈ s.data)

/-- No replica of the registry has its `waiting` flag set. -/
def Engine.quiet (st : Engine) : Prop :=
  ∀ e ∈ st.replicas, ∀ r, st.heap[e.2]? = some r → r.waiting = false

/-- Whether the event case inserts a change into `r` for the event path: some key of
`r.dirs` is a prefix of it. -/
def replica.matches (r : replica) (path : String) : Bool :=
  r.dirs.any (fun d => strings.HasPrefix path d.1)

/-- The logical paths that the event case passes to `r.changes.Insert` for the event
path, in order: one for each entry of `r.dirs` whose key is a prefix of it. -/
def replica.eventPaths (r : replica) (path : String) : List String :=
  r.dirs.filterMap (fun d =>
    if strings.HasPrefix path d.1 then
      (filepath.Rel d.1 path).map (fun p => filepath.Join [d.2, p])
    else none)

/-- The call of `filepath.Rel` succeeds for every entry of `r.dirs` whose key is a prefix of the
event path. -/
def replica.relOk (r : replica) (path : String) : Prop :=
  ∀ d ∈ r.dirs, strings.HasPrefix path d.1 = true → filepath.Rel d.1 path ≠ none

/-- The replica after the event case has run its inner loop on it without an error. -/
def replica.afterEvent (r : replica) (path : String) : replica :=
  { r with
    changes := (r.eventPaths path).foldl PathTrie.Insert r.changes,
    waiting := r.waiting && !r.matches path }

/-- The text that the inner loop of the event case writes for the replica `r`. -/
def replica.eventOut (r : replica) (path : String) : List String :=
  if r.waiting && r.matches path then [sendCommand "CHANGES" [r.hash]] else []

/-! ## A concrete run -/

/-- A file system in which `/repo` is a directory, `/repo/link` is a symlink to the
directory `/other/dir`, and nothing else exists. -/
def exampleEnv : Env :=
  { stat := fun p =>
      if p = "/repo" ∨ p = "/repo/link" ∨ p = "/other/dir" then .ok true
      else .error FSError.notExist,
    notifyWatch := fun _ => none,
    readlink := fun p => if p = "/repo/link" then .ok "/other/dir" else .error FSError.other }

/-- The file system of `exampleEnv` with the symlink `/repo/link` written relative to its
directory: its text is `../other/dir`, and it leads to the same directory `/other/dir`. -/
def exampleRelEnv : Env :=
  { stat := fun p =>
      if p = "/repo" ∨ p = "/repo/link" ∨ p = "/other/dir" then .ok true
      else .error FSError.notExist,
    notifyWatch := fun _ => none,
    readlink := fun p => if p = "/repo/link" then .ok "../other/dir" else .error FSError.other }

/-- The replica `H` with base `/repo`, as `START H /repo` makes it, holding the changes
`changes` and the flag `waiting`. -/
def exampleReplica (changes : PathTrie) (waiting : Bool) : replica :=
  { hash := "H", basePath := "/repo", dirs := [("/repo", "")], changes := changes,
    waiting := waiting }

/-- The engine after `START H /repo` and `DONE`, with the replica `H` holding `changes` and
`waiting`. -/
def exampleEngine (changes : PathTrie) (waiting : Bool) : Engine :=
  { heap := [exampleReplica changes waiting], replicas := [("H", 0)], r := none, path := "",
    fsWatcher := { chans := [("/repo/...", 1)], points := [("/repo/...", 0)], made := 2 } }

/-- The engine after `START H /repo` with the empty path: the replica `H` is active. -/
def exampleActive : Engine :=
  { exampleEngine PathTrie.empty false with r := some 0, path := "" }

/-- A file system in which `/f` is a regular file and nothing else exists. -/
def exampleFileEnv : Env :=
  { stat := fun p => if p = "/f" then .ok false else .error FSError.notExist,
    notifyWatch := fun _ => none,
    readlink := fun _ => .error FSError.other }

/-- A file system in which `/repo` and `/repo-backup` are directories and `/repo/self` is a
symlink to `/repo`. -/
def exampleEnv2 : Env :=
  { stat := fun p =>
      if p = "/repo" ∨ p = "/repo-backup" ∨ p = "/repo/self" then .ok true
      else .error FSError.notExist,
    notifyWatch := fun _ => none,
    readlink := fun p => if p = "/repo/self" then .ok "/repo" else .error FSError.other }

/-- The number of arguments that the case of `cmd` in `run` expects. -/
def arity (cmd : String) : Option Nat :=
  if cmd = "DEBUG" then some 0
  else if cmd = "START" then some 3
  else if cmd = "DIR" then some 1
  else if cmd = "LINK" then some 1
  else if cmd = "DONE" then some 0
  else if cmd = "WAIT" then some 1
  else if cmd = "CHANGES" then some 1
  else if cmd = "RESET" then some 1
  else none

/-! ## Invariants of the run -/

/-- What a replica object keeps through every round of `run`: `basePath` is a key of
`dirs`, every value of `dirs` is empty or ends with the separator, and `waiting` is set
only while `changes` is empty. -/
def replica.sound (r : replica) : Prop :=
  r.basePath ∈ r.dirs.map Prod.fst ∧
  (∀ e ∈ r.dirs, e.2 = "" ∨ strings.HasSuffix e.2 "/" = true) ∧
  (r.waiting = true → r.changes.Empty = true)

/-- Every replica object made so far is `sound`. -/
def Engine.sound (st : Engine) : Prop :=
  ∀ r ∈ st.heap, r.sound

/-- What the registry keeps through every round of `run`: its pointers are distinct and
each points to a replica object. -/
def Engine.regOk (st : Engine) : Prop :=
  (st.replicas.map Prod.snd).Nodup ∧ ∀ e ∈ st.replicas, e.2 < st.heap.length

/-! # Theorems -/

/-! ## The library definitions on the examples of the Go library -/

theorem filepath_Clean_examples :
    cleanExamples.all (fun t => filepath.Clean t.1 == t.2) = true := by
  decide

theorem filepath_Join_examples :
    joinExamples.all (fun t => filepath.Join t.1 == t.2) = true := by
  decide

theorem filepath_Rel_examples :
    relExamples.all (fun t => filepath.Rel t.1 t.2.1 == t.2.2) = true := by
  decide

theorem url_escape_examples :
    url.PathEscape "a b/c%d$&+,;=?@" = "a%20b%2Fc%25d$&+%2C%3B=%3F@" ∧
    url.PathUnescape "a%20b%2Fc%25d+" = some "a b/c%d+" ∧
    url.PathUnescape "%zz" = none ∧ url.PathUnescape "a%2" = none := by
  decide

/-! ## Go maps: lookup after assignment -/

namespace gomap

theorem lookup_set_self {α : Type} (k : String) (v : α) (m : List (String × α)) :
    (set k v m).lookup k = some v := by
  induction m with
  | nil => simp [set, List.lookup]
  | cons e rest ih =>
    obtain ⟨k1, v1⟩ := e
    by_cases h : k1 = k
    · subst h; simp [set, List.lookup]
    · have h2 : (k == k1) = false := by simpa using fun h3 => h h3.symm
      simp [set, h, List.lookup, h2, ih]

theorem lookup_set_ne {α : Type} {k k2 : String} (v : α) (m : List (String × α)) (hne : k2 ≠ k) :
    (set k v m).lookup k2 = m.lookup k2 := by
  induction m with
  | nil =>
    have h2 : (k2 == k) = false := by simpa using hne
    simp [set, List.lookup, h2]
  | cons e rest ih =>
    obtain ⟨k1, v1⟩ := e
    by_cases h : k1 = k
    · subst h
      have h2 : (k2 == k1) = false := by simpa using hne
      simp [set, List.lookup, h2]
    · by_cases h3 : k2 = k1
      · subst h3; simp [set, h, List.lookup]
      · have h4 : (k2 == k1) = false := by simpa using h3
        simp [set, h, List.lookup, h4, ih]

theorem set_eq_self {α : Type} {k : String} {v : α} {m : List (String × α)}
    (h : m.lookup k = some v) : set k v m = m := by
  induction m with
  | nil => simp [List.lookup] at h
  | cons e rest ih =>
    obtain ⟨k1, v1⟩ := e
    by_cases h1 : k1 = k
    · subst h1
      simp [List.lookup] at h
      simp [set, h]
    · have h2 : (k == k1) = false := by simpa using fun h3 => h1 h3.symm
      simp [List.lookup, h2] at h
      simp [set, h1, ih h]

end gomap

namespace PathTrie

@[simp] theorem present_mk (p : Bool) (cs : List (String × PathTrie)) : (mk p cs).present = p := rfl

@[simp] theorem children_mk (p : Bool) (cs : List (String × PathTrie)) :
    (mk p cs).children = cs := rfl

theorem insert_nil (t : PathTrie) : t.insert [] = if t.present then t else mk true [] := rfl

theorem insert_cons (t : PathTrie) (s : String) (rest : List String) :
    t.insert (s :: rest) =
      if t.present then t
      else mk false (gomap.set s (((t.children.lookup s).getD empty).insert rest) t.children) := by
  cases h : t.children.lookup s <;> simp [insert, h]

theorem isStored_nil (t : PathTrie) : t.isStored [] = t.present := rfl

theorem isStored_cons (t : PathTrie) (s : String) (rest : List String) :
    t.isStored (s :: rest) =
      (!t.present && ((t.children.lookup s).getD empty).isStored rest) := by
  cases h : t.children.lookup s with
  | none => cases rest <;> simp [isStored, h, empty, List.lookup]
  | some c => simp [isStored, h]

theorem covered_nil (t : PathTrie) : t.covered [] = t.present := rfl

theorem covered_cons (t : PathTrie) (s : String) (rest : List String) :
    t.covered (s :: rest) =
      (t.present || ((t.children.lookup s).getD empty).covered rest) := by
  cases h : t.children.lookup s with
  | none => cases rest <;> simp [covered, h, empty, List.lookup]
  | some c => simp [covered, h]

theorem covered_empty (segs : List String) : empty.covered segs = false := by
  cases segs <;> simp [covered, empty, List.lookup]

theorem isStored_empty (segs : List String) : empty.isStored segs = false := by
  cases segs <;> simp [isStored, empty, List.lookup]

theorem insert_of_covered (segs : List String) :
    ∀ t : PathTrie, t.covered segs = true → t.insert segs = t := by
  induction segs with
  | nil => intro t h; simp [covered_nil] at h; simp [insert_nil, h]
  | cons s rest ih =>
    intro t h
    obtain ⟨p, cs⟩ := t
    cases p with
    | true => simp [insert_cons]
    | false =>
      simp only [covered, present_mk, children_mk, Bool.false_or] at h
      cases hl : cs.lookup s with
      | none => simp [hl] at h
      | some c =>
        simp only [hl] at h
        simp [insert_cons, hl, ih c h, gomap.set_eq_self hl]

theorem isStored_insert (x : List String) :
    ∀ (t : PathTrie) (p : List String),
      (t.insert x).isStored p =
        if t.covered x then t.isStored p
        else (p == x) || (t.isStored p && !(x.isPrefixOf p)) := by
  induction x with
  | nil =>
    intro t p
    obtain ⟨pr, cs⟩ := t
    cases pr <;> cases p <;> simp [insert_nil, covered_nil, isStored_nil, isStored_cons]
  | cons s rest ih =>
    intro t p
    obtain ⟨pr, cs⟩ := t
    cases pr with
    | true => simp [insert_cons, covered_cons]
    | false =>
      cases p with
      | nil => simp [insert_cons, covered_cons, isStored_nil]
      | cons k q =>
        by_cases hk : k = s
        · subst hk
          by_cases hc : ((cs.lookup k).getD empty).covered rest = true
          · simp [insert_cons, covered_cons, isStored_cons, gomap.lookup_set_self, ih, hc]
          · simp [insert_cons, covered_cons, isStored_cons, gomap.lookup_set_self, ih, hc]
        · have hsk : (s == k) = false := by simpa using fun h => hk h.symm
          by_cases hc : ((cs.lookup s).getD empty).covered rest = true
          · simp [insert_cons, covered_cons, isStored_cons, gomap.lookup_set_ne _ _ hk, hc]
          · have hks : (k == s) = false := by simpa using hk
            simp [insert_cons, covered_cons, isStored_cons, gomap.lookup_set_ne _ _ hk, hc, hk,
              hsk, hks, List.isPrefixOf]

theorem covered_iff (x : List String) :
    ∀ t : PathTrie, t.covered x = true ↔ ∃ p, p <+: x ∧ t.isStored p = true := by
  induction x with
  | nil =>
    intro t
    constructor
    · intro h; exact ⟨[], List.prefix_refl _, by simpa [covered_nil, isStored_nil] using h⟩
    · rintro ⟨p, hp, hs⟩
      have : p = [] := List.prefix_nil.mp hp
      subst this
      simpa [covered_nil, isStored_nil] using hs
  | cons s rest ih =>
    intro t
    obtain ⟨pr, cs⟩ := t
    cases pr with
    | true =>
      simp only [covered_cons, present_mk, Bool.true_or, true_iff]
      exact ⟨[], List.nil_prefix, by simp [isStored_nil]⟩
    | false =>
      simp only [covered_cons, present_mk, children_mk, Bool.false_or]
      rw [ih]
      constructor
      · rintro ⟨p, hp, hs⟩
        exact ⟨s :: p, List.cons_prefix_cons.mpr ⟨rfl, hp⟩, by simp [isStored_cons, hs]⟩
      · rintro ⟨p, hp, hs⟩
        cases p with
        | nil => simp [isStored_nil] at hs
        | cons k q =>
          obtain ⟨hk, hq⟩ := List.cons_prefix_cons.mp hp
          subst hk
          exact ⟨q, hq, by simpa [isStored_cons] using hs⟩

theorem induct {P : PathTrie → Prop} {Q : List (String × PathTrie) → Prop}
    (hmk : ∀ p cs, Q cs → P (mk p cs)) (hnil : Q [])
    (hcons : ∀ s c rest, P c → Q rest → Q ((s, c) :: rest)) :
    (∀ t, P t) ∧ (∀ cs, Q cs) :=
  ⟨fun t => @PathTrie.rec P Q (fun e => P e.2) hmk hnil
      (fun e rest he hr => hcons e.1 e.2 rest he hr) (fun _ _ h => h) t,
   fun cs => @PathTrie.rec_1 P Q (fun e => P e.2) hmk hnil
      (fun e rest he hr => hcons e.1 e.2 rest he hr) (fun _ _ h => h) cs⟩

theorem walk_eq_paths_both :
    (∀ (t : PathTrie) (segs : List String),
      t.walk segs = (paths t).map (fun p => filepath.Join (segs ++ p))) ∧
    (∀ (cs : List (String × PathTrie)) (segs : List String),
      walkChildren cs segs = (pathsChildren cs).map (fun p => filepath.Join (segs ++ p))) := by
  apply induct
  · intro p cs ih segs
    cases p
    · simpa [walk, paths] using ih segs
    · simp [walk, paths]
  · intro segs
    simp [walkChildren, pathsChildren]
  · intro s c rest ihc ihr segs
    simp [walkChildren, pathsChildren, ihc (segs ++ [s]), ihr segs, Function.comp_def]

theorem walk_eq_paths (t : PathTrie) (segs : List String) :
    t.walk segs = (paths t).map (fun p => filepath.Join (segs ++ p)) :=
  walk_eq_paths_both.1 t segs

theorem Walk_eq_paths (t : PathTrie) : t.Walk = (paths t).map filepath.Join := by
  simpa [Walk] using walk_eq_paths t []

theorem wfChildren_lookup {cs : List (String × PathTrie)} (h : wfChildren cs) {s : String}
    {c : PathTrie} (hl : cs.lookup s = some c) : wf c ∧ paths c ≠ [] := by
  induction cs with
  | nil => simp [List.lookup] at hl
  | cons e rest ih =>
    obtain ⟨k, v⟩ := e
    simp only [wfChildren] at h
    by_cases hk : s = k
    · subst hk
      simp [List.lookup] at hl
      subst hl
      exact ⟨h.2.2.1, h.2.1⟩
    · have h2 : (s == k) = false := by simpa using hk
      simp [List.lookup, h2] at hl
      exact ih h.2.2.2 hl

theorem wf_empty : wf empty := by simp [empty, wf, wfChildren]

theorem wf_getD {cs : List (String × PathTrie)} (h : wfChildren cs) (s : String) :
    wf ((cs.lookup s).getD empty) := by
  cases hl : cs.lookup s with
  | none => simpa using wf_empty
  | some c => simpa using (wfChildren_lookup h hl).1

theorem mem_paths_iff_both :
    (∀ (t : PathTrie), wf t → ∀ p, p ∈ paths t ↔ t.isStored p = true) ∧
    (∀ (cs : List (String × PathTrie)), wfChildren cs →
      [] ∉ pathsChildren cs ∧
      ∀ s q, s :: q ∈ pathsChildren cs ↔ ((cs.lookup s).getD empty).isStored q = true) := by
  apply induct
  · intro pr cs ih h p
    cases pr with
    | true => cases p <;> simp [paths, isStored_nil, isStored_cons]
    | false =>
      have h2 : wfChildren cs := by simpa [wf] using h
      cases p with
      | nil => simpa [paths, isStored_nil] using (ih h2).1
      | cons s q => simpa [paths, isStored_cons] using (ih h2).2 s q
  · intro _
    simp [pathsChildren, List.lookup, isStored_empty]
  · intro k c rest ihc ihr h
    simp only [wfChildren] at h
    obtain ⟨hnone, _, hc, hrest⟩ := h
    have ih := ihr hrest
    have ihc := ihc hc
    refine ⟨by simpa [pathsChildren] using ih.1, ?_⟩
    intro s q
    by_cases hk : s = k
    · subst hk
      have : ¬ (s :: q ∈ pathsChildren rest) := by
        rw [ih.2, hnone]; simp [isStored_empty]
      simp [pathsChildren, List.lookup, this, ihc]
    · have h2 : (s == k) = false := by simpa using hk
      have h3 : ¬ k = s := fun h => hk h.symm
      simp [pathsChildren, List.lookup, h2, ih.2, h3]

theorem mem_paths_iff (t : PathTrie) (h : wf t) (p : List String) :
    p ∈ paths t ↔ t.isStored p = true :=
  mem_paths_iff_both.1 t h p

theorem nodup_paths_both :
    (∀ (t : PathTrie), wf t → (paths t).Nodup) ∧
    (∀ (cs : List (String × PathTrie)), wfChildren cs → (pathsChildren cs).Nodup) := by
  apply induct
  · intro pr cs ih h
    cases pr with
    | true => simp [paths]
    | false =>
      have h2 : wfChildren cs := by simpa [wf] using h
      simpa [paths] using ih h2
  · intro _
    simp [pathsChildren]
  · intro k c rest ihc ihr h
    simp only [wfChildren] at h
    obtain ⟨hnone, _, hc, hrest⟩ := h
    simp only [pathsChildren]
    refine List.Nodup.append ?_ (ihr hrest) ?_
    · exact (ihc hc).map (fun a b hab => by simpa using hab)
    · intro p hp1 hp2
      simp only [List.mem_map] at hp1
      obtain ⟨q, _, rfl⟩ := hp1
      rw [(mem_paths_iff_both.2 rest hrest).2, hnone] at hp2
      simp [isStored_empty] at hp2

theorem nodup_paths (t : PathTrie) (h : wf t) : (paths t).Nodup :=
  nodup_paths_both.1 t h

theorem pathsChildren_set_ne_nil (s : String) (c : PathTrie) (hc : paths c ≠ []) :
    ∀ cs : List (String × PathTrie), pathsChildren (gomap.set s c cs) ≠ []
  | [] => by simpa [gomap.set, pathsChildren] using hc
  | (k, v) :: rest => by
    by_cases hk : k = s
    · simp [gomap.set, hk, pathsChildren, hc]
    · simp only [gomap.set, hk, if_false, pathsChildren]
      intro h
      exact pathsChildren_set_ne_nil s c hc rest (List.append_eq_nil.mp h).2

theorem paths_insert_ne_nil (x : List String) : ∀ t : PathTrie, paths (t.insert x) ≠ [] := by
  induction x with
  | nil =>
    intro t
    obtain ⟨pr, cs⟩ := t
    cases pr <;> simp [insert_nil, paths]
  | cons s rest ih =>
    intro t
    obtain ⟨pr, cs⟩ := t
    cases pr with
    | true => simp [insert_cons, paths]
    | false =>
      simp only [insert_cons, present_mk, children_mk, Bool.false_eq_true, if_false, paths]
      exact pathsChildren_set_ne_nil s _ (ih _) cs

theorem wfChildren_set (s : String) (c : PathTrie) (hc : wf c) (hp : paths c ≠ []) :
    ∀ cs : List (String × PathTrie), wfChildren cs → wfChildren (gomap.set s c cs)
  | [], _ => by simp [gomap.set, wfChildren, List.lookup, hc, hp]
  | (k, v) :: rest, h => by
    simp only [wfChildren] at h
    by_cases hk : k = s
    · subst hk
      simp [gomap.set, wfChildren, hc, hp, h.2.2.2, h.1]
    · simp only [gomap.set, hk, if_false, wfChildren]
      exact ⟨by rw [gomap.lookup_set_ne _ _ hk]; exact h.1, h.2.1, h.2.2.1,
        wfChildren_set s c hc hp rest h.2.2.2⟩

theorem wf_insert (x : List String) : ∀ t : PathTrie, wf t → wf (t.insert x) := by
  induction x with
  | nil =>
    intro t h
    obtain ⟨pr, cs⟩ := t
    cases pr
    · simp [insert_nil, wf, wfChildren]
    · simpa [insert_nil] using h
  | cons s rest ih =>
    intro t h
    obtain ⟨pr, cs⟩ := t
    cases pr with
    | true => simpa [insert_cons] using h
    | false =>
      have h2 : wfChildren cs := by simpa [wf] using h
      simp only [insert_cons, present_mk, children_mk, Bool.false_eq_true, if_false, wf]
      exact wfChildren_set s _ (ih _ (wf_getD h2 s)) (paths_insert_ne_nil rest _) cs h2

theorem empty_iff_paths {t : PathTrie} (h : wf t) : t.Empty = true ↔ paths t = [] := by
  obtain ⟨pr, cs⟩ := t
  cases pr with
  | true => simp [Empty, paths]
  | false =>
    cases cs with
    | nil => simp [Empty, paths, pathsChildren]
    | cons e rest =>
      obtain ⟨k, c⟩ := e
      have h2 : paths c ≠ [] := by
        simp only [wf, wfChildren] at h
        exact h.2.1
      simp [Empty, paths, pathsChildren, h2]

end PathTrie

/-! ## Paths made of names -/

namespace strings

theorem data_map_mk (l : List (List Char)) : (l.map String.mk).map String.data = l := by
  induction l with
  | nil => rfl
  | cons a l ih => simp [ih]

theorem mk_map_data (l : List String) : (l.map String.data).map String.mk = l := by
  induction l with
  | nil => rfl
  | cons a l ih => simp [ih]

theorem Join_Split (p : String) : Join (Split p '/') "/" = p := by
  have h : ['/'].intercalate (p.data.splitOn '/') = p.data := List.intercalate_splitOn p.data '/'
  show String.mk (['/'].intercalate (((p.data.splitOn '/').map String.mk).map String.data)) = p
  rw [data_map_mk, h]

theorem Split_Join (segs : List String) (hne : segs ≠ [])
    (h : ∀ s ∈ segs, '/' ∉ s.data) : Split (Join segs "/") '/' = segs := by
  have h2 : (['/'].intercalate (segs.map String.data)).splitOn '/' = segs.map String.data :=
    List.splitOn_intercalate (segs.map String.data) '/'
      (by
        intro l hl
        obtain ⟨s, hs, rfl⟩ := List.mem_map.mp hl
        exact h s hs)
      (by simpa using hne)
  show ((['/'].intercalate (segs.map String.data)).splitOn '/').map String.mk = segs
  rw [h2, mk_map_data]

end strings

theorem isName_iff (s : String) :
    isName s = true ↔ s ≠ "" ∧ s ≠ "." ∧ s ≠ ".." ∧ '/' ∉ s.data := by
  simp [isName, filepath.Separator, and_assoc]

namespace strings

theorem Join_nil (sep : String) : Join [] sep = "" := rfl

theorem Join_singleton (s : String) (sep : String) : Join [s] sep = s := by
  apply String.ext
  simp [Join, List.intercalate, List.intersperse]

theorem Join_cons_cons (s t : String) (rest : List String) (sep : String) :
    Join (s :: t :: rest) sep = s ++ sep ++ Join (t :: rest) sep := by
  apply String.ext
  simp [Join, List.intercalate, List.intersperse]

theorem Join_append (xs ys : List String) (hx : xs ≠ []) (hy : ys ≠ []) (sep : String) :
    Join (xs ++ ys) sep = Join xs sep ++ sep ++ Join ys sep := by
  induction xs with
  | nil => exact absurd rfl hx
  | cons a xs ih =>
    cases xs with
    | nil =>
      cases ys with
      | nil => exact absurd rfl hy
      | cons b ys => simp [Join_cons_cons, Join_singleton]
    | cons a2 xs =>
      have h := ih (by simp)
      simp only [List.cons_append] at h ⊢
      rw [Join_cons_cons, h, Join_cons_cons]
      apply String.ext
      simp [List.append_assoc]

end strings

namespace filepath

theorem cleanElem_name (rooted : Bool) (out : List String) (e : String) (h : isName e = true) :
    cleanElem rooted out e = e :: out := by
  obtain ⟨h1, h2, h3, _⟩ := (isName_iff e).mp h
  simp [cleanElem, h1, h2, h3]

theorem foldl_cleanElem_names (rooted : Bool) :
    ∀ (segs out : List String), (∀ s ∈ segs, isName s = true) →
      segs.foldl (cleanElem rooted) out = segs.reverse ++ out
  | [], out, _ => by simp
  | e :: segs, out, h => by
    have he : isName e = true := h e (by simp)
    have ih := foldl_cleanElem_names rooted segs (e :: out) (fun s hs => h s (by simp [hs]))
    simp [List.foldl, cleanElem_name rooted out e he, ih]

theorem Join_head_data (s : String) (rest : List String) (sep : String) :
    ∃ tl, (strings.Join (s :: rest) sep).data = s.data ++ tl := by
  cases rest with
  | nil => exact ⟨[], by simp [strings.Join_singleton]⟩
  | cons t rest => exact ⟨sep.data ++ (strings.Join (t :: rest) sep).data, by
      simp [strings.Join_cons_cons, List.append_assoc]⟩

theorem Join_names_head (s : String) (rest : List String) (h : isName s = true) :
    ∃ c tl, (strings.Join (s :: rest) "/").data = c :: tl ∧ c ≠ '/' := by
  obtain ⟨h1, _, _, h4⟩ := (isName_iff s).mp h
  obtain ⟨tl, htl⟩ := Join_head_data s rest "/"
  cases hd : s.data with
  | nil => exact absurd (String.ext (by simpa using hd)) h1
  | cons c cs =>
    refine ⟨c, cs ++ tl, by simp [htl, hd], ?_⟩
    intro hc
    apply h4
    rw [hd, hc]
    simp

theorem Clean_names (segs : List String) (hne : segs ≠ []) (h : ∀ s ∈ segs, isName s = true) :
    Clean (strings.Join segs "/") = strings.Join segs "/" := by
  cases segs with
  | nil => exact absurd rfl hne
  | cons s rest =>
    obtain ⟨c, tl, hdata, hc⟩ := Join_names_head s rest (h s (by simp))
    have h1 : strings.Join (s :: rest) "/" ≠ "" := by
      intro h0
      rw [h0] at hdata
      simp at hdata
    have h2 : strings.HasPrefix (strings.Join (s :: rest) "/") "/" = false := by
      have hsl : ("/" : String).data = ['/'] := rfl
      simp only [strings.HasPrefix, hdata, hsl, List.isPrefixOf]
      simpa using fun hh => hc hh.symm
    have h3 : strings.Split (strings.Join (s :: rest) "/") Separator = s :: rest :=
      strings.Split_Join (s :: rest) hne (fun t ht => ((isName_iff t).mp (h t ht)).2.2.2)
    simp only [Clean, h1, if_false, h2, h3, foldl_cleanElem_names false (s :: rest) [] h]
    simp

theorem Join_names (segs : List String) (h : ∀ s ∈ segs, isName s = true) :
    Join segs = strings.Join segs "/" := by
  cases segs with
  | nil => rfl
  | cons s rest =>
    have h1 : s ≠ "" := ((isName_iff s).mp (h s (by simp))).1
    simp only [Join, h1, if_false]
    exact Clean_names (s :: rest) (by simp) h

end filepath

namespace PathTrie

theorem Join_segmentsOf (p : String) : strings.Join (segmentsOf p) "/" = p := by
  unfold segmentsOf
  split
  · exact strings.Join_Split p
  · rename_i h
    have h2 : p.length = 0 := by omega
    have : p.data = [] := List.length_eq_zero.mp h2
    exact String.ext (by simp [strings.Join_nil, this])

theorem segmentsOf_injective {a b : String} (h : segmentsOf a = segmentsOf b) : a = b := by
  rw [← Join_segmentsOf a, ← Join_segmentsOf b, h]

theorem filepathJoin_segmentsOf (p : String) (h : ∀ s ∈ segmentsOf p, isName s = true) :
    filepath.Join (segmentsOf p) = p := by
  rw [filepath.Join_names _ h, Join_segmentsOf]

end PathTrie

namespace PathTrie

theorem covered_extend {t : PathTrie} {q x : List String} (h : t.covered q = true)
    (hp : q <+: x) : t.covered x = true := by
  obtain ⟨p, hpq, hs⟩ := (covered_iff q t).mp h
  exact (covered_iff x t).mpr ⟨p, hpq.trans hp, hs⟩

theorem covered_insert_self (x : List String) (t : PathTrie) : (t.insert x).covered x = true := by
  by_cases hc : t.covered x = true
  · rw [insert_of_covered x t hc]; exact hc
  · exact (covered_iff x _).mpr ⟨x, List.prefix_refl x, by simp [isStored_insert, hc]⟩

theorem covered_insert_mono {t : PathTrie} {q : List String} (x : List String)
    (h : t.covered q = true) : (t.insert x).covered q = true := by
  by_cases hc : t.covered x = true
  · rw [insert_of_covered x t hc]; exact h
  · obtain ⟨p, hpq, hs⟩ := (covered_iff q t).mp h
    by_cases hx : x <+: p
    · exact (covered_iff q _).mpr ⟨x, hx.trans hpq, by simp [isStored_insert, hc]⟩
    · have hx2 : x.isPrefixOf p = false := by
        cases hb : x.isPrefixOf p with
        | false => rfl
        | true => exact absurd (List.isPrefixOf_iff_prefix.mp hb) hx
      exact (covered_iff q _).mpr ⟨p, hpq, by simp [isStored_insert, hc, hs, hx2]⟩

theorem segs_antisymm {a b : List String} (h1 : a <+: b) (h2 : b <+: a) : a = b :=
  h1.eq_of_length_le h2.length_le

theorem insert_inv (t : PathTrie) (S : List (List String)) (x : List String)
    (hwf : wf t) (hcov : ∀ q ∈ S, t.covered q = true)
    (hst : ∀ p, t.isStored p = true ↔ (p ∈ S ∧ ∀ q ∈ S, q <+: p → q = p)) :
    wf (t.insert x) ∧ (∀ q ∈ S ++ [x], (t.insert x).covered q = true) ∧
      ∀ p, (t.insert x).isStored p = true ↔
        (p ∈ S ++ [x] ∧ ∀ q ∈ S ++ [x], q <+: p → q = p) := by
  refine ⟨wf_insert x t hwf, ?_, ?_⟩
  · intro q hq
    rcases List.mem_append.mp hq with hq | hq
    · exact covered_insert_mono x (hcov q hq)
    · have : q = x := by simpa using hq
      subst this
      exact covered_insert_self q t
  · intro p
    by_cases hc : t.covered x = true
    · obtain ⟨m, hmx, hms⟩ := (covered_iff x t).mp hc
      obtain ⟨hmS, hmmin⟩ := (hst m).mp hms
      simp only [isStored_insert, hc, if_true]
      rw [hst p]
      constructor
      · rintro ⟨hp, hmin⟩
        refine ⟨List.mem_append_left _ hp, ?_⟩
        intro q hq hqp
        rcases List.mem_append.mp hq with hq | hq
        · exact hmin q hq hqp
        · have hqx : q = x := by simpa using hq
          subst hqx
          have hmp : m = p := hmin m hmS (hmx.trans hqp)
          subst hmp
          exact segs_antisymm hqp hmx
      · rintro ⟨hp, hmin⟩
        refine ⟨?_, fun q hq hqp => hmin q (List.mem_append_left _ hq) hqp⟩
        rcases List.mem_append.mp hp with hp | hp
        · exact hp
        · have hpx : p = x := by simpa using hp
          subst hpx
          have hmp : m = p := hmin m (List.mem_append_left _ hmS) hmx
          exact hmp ▸ hmS
    · simp only [isStored_insert, hc, Bool.false_eq_true, if_false, Bool.or_eq_true,
        Bool.and_eq_true, beq_iff_eq, Bool.not_eq_true']
      constructor
      · rintro (hpx | ⟨hs, hnp⟩)
        · subst hpx
          refine ⟨by simp, ?_⟩
          intro q hq hqp
          rcases List.mem_append.mp hq with hq | hq
          · exact absurd (covered_extend (hcov q hq) hqp) hc
          · simpa using hq
        · obtain ⟨hpS, hmin⟩ := (hst p).mp hs
          refine ⟨List.mem_append_left _ hpS, ?_⟩
          intro q hq hqp
          rcases List.mem_append.mp hq with hq | hq
          · exact hmin q hq hqp
          · have hqx : q = x := by simpa using hq
            subst hqx
            have := List.isPrefixOf_iff_prefix.mpr hqp
            rw [this] at hnp
            exact absurd hnp (by simp)
      · rintro ⟨hp, hmin⟩
        by_cases hpx : p = x
        · exact Or.inl hpx
        · right
          have hpS : p ∈ S := by
            rcases List.mem_append.mp hp with hp | hp
            · exact hp
            · exact absurd (by simpa using hp) hpx
          refine ⟨(hst p).mpr ⟨hpS, fun q hq hqp => hmin q (List.mem_append_left _ hq) hqp⟩, ?_⟩
          cases hb : x.isPrefixOf p with
          | false => rfl
          | true =>
            have hxp := List.isPrefixOf_iff_prefix.mp hb
            exact absurd (hmin x (by simp) hxp).symm hpx

theorem foldl_insert_inv : ∀ (xs : List (List String)) (t : PathTrie) (S : List (List String)),
    wf t → (∀ q ∈ S, t.covered q = true) →
    (∀ p, t.isStored p = true ↔ (p ∈ S ∧ ∀ q ∈ S, q <+: p → q = p)) →
    wf (xs.foldl insert t) ∧ (∀ q ∈ S ++ xs, (xs.foldl insert t).covered q = true) ∧
      ∀ p, (xs.foldl insert t).isStored p = true ↔
        (p ∈ S ++ xs ∧ ∀ q ∈ S ++ xs, q <+: p → q = p)
  | [], t, S, hwf, hcov, hst => by simpa using ⟨hwf, hcov, hst⟩
  | x :: xs, t, S, hwf, hcov, hst => by
    obtain ⟨h1, h2, h3⟩ := insert_inv t S x hwf hcov hst
    have := foldl_insert_inv xs (t.insert x) (S ++ [x]) h1 h2 h3
    simpa [List.append_assoc] using this

theorem build_eq (ps : List String) : build ps = (ps.map segmentsOf).foldl insert empty := by
  simp only [build, List.foldl_map]
  rfl

theorem build_inv (ps : List String) :
    wf (build ps) ∧ (∀ q ∈ ps.map segmentsOf, (build ps).covered q = true) ∧
      ∀ p, (build ps).isStored p = true ↔
        (p ∈ ps.map segmentsOf ∧ ∀ q ∈ ps.map segmentsOf, q <+: p → q = p) := by
  have := foldl_insert_inv (ps.map segmentsOf) empty [] wf_empty (by simp)
    (by intro p; simp [isStored_empty])
  rw [build_eq]
  simpa using this

theorem mem_paths_build (ps : List String) (segs : List String) :
    segs ∈ paths (build ps) ↔ ∃ p, minimalIn ps p ∧ segmentsOf p = segs := by
  obtain ⟨hwf, _, hst⟩ := build_inv ps
  rw [mem_paths_iff _ hwf, hst]
  constructor
  · rintro ⟨hmem, hmin⟩
    obtain ⟨p, hp, rfl⟩ := List.mem_map.mp hmem
    refine ⟨p, ⟨hp, ?_⟩, rfl⟩
    intro q hq ⟨hpre, hne⟩
    exact hne (hmin _ (List.mem_map_of_mem _ hq) hpre)
  · rintro ⟨p, ⟨hp, hmin⟩, rfl⟩
    refine ⟨List.mem_map_of_mem _ hp, ?_⟩
    intro q hq hpre
    obtain ⟨q2, hq2, rfl⟩ := List.mem_map.mp hq
    by_contra hne
    exact hmin q2 hq2 ⟨hpre, hne⟩

theorem wf_afterOps (ops : List Op) : wf (afterOps ops) := by
  have : ∀ (ops : List Op) (t : PathTrie), wf t → wf (ops.foldl applyOp t) := by
    intro ops
    induction ops with
    | nil => intro t h; simpa using h
    | cons op ops ih =>
      intro t h
      cases op with
      | Insert path => exact ih _ (wf_insert _ t h)
      | Clear => exact ih _ (by simp [applyOp, Clear, wf, wfChildren])
  exact this ops empty wf_empty

end PathTrie

/-! ## The engine: pointers and the waiting flags -/

theorem Engine.update_heap (st : Engine) (i : Nat) (f : replica → replica) (j : Nat) :
    (st.update i f).heap[j]? = (st.heap[j]?).map (fun a => if i = j then f a else a) := by
  simp [Engine.update, List.getElem?_modify]

@[simp] theorem Engine.update_replicas (st : Engine) (i : Nat) (f : replica → replica) :
    (st.update i f).replicas = st.replicas := rfl

@[simp] theorem Engine.update_r (st : Engine) (i : Nat) (f : replica → replica) :
    (st.update i f).r = st.r := rfl

@[simp] theorem Engine.update_path (st : Engine) (i : Nat) (f : replica → replica) :
    (st.update i f).path = st.path := rfl

@[simp] theorem Engine.update_fsWatcher (st : Engine) (i : Nat) (f : replica → replica) :
    (st.update i f).fsWatcher = st.fsWatcher := rfl

theorem clearWaiting_fields : ∀ (reps : List (String × Nat)) (st : Engine),
    (clearWaiting reps st).replicas = st.replicas ∧ (clearWaiting reps st).r = st.r ∧
      (clearWaiting reps st).path = st.path ∧ (clearWaiting reps st).fsWatcher = st.fsWatcher
  | [], st => by simp [clearWaiting]
  | (_, i) :: rest, st => by
    have := clearWaiting_fields rest (st.update i (fun r => { r with waiting := false }))
    simpa [clearWaiting] using this

theorem clearWaiting_heap : ∀ (reps : List (String × Nat)) (st : Engine) (j : Nat),
    (clearWaiting reps st).heap[j]? =
      (st.heap[j]?).map (fun a => if j ∈ reps.map Prod.snd then { a with waiting := false } else a)
  | [], st, j => by simp [clearWaiting]
  | (_, i) :: rest, st, j => by
    rw [clearWaiting, clearWaiting_heap rest, Engine.update_heap]
    cases st.heap[j]? with
    | none => rfl
    | some a =>
      by_cases hij : i = j
      · subst hij
        by_cases hm : i ∈ rest.map Prod.snd <;> simp [hm]
      · have hji : ¬ j = i := fun h => hij h.symm
        by_cases hm : j ∈ rest.map Prod.snd <;> simp [hm, hij, hji]

/-- After the loop that resets the flags, a replica differs from before at most in
`waiting`. -/
theorem clearWaiting_get (reps : List (String × Nat)) {st : Engine} {j : Nat} {a : replica}
    (h : st.heap[j]? = some a) :
    ∃ b, (clearWaiting reps st).heap[j]? = some b ∧ b.hash = a.hash ∧ b.basePath = a.basePath ∧
      b.dirs = a.dirs ∧ b.changes = a.changes ∧ (b.waiting = true → a.waiting = true) ∧
      (j ∈ reps.map Prod.snd → b.waiting = false) := by
  rw [clearWaiting_heap, h]
  by_cases hm : j ∈ reps.map Prod.snd <;> simp [hm]

theorem clearWaiting_get_inv {reps : List (String × Nat)} {st : Engine} {j : Nat} {b : replica}
    (h : (clearWaiting reps st).heap[j]? = some b) :
    ∃ a, st.heap[j]? = some a ∧ b.hash = a.hash ∧ b.basePath = a.basePath ∧
      b.dirs = a.dirs ∧ b.changes = a.changes ∧ (j ∈ reps.map Prod.snd → b.waiting = false) := by
  rw [clearWaiting_heap] at h
  cases ha : st.heap[j]? with
  | none => simp [ha] at h
  | some a =>
    obtain ⟨b2, hb1, hb2⟩ := clearWaiting_get reps ha
    rw [clearWaiting_heap] at hb1
    rw [hb1] at h
    have : b2 = b := by simpa using h
    subst this
    exact ⟨a, rfl, hb2.1, hb2.2.1, hb2.2.2.1, hb2.2.2.2.1, hb2.2.2.2.2.2⟩

theorem handleMessage_of_parse {env : Env} {st : Engine} {msg cmd : String} {args : List String}
    (hparse : parseCommand msg = .ok (cmd, args)) (hcmd : cmd ≠ "WAIT") :
    handleMessage env st msg = dispatch env (clearWaiting st.replicas st) cmd args := by
  simp [handleMessage, hparse, hcmd]

theorem handleMessage_WAIT {env : Env} {st : Engine} {msg : String} {args : List String}
    (hparse : parseCommand msg = .ok ("WAIT", args)) :
    handleMessage env st msg = handleWAIT st args := by
  simp [handleMessage, hparse, dispatch]

theorem handleCHANGES_known {st : Engine} {h : String} {i : Nat} {r : replica}
    (hreg : st.replicas.lookup h = some i) (hr : st.heap[i]? = some r) :
    handleCHANGES st [h] =
      { st := st.update i (fun r => { r with changes := r.changes.Clear }),
        out := r.changes.Walk.map (fun c => sendCommand "RECURSIVE" [c])
                 ++ [sendCommand "DONE" []],
        err := none } := by
  simp [handleCHANGES, hreg, hr]

theorem gomap.mem_set {α : Type} {k : String} {v : α} {e : String × α} :
    ∀ {m : List (String × α)}, e ∈ gomap.set k v m → (∃ v0, (e.1, v0) ∈ m) ∨ e = (k, v)
  | [], h => by
    right
    simpa [gomap.set] using h
  | (k1, v1) :: rest, h => by
    by_cases hk : k1 = k
    · simp only [gomap.set, hk, if_true, List.mem_cons] at h
      rcases h with h | h
      · exact Or.inr h
      · exact Or.inl ⟨e.2, by simp [h]⟩
    · simp only [gomap.set, hk, if_false, List.mem_cons] at h
      rcases h with h | h
      · exact Or.inl ⟨v1, by simp [h]⟩
      · rcases gomap.mem_set h with ⟨v0, h2⟩ | h2
        · exact Or.inl ⟨v0, by simp [h2]⟩
        · exact Or.inr h2

theorem gomap.mem_set_of_lookup_none {α : Type} {k : String} {v : α} {e : String × α} :
    ∀ {m : List (String × α)}, m.lookup k = none → e ∈ gomap.set k v m → e ∈ m ∨ e = (k, v)
  | [], _, h => by
    right
    simpa [gomap.set] using h
  | (k1, v1) :: rest, hl, h => by
    by_cases hk : k1 = k
    · subst hk
      simp [List.lookup] at hl
    · have hk2 : (k == k1) = false := by simpa using fun h => hk h.symm
      simp only [List.lookup, hk2] at hl
      simp only [gomap.set, hk, if_false, List.mem_cons] at h
      rcases h with h | h
      · exact Or.inl (by simp [h])
      · rcases gomap.mem_set_of_lookup_none hl h with h2 | h2
        · exact Or.inl (by simp [h2])
        · exact Or.inr h2

theorem gomap.mem_delete {α : Type} {k : String} {e : String × α} {m : List (String × α)}
    (h : e ∈ gomap.delete k m) : e ∈ m :=
  (List.mem_filter.mp h).1

theorem quiet_clearWaiting (st : Engine) : (clearWaiting st.replicas st).quiet := by
  intro e he r hr
  rw [(clearWaiting_fields _ _).1] at he
  obtain ⟨a, _, _, _, _, _, hw⟩ := clearWaiting_get_inv hr
  exact hw (List.mem_map_of_mem _ he)

theorem quiet_update {st : Engine} (h : st.quiet) (i : Nat) (f : replica → replica)
    (hf : ∀ a, (f a).waiting = a.waiting) : (st.update i f).quiet := by
  intro e he r hr
  rw [Engine.update_heap] at hr
  cases ha : st.heap[e.2]? with
  | none => simp [ha] at hr
  | some a =>
    have hq := h e he a ha
    simp only [ha, Option.map_some'] at hr
    by_cases hi : i = e.2
    · simp only [hi, if_true, Option.some.injEq] at hr
      rw [← hr, hf, hq]
    · simp only [hi, if_false, Option.some.injEq] at hr
      rw [← hr, hq]

theorem quiet_of_same {st st2 : Engine} (h : st.quiet) (h1 : st2.heap = st.heap)
    (h2 : ∀ e ∈ st2.replicas, e ∈ st.replicas) : st2.quiet := by
  intro e he r hr
  rw [h1] at hr
  exact h e (h2 e he) r hr

theorem quiet_handleSTART (env : Env) {st : Engine} (h : st.quiet) (args : List String) :
    (handleSTART env st args).st.quiet := by
  unfold handleSTART
  split
  · rename_i hash basePath path
    split
    · exact h
    · split
      · rename_i hnone
        have hq : Engine.quiet
            { st with
              heap := st.heap ++ [{ hash := hash, basePath := basePath,
                                    dirs := gomap.set basePath "" [],
                                    changes := PathTrie.empty, waiting := false }],
              replicas := gomap.set hash st.heap.length st.replicas,
              r := some st.heap.length } := by
          intro e he r hr
          simp only at he hr
          rcases gomap.mem_set_of_lookup_none hnone he with he | he
          · by_cases hlt : e.2 < st.heap.length
            · rw [List.getElem?_append_left hlt] at hr
              exact h e he r hr
            · rw [List.getElem?_append_right (by omega)] at hr
              cases hidx : e.2 - st.heap.length with
              | zero =>
                simp [hidx] at hr
                rw [← hr]
              | succ n => simp [hidx] at hr
          · subst he
            simp at hr
            rw [← hr]
        dsimp only
        split
        · exact quiet_of_same hq rfl (fun e he => he)
        · exact quiet_of_same hq rfl (fun e he => he)
      · exact quiet_of_same h rfl (fun e he => he)
  · exact h

theorem quiet_handleLINK (env : Env) {st : Engine} (h : st.quiet) (args : List String) :
    (handleLINK env st args).st.quiet := by
  unfold handleLINK
  split
  · split
    · exact h
    · split
      · exact h
      · dsimp only
        split
        · split
          · exact quiet_of_same h rfl (fun e he => he)
          · exact quiet_of_same h rfl (fun e he => he)
        · split
          · exact quiet_of_same h rfl (fun e he => he)
          · exact quiet_update (quiet_of_same h rfl (fun e he => he)) _ _ (fun a => rfl)
  · exact h

theorem quiet_dispatch (env : Env) {st : Engine} (h : st.quiet) (cmd : String)
    (args : List String) (hcmd : cmd ≠ "WAIT") : (dispatch env st cmd args).st.quiet := by
  unfold dispatch
  split
  · unfold handleDEBUG; split <;> exact h
  split
  · exact quiet_handleSTART env h args
  split
  · unfold handleDIR; split
    · exact h
    · split <;> exact h
  split
  · exact quiet_handleLINK env h args
  split
  · unfold handleDONE; split
    · exact h
    · split
      · exact h
      · exact quiet_of_same h rfl (fun e he => he)
  split
  · unfold handleCHANGES
    split
    · split
      · exact h
      · split
        · exact h
        · exact quiet_update h _ _ (fun a => rfl)
    · exact h
  split
  · unfold handleRESET
    split
    · split
      · exact h
      · split
        · exact h
        · split
          · exact quiet_of_same h rfl (fun e he => he)
          · exact quiet_of_same h rfl (fun e he => gomap.mem_delete he)
    · exact h
  · exact h

theorem handleMessage_CHANGES_eq (env : Env) {st : Engine} {msg h : String} {i : Nat}
    {r : replica} (hparse : parseCommand msg = .ok ("CHANGES", [h]))
    (hreg : st.replicas.lookup h = some i) (hr : st.heap[i]? = some r) :
    ∃ r1, (clearWaiting st.replicas st).heap[i]? = some r1 ∧ r1.changes = r.changes ∧
      handleMessage env st msg =
        { st := (clearWaiting st.replicas st).update i
            (fun r => { r with changes := r.changes.Clear }),
          out := r1.changes.Walk.map (fun c => sendCommand "RECURSIVE" [c])
                   ++ [sendCommand "DONE" []],
          err := none } := by
  obtain ⟨r1, hr1, _, _, _, hch, _, _⟩ := clearWaiting_get st.replicas hr
  have hreg1 : (clearWaiting st.replicas st).replicas.lookup h = some i := by
    rw [(clearWaiting_fields _ _).1]; exact hreg
  rw [handleMessage_of_parse hparse (by decide)]
  have hd : dispatch env (clearWaiting st.replicas st) "CHANGES" [h] =
      handleCHANGES (clearWaiting st.replicas st) [h] := by
    simp [dispatch]
  rw [hd, handleCHANGES_known hreg1 hr1]
  exact ⟨r1, hr1, hch, rfl⟩

/-! ## The event case -/

theorem eventEntry_of_err (path : String) (acc : EventLoop) (entry : String × String)
    (h : acc.err ≠ none) : eventEntry path acc entry = acc := by
  simp [eventEntry, h]

theorem foldl_eventEntry (path : String) :
    ∀ (ds : List (String × String)) (r : replica) (out : List String) (found : Bool),
      (∀ d ∈ ds, strings.HasPrefix path d.1 = true → filepath.Rel d.1 path ≠ none) →
      ds.foldl (eventEntry path) { r := r, out := out, found := found, err := none } =
        { r :=
            { r with
              changes := (({ r with dirs := ds } : replica).eventPaths path).foldl
                PathTrie.Insert r.changes,
              waiting := r.waiting && !({ r with dirs := ds } : replica).matches path },
          out := out ++ ({ r with dirs := ds } : replica).eventOut path,
          found := found || ({ r with dirs := ds } : replica).matches path,
          err := none }
  | [], r, out, found, _ => by
    simp [replica.eventPaths, replica.matches, replica.eventOut]
  | d :: ds, r, out, found, h => by
    have hds : ∀ d2 ∈ ds, strings.HasPrefix path d2.1 = true → filepath.Rel d2.1 path ≠ none :=
      fun d2 hd2 => h d2 (by simp [hd2])
    by_cases hp : strings.HasPrefix path d.1 = true
    · have hrel := h d (by simp) hp
      cases hr : filepath.Rel d.1 path with
      | none => exact absurd hr hrel
      | some p =>
        by_cases hw : r.waiting = true
        · have step : eventEntry path { r := r, out := out, found := found, err := none } d =
              { r := { r with changes := r.changes.Insert (filepath.Join [d.2, p]),
                              waiting := false },
                out := out ++ [sendCommand "CHANGES" [r.hash]], found := true, err := none } := by
            simp [eventEntry, hp, hr, hw]
          rw [List.foldl_cons, step, foldl_eventEntry path ds _ _ _ hds]
          simp [replica.eventPaths, replica.matches, replica.eventOut, hp, hr, hw]
        · have hw2 : r.waiting = false := by simpa using hw
          have step : eventEntry path { r := r, out := out, found := found, err := none } d =
              { r := { r with changes := r.changes.Insert (filepath.Join [d.2, p]) },
                out := out, found := true, err := none } := by
            simp [eventEntry, hp, hr, hw2]
          rw [List.foldl_cons, step, foldl_eventEntry path ds _ _ _ hds]
          simp [replica.eventPaths, replica.matches, replica.eventOut, hp, hr, hw2]
    · have hp : strings.HasPrefix path d.1 = false := by simpa using hp
      have step : eventEntry path { r := r, out := out, found := found, err := none } d =
          { r := r, out := out, found := found, err := none } := by
        simp [eventEntry, hp]
      rw [List.foldl_cons, step, foldl_eventEntry path ds _ _ _ hds]
      simp only [replica.eventPaths, replica.matches, replica.eventOut, List.filterMap_cons,
        List.any_cons, hp, Bool.false_or]
      simp

theorem eventReplica_eq (path : String) (r : replica) (out : List String) (found : Bool)
    (h : r.relOk path) :
    eventReplica path r out found =
      { r := r.afterEvent path, out := out ++ r.eventOut path,
        found := found || r.matches path, err := none } := by
  unfold eventReplica
  rw [foldl_eventEntry path r.dirs r out found h]
  rfl

theorem any_congr_mem {α : Type} {f g : α → Bool} :
    ∀ {l : List α}, (∀ x ∈ l, f x = g x) → l.any f = l.any g
  | [], _ => rfl
  | a :: l, h => by
    simp only [List.any_cons]
    rw [h a (by simp), any_congr_mem (fun x hx => h x (by simp [hx]))]

theorem flatMap_congr_mem {α β : Type} {f g : α → List β} :
    ∀ {l : List α}, (∀ x ∈ l, f x = g x) → l.flatMap f = l.flatMap g
  | [], _ => rfl
  | a :: l, h => by
    simp only [List.flatMap_cons]
    rw [h a (by simp), flatMap_congr_mem (fun x hx => h x (by simp [hx]))]

theorem eventReplicas_eq (path : String) :
    ∀ (reps : List (String × Nat)) (st : Engine) (out : List String) (found : Bool),
      (reps.map Prod.snd).Nodup →
      (∀ e ∈ reps, ∃ r, st.heap[e.2]? = some r ∧ r.relOk path) →
      ∃ st2, eventReplicas path reps st out found =
          (st2,
           out ++ reps.flatMap
             (fun e => ((st.heap[e.2]?).map (fun r => r.eventOut path)).getD []),
           found || reps.any
             (fun e => ((st.heap[e.2]?).map (fun r => r.matches path)).getD false),
           none) ∧
        st2.replicas = st.replicas ∧ st2.r = st.r ∧ st2.path = st.path ∧
        st2.fsWatcher = st.fsWatcher ∧
        ∀ j, st2.heap[j]? =
          (st.heap[j]?).map (fun a => if j ∈ reps.map Prod.snd then a.afterEvent path else a)
  | [], st, out, found, _, _ => by
    refine ⟨st, by simp [eventReplicas], rfl, rfl, rfl, rfl, ?_⟩
    intro j
    cases st.heap[j]? <;> simp
  | (k, i) :: rest, st, out, found, hnd, hok => by
    obtain ⟨r, hr, hrel⟩ := hok (k, i) (by simp)
    have hnd2 : i ∉ rest.map Prod.snd ∧ (rest.map Prod.snd).Nodup := by
      simpa using hnd
    have hsame : ∀ e ∈ rest,
        (st.update i (fun _ => r.afterEvent path)).heap[e.2]? = st.heap[e.2]? := by
      intro e he
      rw [Engine.update_heap]
      have hne : ¬ i = e.2 := fun h => hnd2.1 (h ▸ List.mem_map_of_mem _ he)
      cases st.heap[e.2]? <;> simp [hne]
    obtain ⟨st2, heq, h1, h2, h3, h4, h5⟩ :=
      eventReplicas_eq path rest (st.update i (fun _ => r.afterEvent path))
        (out ++ r.eventOut path) (found || r.matches path) hnd2.2
        (by
          intro e he
          rw [hsame e he]
          exact hok e (by simp [he]))
    refine ⟨st2, ?_, by simpa using h1, by simpa using h2, by simpa using h3,
      by simpa using h4, ?_⟩
    · have hfm : rest.flatMap (fun e =>
          (((st.update i (fun _ => r.afterEvent path)).heap[e.2]?).map
            (fun r => r.eventOut path)).getD []) =
          rest.flatMap (fun e => ((st.heap[e.2]?).map (fun r => r.eventOut path)).getD []) := by
        apply flatMap_congr_mem
        intro e he
        rw [hsame e he]
      have hany : rest.any (fun e =>
          (((st.update i (fun _ => r.afterEvent path)).heap[e.2]?).map
            (fun r => r.matches path)).getD false) =
          rest.any (fun e => ((st.heap[e.2]?).map (fun r => r.matches path)).getD false) := by
        apply any_congr_mem
        intro e he
        rw [hsame e he]
      simp only [eventReplicas, hr, eventReplica_eq path r out found hrel]
      rw [heq, hfm, hany]
      simp [hr, List.append_assoc, Bool.or_assoc]
    · intro j
      rw [h5, Engine.update_heap]
      cases hj : st.heap[j]? with
      | none => rfl
      | some a =>
        by_cases hij : i = j
        · subst hij
          have : a = r := by
            rw [hr] at hj
            exact (Option.some.inj hj).symm
          subst this
          simp [hnd2.1]
        · have hji : ¬ j = i := fun h => hij h.symm
          simp only [hij, if_false, Option.map_some', List.map_cons, List.mem_cons, hji,
            false_or]

theorem eventEntry_quiet (path : String) (acc : EventLoop) (d : String × String)
    (h : acc.r.waiting = false) :
    (eventEntry path acc d).r.waiting = false ∧ (eventEntry path acc d).out = acc.out := by
  unfold eventEntry
  split
  · exact ⟨h, rfl⟩
  · split
    · split
      · exact ⟨h, rfl⟩
      · simp [h]
    · exact ⟨h, rfl⟩

theorem foldl_eventEntry_quiet (path : String) :
    ∀ (ds : List (String × String)) (acc : EventLoop), acc.r.waiting = false →
      (ds.foldl (eventEntry path) acc).r.waiting = false ∧
        (ds.foldl (eventEntry path) acc).out = acc.out
  | [], acc, h => ⟨h, rfl⟩
  | d :: ds, acc, h => by
    obtain ⟨h1, h2⟩ := eventEntry_quiet path acc d h
    obtain ⟨h3, h4⟩ := foldl_eventEntry_quiet path ds _ h1
    exact ⟨h3, h4.trans h2⟩

theorem eventReplicas_quiet (path : String) :
    ∀ (reps : List (String × Nat)) (st : Engine) (out : List String) (found : Bool),
      (∀ e ∈ reps, ∀ r, st.heap[e.2]? = some r → r.waiting = false) →
      (eventReplicas path reps st out found).2.1 = out
  | [], st, out, found, _ => rfl
  | (k, i) :: rest, st, out, found, h => by
    unfold eventReplicas
    cases hr : st.heap[i]? with
    | none => rfl
    | some r =>
      have hw : r.waiting = false := h (k, i) (by simp) r hr
      obtain ⟨h1, h2⟩ := foldl_eventEntry_quiet path r.dirs
        { r := r, out := out, found := found, err := none } hw
      have h1b : (eventReplica path r out found).r.waiting = false := h1
      have h2b : (eventReplica path r out found).out = out := h2
      dsimp only
      split
      · exact h2b
      · rw [eventReplicas_quiet path rest _ _ _ ?_]
        · exact h2b
        · intro e he r2 hr2
          rw [Engine.update_heap] at hr2
          cases ha : st.heap[e.2]? with
          | none => simp [ha] at hr2
          | some a =>
            simp only [ha, Option.map_some', Option.some.injEq] at hr2
            by_cases hi : i = e.2
            · simp only [hi, if_true] at hr2
              rw [← hr2]; exact h1b
            · simp only [hi, if_false] at hr2
              rw [← hr2]; exact h (e) (by simp [he]) a ha

theorem handleEvent_quiet (st : Engine) (path : String) (h : st.quiet) :
    (handleEvent st path).out = [] := by
  have h2 := eventReplicas_quiet path st.replicas st [] false h
  unfold handleEvent
  split
  · rename_i heq
    rw [heq] at h2
    exact h2
  · rename_i heq
    rw [heq] at h2
    split <;> exact h2

theorem handleEvent_eq (st : Engine) (path : String)
    (hnd : (st.replicas.map Prod.snd).Nodup)
    (hok : ∀ e ∈ st.replicas, ∃ r, st.heap[e.2]? = some r ∧ r.relOk path) :
    ∃ st2, handleEvent st path =
        { st := st2,
          out := st.replicas.flatMap
            (fun e => ((st.heap[e.2]?).map (fun r => r.eventOut path)).getD []),
          err := if st.replicas.any
              (fun e => ((st.heap[e.2]?).map (fun r => r.matches path)).getD false)
            then none else some (Error.unmatched path) } ∧
      st2.replicas = st.replicas ∧ st2.r = st.r ∧ st2.path = st.path ∧
      st2.fsWatcher = st.fsWatcher ∧
      ∀ j, st2.heap[j]? =
        (st.heap[j]?).map
          (fun a => if j ∈ st.replicas.map Prod.snd then a.afterEvent path else a) := by
  obtain ⟨st2, heq, h1, h2, h3, h4, h5⟩ := eventReplicas_eq path st.replicas st [] false hnd hok
  refine ⟨st2, ?_, h1, h2, h3, h4, h5⟩
  unfold handleEvent
  rw [heq]
  simp only [List.nil_append, Bool.false_or]
  cases st.replicas.any
    (fun e => ((st.heap[e.2]?).map (fun r => r.matches path)).getD false) <;> simp

/-! ## Absolute paths made of names -/

namespace filepath

theorem names_no_sep {segs : List String} (h : ∀ s ∈ segs, isName s = true) :
    ∀ s ∈ segs, '/' ∉ s.data :=
  fun s hs => ((isName_iff s).mp (h s hs)).2.2.2

theorem abs_eq_Join (segs : List String) (hne : segs ≠ []) :
    "/" ++ strings.Join segs "/" = strings.Join ("" :: segs) "/" := by
  cases segs with
  | nil => exact absurd rfl hne
  | cons s rest =>
    rw [strings.Join_cons_cons]
    rfl

theorem abs_data (segs : List String) :
    ("/" ++ strings.Join segs "/").data = '/' :: (strings.Join segs "/").data := by
  simp

theorem abs_ne_empty (segs : List String) : "/" ++ strings.Join segs "/" ≠ "" := by
  intro h
  have := congrArg String.data h
  simp at this

theorem HasPrefix_slash (segs : List String) :
    strings.HasPrefix ("/" ++ strings.Join segs "/") "/" = true := by
  have hsl : ("/" : String).data = ['/'] := rfl
  simp [strings.HasPrefix, hsl, List.isPrefixOf]

theorem Split_abs (segs : List String) (hne : segs ≠ []) (h : ∀ s ∈ segs, isName s = true) :
    strings.Split ("/" ++ strings.Join segs "/") Separator = "" :: segs := by
  rw [abs_eq_Join segs hne]
  apply strings.Split_Join _ (by simp)
  intro s hs
  rcases List.mem_cons.mp hs with h1 | h1
  · subst h1; simp
  · exact names_no_sep h s h1

theorem Clean_abs (segs : List String) (h : ∀ s ∈ segs, isName s = true) :
    Clean ("/" ++ strings.Join segs "/") = "/" ++ strings.Join segs "/" := by
  by_cases hne : segs = []
  · subst hne; decide
  · simp only [Clean, abs_ne_empty, if_false, HasPrefix_slash, if_true, Split_abs segs hne h,
      List.foldl_cons]
    have h0 : cleanElem true [] "" = [] := by simp [cleanElem]
    rw [h0, foldl_cleanElem_names true segs [] h]
    simp

theorem relElems_abs (segs : List String) (h : ∀ s ∈ segs, isName s = true) :
    relElems ("/" ++ strings.Join segs "/") = "" :: segs := by
  by_cases hne : segs = []
  · subst hne; decide
  · unfold relElems
    simp only [Split_abs segs hne h]
    have hl : ("" :: segs).getLast? ≠ some "" := by
      intro hl
      have hmem : "" ∈ segs := by
        cases segs with
        | nil => exact absurd rfl hne
        | cons s rest =>
          rw [List.getLast?_cons_cons] at hl
          exact List.mem_of_getLast?_eq_some hl
      have := (isName_iff "").mp (h "" hmem)
      exact this.1 rfl
    simp [hl]

theorem stripCommon_append : ∀ (bs xs : List String), stripCommon bs (bs ++ xs) = ([], xs)
  | [], xs => by cases xs <;> simp [stripCommon]
  | b :: bs, xs => by simp [stripCommon, stripCommon_append bs xs]

theorem Rel_below (bs xs : List String) (hb : ∀ s ∈ bs, isName s = true)
    (hx : ∀ s ∈ xs, isName s = true) (hne : xs ≠ []) :
    Rel ("/" ++ strings.Join bs "/") ("/" ++ strings.Join (bs ++ xs) "/") =
      some (strings.Join xs "/") := by
  have hbx : ∀ s ∈ bs ++ xs, isName s = true := by
    intro s hs
    rcases List.mem_append.mp hs with h | h
    · exact hb s h
    · exact hx s h
  have hdiff : "/" ++ strings.Join (bs ++ xs) "/" ≠ "/" ++ strings.Join bs "/" := by
    intro heq
    have h1 := relElems_abs (bs ++ xs) hbx
    rw [heq, relElems_abs bs hb] at h1
    have : bs = bs ++ xs := by simpa using h1
    have h2 : xs = [] := by simpa using this.symm
    exact hne h2
  have hdot : "/" ++ strings.Join bs "/" ≠ "." := by
    intro heq
    have := congrArg String.data heq
    rw [abs_data] at this
    have hd : (".": String).data = ['.'] := rfl
    rw [hd] at this
    have := (List.cons.inj this).1
    exact absurd this (by decide)
  simp only [Rel, Clean_abs bs hb, Clean_abs (bs ++ xs) hbx, hdiff, if_false, hdot,
    HasPrefix_slash, relElems_abs bs hb, relElems_abs (bs ++ xs) hbx, bne_self_eq_false,
    Bool.false_eq_true]
  have : stripCommon ("" :: bs) ("" :: (bs ++ xs)) = ([], xs) :=
    stripCommon_append ("" :: bs) xs
  rw [this]

theorem HasPrefix_below (bs xs : List String) :
    strings.HasPrefix ("/" ++ strings.Join (bs ++ xs) "/") ("/" ++ strings.Join bs "/") = true := by
  have key : (strings.Join bs "/").data <+: (strings.Join (bs ++ xs) "/").data := by
    by_cases hb : bs = []
    · subst hb; simp [strings.Join_nil]
    · by_cases hx : xs = []
      · subst hx; simp
      · rw [strings.Join_append bs xs hb hx]
        simp [List.append_assoc]
  simp only [strings.HasPrefix, abs_data]
  rw [List.isPrefixOf_iff_prefix]
  exact List.cons_prefix_cons.mpr ⟨rfl, key⟩

theorem Join_names_ne_empty (xs : List String) (hne : xs ≠ [])
    (hx : ∀ s ∈ xs, isName s = true) : strings.Join xs "/" ≠ "" := by
  cases xs with
  | nil => exact absurd rfl hne
  | cons s rest =>
    obtain ⟨c, tl, hdata, _⟩ := Join_names_head s rest (hx s (by simp))
    intro h0
    rw [h0] at hdata
    simp at hdata

theorem Join_empty_names (xs : List String) (hne : xs ≠ [])
    (hx : ∀ s ∈ xs, isName s = true) :
    Join ["", strings.Join xs "/"] = strings.Join xs "/" := by
  have h1 := Join_names_ne_empty xs hne hx
  simp only [Join, if_true, h1, if_false, strings.Join_singleton]
  exact Clean_names xs hne hx

end filepath

theorem PathTrie.segmentsOf_Join (xs : List String) (hne : xs ≠ [])
    (hx : ∀ s ∈ xs, isName s = true) :
    PathTrie.segmentsOf (strings.Join xs "/") = xs := by
  have h1 := filepath.Join_names_ne_empty xs hne hx
  have hlen : (strings.Join xs "/").length > 0 := by
    rcases Nat.eq_zero_or_pos (strings.Join xs "/").length with h | h
    · exact absurd (String.ext (List.length_eq_zero.mp h)) h1
    · exact h
  simp only [PathTrie.segmentsOf, hlen, if_true]
  exact strings.Split_Join xs hne (filepath.names_no_sep hx)

/-! ## Events below the base of a replica -/

theorem replica.relOk_afterEvent (a : replica) (p q : String) :
    (a.afterEvent p).relOk q ↔ a.relOk q := Iff.rfl

theorem replica.event_below_base (r : replica) (bs xs : List String)
    (hdirs : r.dirs = [("/" ++ strings.Join bs "/", "")])
    (hb : ∀ s ∈ bs, isName s = true) (hx : ∀ s ∈ xs, isName s = true) (hne : xs ≠ []) :
    r.eventPaths ("/" ++ strings.Join (bs ++ xs) "/") = [strings.Join xs "/"] ∧
    r.matches ("/" ++ strings.Join (bs ++ xs) "/") = true ∧
    r.relOk ("/" ++ strings.Join (bs ++ xs) "/") := by
  refine ⟨?_, ?_, ?_⟩
  · simp [replica.eventPaths, hdirs, filepath.HasPrefix_below, filepath.Rel_below bs xs hb hx hne,
      filepath.Join_empty_names xs hne hx]
  · simp [replica.matches, hdirs, filepath.HasPrefix_below]
  · intro d hd _
    have : d = ("/" ++ strings.Join bs "/", "") := by simpa [hdirs] using hd
    subst this
    simp [filepath.Rel_below bs xs hb hx hne]

theorem runFrom_events_below_base (i : Nat) (bs : List String) (XS : List (List String))
    (hb : ∀ s ∈ bs, isName s = true)
    (hXS : ∀ xs ∈ XS, xs ≠ [] ∧ ∀ s ∈ xs, isName s = true) :
    ∀ (xss : List (List String)) (st : Engine) (out : List String) (r : replica),
      (∀ xs ∈ xss, xs ∈ XS) →
      (st.replicas.map Prod.snd).Nodup → i ∈ st.replicas.map Prod.snd →
      st.heap[i]? = some r → r.dirs = [("/" ++ strings.Join bs "/", "")] →
      (∀ e ∈ st.replicas, e.2 ≠ i →
        ∃ a, st.heap[e.2]? = some a ∧
          ∀ xs ∈ XS, a.relOk ("/" ++ strings.Join (bs ++ xs) "/")) →
      ∃ r2,
        (runFrom (xss.map (fun xs => Input.event ("/" ++ strings.Join (bs ++ xs) "/"))) st out).err
          = none ∧
        (runFrom (xss.map (fun xs => Input.event ("/" ++ strings.Join (bs ++ xs) "/")))
          st out).st.replicas = st.replicas ∧
        (runFrom (xss.map (fun xs => Input.event ("/" ++ strings.Join (bs ++ xs) "/")))
          st out).st.heap[i]? = some r2 ∧
        r2.changes = (xss.map (fun xs => strings.Join xs "/")).foldl PathTrie.Insert r.changes
  | [], st, out, r, _, _, _, hr, _, _ => ⟨r, rfl, rfl, hr, rfl⟩
  | xs :: xss, st, out, r, hsub, hnd, hi, hr, hdirs, hoth => by
    obtain ⟨hne, hx⟩ := hXS xs (hsub xs (by simp))
    obtain ⟨hpaths, hmatch, hrel⟩ := replica.event_below_base r bs xs hdirs hb hx hne
    have hok : ∀ e ∈ st.replicas, ∃ a, st.heap[e.2]? = some a ∧
        a.relOk ("/" ++ strings.Join (bs ++ xs) "/") := by
      intro e he
      by_cases hei : e.2 = i
      · exact ⟨r, by rw [hei]; exact hr, hrel⟩
      · obtain ⟨a, ha, hall⟩ := hoth e he hei
        exact ⟨a, ha, hall xs (hsub xs (by simp))⟩
    obtain ⟨st2, heq, h1, _, _, _, h5⟩ :=
      handleEvent_eq st ("/" ++ strings.Join (bs ++ xs) "/") hnd hok
    have hany : st.replicas.any (fun e => ((st.heap[e.2]?).map
        (fun r => r.matches ("/" ++ strings.Join (bs ++ xs) "/"))).getD false) = true := by
      obtain ⟨e, he, hei⟩ := List.mem_map.mp hi
      exact List.any_eq_true.mpr ⟨e, he, by simp [hei, hr, hmatch]⟩
    have hstep : step st (Input.event ("/" ++ strings.Join (bs ++ xs) "/")) =
        { st := st2,
          out := st.replicas.flatMap (fun e => ((st.heap[e.2]?).map
            (fun r => r.eventOut ("/" ++ strings.Join (bs ++ xs) "/"))).getD []),
          err := none } := by
      simp only [step, heq, hany, if_true]
    have hi2 : st2.heap[i]? = some (r.afterEvent ("/" ++ strings.Join (bs ++ xs) "/")) := by
      simp [h5, hr, hi]
    obtain ⟨r2, g1, g2, g3, g4⟩ := runFrom_events_below_base i bs XS hb hXS xss st2
      (out ++ st.replicas.flatMap (fun e => ((st.heap[e.2]?).map
            (fun r => r.eventOut ("/" ++ strings.Join (bs ++ xs) "/"))).getD []))
      (r.afterEvent ("/" ++ strings.Join (bs ++ xs) "/"))
      (fun ys hys => hsub ys (by simp [hys])) (by rw [h1]; exact hnd) (by rw [h1]; exact hi)
      hi2 hdirs
      (by
        intro e he hei
        rw [h1] at he
        obtain ⟨a, ha, hall⟩ := hoth e he hei
        refine ⟨a.afterEvent ("/" ++ strings.Join (bs ++ xs) "/"), ?_, hall⟩
        simp [h5, ha, List.mem_map_of_mem Prod.snd he])
    refine ⟨r2, ?_, ?_, ?_, ?_⟩
    · simpa [runFrom, hstep] using g1
    · simpa [runFrom, hstep, h1] using g2
    · simpa [runFrom, hstep] using g3
    · rw [g4]
      simp [replica.afterEvent, hpaths]

/-! ## The logical path of a followed symlink -/

namespace filepath

theorem Join_path_name (ps : List String) (name : String) (hps : ∀ s ∈ ps, isName s = true)
    (hname : isName name = true) :
    Join [strings.Join ps "/", name] = strings.Join (ps ++ [name]) "/" := by
  have hall : ∀ s ∈ ps ++ [name], isName s = true := by
    intro s hs
    rcases List.mem_append.mp hs with h | h
    · exact hps s h
    · have : s = name := by simpa using h
      exact this ▸ hname
  have hn1 : name ≠ "" := ((isName_iff name).mp hname).1
  by_cases hp : ps = []
  · subst hp
    simp only [strings.Join_nil, Join, if_true, hn1, if_false, List.nil_append]
    exact Clean_names [name] (by simp) (by simpa using hname)
  · have h1 := Join_names_ne_empty ps hp hps
    simp only [Join, h1, if_false]
    have : strings.Join [strings.Join ps "/", name] "/" = strings.Join (ps ++ [name]) "/" := by
      rw [strings.Join_append ps [name] hp (by simp), strings.Join_cons_cons,
        strings.Join_singleton]
    rw [this]
    exact Clean_names (ps ++ [name]) (by simp) hall

theorem HasSuffix_slash (s : String) : strings.HasSuffix (s ++ "/") "/" = true := by
  have hsl : ("/" : String).data = ['/'] := rfl
  simp [strings.HasSuffix, hsl, List.isPrefixOf]

theorem HasSuffix_names (ps : List String) (name : String) (hname : isName name = true) :
    strings.HasSuffix (strings.Join (ps ++ [name]) "/") "/" = false := by
  obtain ⟨h1, _, _, h4⟩ := (isName_iff name).mp hname
  have hdata : ∃ pre, (strings.Join (ps ++ [name]) "/").data = pre ++ name.data := by
    by_cases hp : ps = []
    · subst hp
      exact ⟨[], by simp [strings.Join_singleton]⟩
    · rw [strings.Join_append ps [name] hp (by simp), strings.Join_singleton]
      exact ⟨(strings.Join ps "/").data ++ ("/" : String).data, by simp⟩
  obtain ⟨pre, hpre⟩ := hdata
  have hsl : ("/" : String).data = ['/'] := rfl
  cases hrev : name.data.reverse with
  | nil =>
    have : name.data = [] := by simpa using hrev
    exact absurd (String.ext this) h1
  | cons c cs =>
    have hc : c ∈ name.data := by
      have : c ∈ name.data.reverse := by rw [hrev]; simp
      simpa using this
    have hcs : c ≠ '/' := fun h => h4 (h ▸ hc)
    simp only [strings.HasSuffix, hpre, hsl, List.reverse_append, hrev, List.reverse_cons,
      List.reverse_nil, List.nil_append, List.cons_append, List.isPrefixOf]
    simpa using fun h => hcs h.symm

theorem Join_link_below (js xs : List String) (hj : ∀ s ∈ js, isName s = true)
    (hx : ∀ s ∈ xs, isName s = true) (hjne : js ≠ []) (hxne : xs ≠ []) :
    Join [strings.Join js "/" ++ "/", strings.Join xs "/"] = strings.Join (js ++ xs) "/" := by
  have h0 : strings.Join js "/" ++ "/" ≠ "" := by
    intro h
    have := congrArg String.data h
    simp at this
  have hcat : strings.Join [strings.Join js "/" ++ "/", strings.Join xs "/"] "/" =
      strings.Join (js ++ "" :: xs) "/" := by
    cases xs with
    | nil => exact absurd rfl hxne
    | cons x xs =>
      rw [strings.Join_append js ("" :: x :: xs) hjne (by simp), strings.Join_cons_cons,
        strings.Join_cons_cons, strings.Join_singleton]
      apply String.ext
      simp [List.append_assoc]
  simp only [Join, h0, if_false, hcat]
  cases js with
  | nil => exact absurd rfl hjne
  | cons j js =>
    obtain ⟨c, tl, hdata, hc⟩ := Join_names_head j (js ++ "" :: xs) (hj j (by simp))
    have h1 : strings.Join (j :: js ++ "" :: xs) "/" ≠ "" := by
      intro h
      rw [List.cons_append] at h
      rw [h] at hdata
      simp at hdata
    have h2 : strings.HasPrefix (strings.Join (j :: js ++ "" :: xs) "/") "/" = false := by
      have hsl : ("/" : String).data = ['/'] := rfl
      rw [List.cons_append]
      simp only [strings.HasPrefix, hdata, hsl, List.isPrefixOf]
      simpa using fun hh => hc hh.symm
    have h3 : strings.Split (strings.Join (j :: js ++ "" :: xs) "/") Separator =
        j :: js ++ "" :: xs := by
      apply strings.Split_Join _ (by simp)
      intro s hs
      rcases List.mem_append.mp hs with h | h
      · exact names_no_sep hj s h
      · rcases List.mem_cons.mp h with h | h
        · subst h; simp
        · exact names_no_sep hx s h
    have h4 : (j :: js ++ "" :: xs).foldl (cleanElem false) [] = xs.reverse ++ (j :: js).reverse := by
      rw [List.foldl_append, foldl_cleanElem_names false (j :: js) [] hj, List.foldl_cons]
      have : cleanElem false ((j :: js).reverse ++ []) "" = (j :: js).reverse := by
        simp [cleanElem]
      rw [this, foldl_cleanElem_names false xs _ hx]
    simp only [Clean, h1, if_false, h2, h3, h4]
    simp

end filepath

theorem lookup_mem_pair {α : Type} {k : String} {v : α} :
    ∀ {m : List (String × α)}, m.lookup k = some v → (k, v) ∈ m
  | [], h => by simp [List.lookup] at h
  | (k1, v1) :: rest, h => by
    by_cases hk : k = k1
    · subst hk
      simp [List.lookup] at h
      simp [h]
    · have h2 : (k == k1) = false := by simpa using hk
      simp only [List.lookup, h2] at h
      simp [lookup_mem_pair h]

namespace PathTrie

/-- What `Walk` reports after a series of insertions, in terms of the inserted paths. -/
theorem walk_build (ps : List String) :
    (∀ segs ∈ paths (build ps),
      minimalIn ps (strings.Join segs "/") ∧ segmentsOf (strings.Join segs "/") = segs) ∧
    (∀ p, p ∈ (paths (build ps)).map (fun segs => strings.Join segs "/") ↔ minimalIn ps p) ∧
    ((paths (build ps)).map (fun segs => strings.Join segs "/")).Nodup ∧
    (build ps).Walk =
      ((paths (build ps)).map (fun segs => strings.Join segs "/")).map
        (fun p => filepath.Join (segmentsOf p)) := by
  have hwf := (build_inv ps).1
  have hseg : ∀ segs ∈ paths (build ps),
      minimalIn ps (strings.Join segs "/") ∧ segmentsOf (strings.Join segs "/") = segs := by
    intro segs hs
    obtain ⟨p, hp, rfl⟩ := (mem_paths_build ps segs).mp hs
    rw [Join_segmentsOf]
    exact ⟨hp, rfl⟩
  refine ⟨hseg, ?_, ?_, ?_⟩
  · intro p
    constructor
    · intro h
      obtain ⟨segs, hs, rfl⟩ := List.mem_map.mp h
      exact (hseg segs hs).1
    · intro h
      exact List.mem_map.mpr ⟨segmentsOf p, (mem_paths_build ps _).mpr ⟨p, h, rfl⟩,
        Join_segmentsOf p⟩
  · apply List.Nodup.map_on _ (nodup_paths _ hwf)
    intro a ha b hb hab
    rw [← (hseg a ha).2, ← (hseg b hb).2]
    simp only at hab
    rw [hab]
  · rw [Walk_eq_paths, List.map_map]
    apply List.map_congr_left
    intro segs hs
    simp [(hseg segs hs).2]

/-- After insertions of paths made of names, `Walk` reports the minimal ones, each once. -/
theorem walk_build_names (ps : List String)
    (hclean : ∀ p ∈ ps, ∀ s ∈ segmentsOf p, isName s = true) :
    (build ps).Walk = (paths (build ps)).map (fun segs => strings.Join segs "/") := by
  obtain ⟨_, hmem, _, hwalk⟩ := walk_build ps
  rw [hwalk]
  conv_rhs => rw [← List.map_id ((paths (build ps)).map (fun segs => strings.Join segs "/"))]
  apply List.map_congr_left
  intro p hp
  exact filepathJoin_segmentsOf p (hclean p ((hmem p).mp hp).1)

end PathTrie

/-! # The claims -/

/-- C1, as stated, fails: after `Insert("a/")` into the empty trie, `Walk` calls `fn` once,
with `a`, which was not inserted, and does not call it with the inserted path `a/`, which
has no inserted proper ancestor. -/
theorem C1_counterexample :
    (PathTrie.build ["a/"]).Walk = ["a"] ∧ PathTrie.minimalIn ["a/"] "a/" ∧ "a" ∉ ["a/"] := by
  refine ⟨by decide, ⟨by simp, ?_⟩, by decide⟩
  intro q hq
  have hq2 : q = "a/" := by simpa using hq
  subst hq2
  exact fun h => h.2 rfl

/-- C1 (amended): for every list of paths inserted one after another into the empty trie,
`Walk` makes exactly one call of `fn` for each inserted path that has no other inserted
path as a proper ancestor, and no other call: the list `ms` of these paths has no
duplicates and `Walk` reports `filepath.Join` of the segments of each.  That argument is
the path itself when every segment of the path is a name (not empty, not `.`, not `..`),
so for such paths `Walk` yields exactly the minimal inserted paths. -/
theorem C1_walk_minimal_paths (ps : List String) :
    ∃ ms : List String, ms.Nodup ∧ (∀ p, p ∈ ms ↔ PathTrie.minimalIn ps p) ∧
      (PathTrie.build ps).Walk = ms.map (fun p => filepath.Join (PathTrie.segmentsOf p)) ∧
      (∀ p, (∀ s ∈ PathTrie.segmentsOf p, isName s = true) →
        filepath.Join (PathTrie.segmentsOf p) = p) ∧
      ((∀ p ∈ ps, ∀ s ∈ PathTrie.segmentsOf p, isName s = true) →
        (PathTrie.build ps).Walk = ms) := by
  obtain ⟨_, hmem, hnd, hwalk⟩ := PathTrie.walk_build ps
  exact ⟨(PathTrie.paths (PathTrie.build ps)).map (fun segs => strings.Join segs "/"),
    hnd, hmem, hwalk, fun p hp => PathTrie.filepathJoin_segmentsOf p hp,
    fun hclean => PathTrie.walk_build_names ps hclean⟩

/-- C2: inserting a list of paths or any permutation of it into the empty trie gives the
same `Walk` results (each the same number of times); inserting a path that was inserted
before leaves the trie unchanged, also directly after its first insertion into any
trie. -/
theorem C2_insert_order_independent_idempotent (ps qs : List String) (h : ps.Perm qs) :
    (PathTrie.build ps).Walk.Perm (PathTrie.build qs).Walk ∧
      (∀ p ∈ ps, (PathTrie.build ps).Insert p = PathTrie.build ps) ∧
      ∀ (t : PathTrie) (p : String), (t.Insert p).Insert p = t.Insert p := by
  refine ⟨?_, ?_, ?_⟩
  · rw [PathTrie.Walk_eq_paths, PathTrie.Walk_eq_paths]
    apply List.Perm.map
    rw [List.perm_ext_iff_of_nodup (PathTrie.nodup_paths _ (PathTrie.build_inv ps).1)
      (PathTrie.nodup_paths _ (PathTrie.build_inv qs).1)]
    intro segs
    rw [PathTrie.mem_paths_build, PathTrie.mem_paths_build]
    have hm : ∀ p, PathTrie.minimalIn ps p ↔ PathTrie.minimalIn qs p := by
      intro p
      simp only [PathTrie.minimalIn, h.mem_iff]
    simp only [hm]
  · intro p hp
    exact PathTrie.insert_of_covered _ _
      ((PathTrie.build_inv ps).2.1 _ (List.mem_map_of_mem _ hp))
  · intro t p
    exact PathTrie.insert_of_covered _ _ (PathTrie.covered_insert_self _ t)

/-- C2 at the test fixture `a/a, b, a` and its reversal. -/
theorem C2_insert_order_independent_idempotent_witness :
    ["a/a", "b", "a"].Perm ["a", "b", "a/a"] ∧
    ((PathTrie.build ["a/a", "b", "a"]).Walk.Perm (PathTrie.build ["a", "b", "a/a"]).Walk ∧
      (∀ p ∈ ["a/a", "b", "a"],
        (PathTrie.build ["a/a", "b", "a"]).Insert p = PathTrie.build ["a/a", "b", "a"]) ∧
      ∀ (t : PathTrie) (p : String), (t.Insert p).Insert p = t.Insert p) :=
  ⟨by decide, C2_insert_order_independent_idempotent _ _ (by decide)⟩

/-- C3: for every trie reached from the empty trie by calls of `Insert` and `Clear`,
`Empty()` is true exactly when `Walk` calls `fn` zero times, and after `Clear()` both
hold. -/
theorem C3_empty_iff_walk_nothing (ops : List PathTrie.Op) :
    ((PathTrie.afterOps ops).Empty = true ↔ (PathTrie.afterOps ops).Walk = []) ∧
      (PathTrie.afterOps ops).Clear.Empty = true ∧ (PathTrie.afterOps ops).Clear.Walk = [] := by
  refine ⟨?_, rfl, rfl⟩
  rw [PathTrie.empty_iff_paths (PathTrie.wf_afterOps ops), PathTrie.Walk_eq_paths]
  simp

/-- C4: for a replica hash `h` that the registry knows, handling a line that parses to
`CHANGES h` writes one `RECURSIVE` line for each path that `Walk` reports for the change
trie of `h`, in that order, then one `DONE` line as the last line, and does not fail;
afterwards the trie of `h` is empty, every other replica has the trie (and hash, base path
and dirs) it had, and the registry is the same. -/
theorem C4_changes_drains_trie (env : Env) (st : Engine) (msg h : String) (i : Nat) (r : replica)
    (hparse : parseCommand msg = .ok ("CHANGES", [h]))
    (hreg : st.replicas.lookup h = some i) (hr : st.heap[i]? = some r) :
    (handleMessage env st msg).err = none ∧
    (handleMessage env st msg).out =
      r.changes.Walk.map (fun c => sendCommand "RECURSIVE" [c]) ++ [sendCommand "DONE" []] ∧
    (∃ r2, (handleMessage env st msg).st.heap[i]? = some r2 ∧ r2.changes.Empty = true ∧
      r2.changes.Walk = []) ∧
    (∀ j a, j ≠ i → st.heap[j]? = some a →
      ∃ b, (handleMessage env st msg).st.heap[j]? = some b ∧ b.changes = a.changes ∧
        b.hash = a.hash ∧ b.basePath = a.basePath ∧ b.dirs = a.dirs) ∧
    (handleMessage env st msg).st.replicas = st.replicas := by
  obtain ⟨r1, hr1, hch, heq⟩ := handleMessage_CHANGES_eq env hparse hreg hr
  rw [heq]
  refine ⟨rfl, by rw [hch], ?_, ?_, ?_⟩
  · refine ⟨{ r1 with changes := r1.changes.Clear }, ?_, rfl, rfl⟩
    simp [Engine.update_heap, hr1]
  · intro j a hj ha
    obtain ⟨b, hb, h1, h2, h3, h4, _, _⟩ := clearWaiting_get st.replicas ha
    refine ⟨b, ?_, h4, h1, h2, h3⟩
    have hij : ¬ i = j := fun h => hj h.symm
    simp [Engine.update_heap, hb, hij]
  · simp [(clearWaiting_fields _ _).1]

/-- C4 at the replica `H` holding the changes `a/b` and `c`. -/
theorem C4_changes_drains_trie_witness :
    parseCommand "CHANGES H" = .ok ("CHANGES", ["H"]) ∧
    (handleMessage exampleEnv (exampleEngine (PathTrie.build ["a/b", "c"]) false) "CHANGES H").out
      = ["RECURSIVE a%2Fb\n", "RECURSIVE c\n", "DONE\n"] :=
  ⟨rfl,
   (C4_changes_drains_trie exampleEnv (exampleEngine (PathTrie.build ["a/b", "c"]) false)
      "CHANGES H" "H" 0 (exampleReplica (PathTrie.build ["a/b", "c"]) false)
      rfl rfl rfl).2.1.trans (by decide)⟩

/-- C5: for a replica hash `h` that the registry knows, handling a line that parses to
`WAIT h` does not fail and does one of two things.  If the change trie of `h` is not empty
it writes the one line `CHANGES h` and leaves the whole state as it was, the waiting flag
of `h` included.  If the trie is empty it writes nothing and sets the waiting flag of `h`,
leaving the rest of that replica, every other replica, the registry, the active replica
and path and the watcher as they were. -/
theorem C5_wait_replies_or_arms (env : Env) (st : Engine) (msg h : String) (i : Nat)
    (r : replica) (hparse : parseCommand msg = .ok ("WAIT", [h]))
    (hreg : st.replicas.lookup h = some i) (hr : st.heap[i]? = some r) :
    (handleMessage env st msg).err = none ∧
    (r.changes.Empty = false →
      (handleMessage env st msg).out = [sendCommand "CHANGES" [h]] ∧
      (handleMessage env st msg).st = st) ∧
    (r.changes.Empty = true →
      (handleMessage env st msg).out = [] ∧
      (handleMessage env st msg).st.heap[i]? = some { r with waiting := true } ∧
      (∀ j, j ≠ i → (handleMessage env st msg).st.heap[j]? = st.heap[j]?) ∧
      (handleMessage env st msg).st.replicas = st.replicas ∧
      (handleMessage env st msg).st.r = st.r ∧
      (handleMessage env st msg).st.path = st.path ∧
      (handleMessage env st msg).st.fsWatcher = st.fsWatcher) := by
  rw [handleMessage_WAIT hparse]
  cases he : r.changes.Empty with
  | false =>
    have : handleWAIT st [h] = { st := st, out := [sendCommand "CHANGES" [h]], err := none } := by
      simp [handleWAIT, hreg, hr, he]
    rw [this]
    simp
  | true =>
    have : handleWAIT st [h] =
        { st := st.update i (fun r => { r with waiting := true }), out := [], err := none } := by
      simp [handleWAIT, hreg, hr, he]
    rw [this]
    refine ⟨rfl, by simp, fun _ => ⟨rfl, by simp [Engine.update_heap, hr], ?_, rfl, rfl, rfl, rfl⟩⟩
    intro j hj
    have hij : ¬ i = j := fun h => hj h.symm
    rw [Engine.update_heap]
    cases st.heap[j]? <;> simp [hij]

/-- C5 at the replica `H` with no pending change: `WAIT H` writes nothing and arms the
flag. -/
theorem C5_wait_replies_or_arms_witness :
    parseCommand "WAIT H" = .ok ("WAIT", ["H"]) ∧
    (handleMessage exampleEnv (exampleEngine PathTrie.empty false) "WAIT H").out = [] ∧
    ((handleMessage exampleEnv (exampleEngine PathTrie.empty false) "WAIT H").st.heap[0]?).map
      (fun r => r.waiting) = some true :=
  ⟨rfl,
   ((C5_wait_replies_or_arms exampleEnv (exampleEngine PathTrie.empty false) "WAIT H" "H" 0
      (exampleReplica PathTrie.empty false) rfl rfl rfl).2.2 rfl).1,
   by
    rw [((C5_wait_replies_or_arms exampleEnv (exampleEngine PathTrie.empty false) "WAIT H" "H" 0
      (exampleReplica PathTrie.empty false) rfl rfl rfl).2.2 rfl).2.1]
    rfl⟩

/-- C6: after any line whose command is not `WAIT` has been handled (also when handling
it fails), no replica of the registry has its waiting flag set, and a filesystem event
handled next writes no line at all, so no `CHANGES` line. -/
theorem C6_other_command_cancels_waits (env : Env) (st : Engine) (msg cmd : String)
    (args : List String) (hparse : parseCommand msg = .ok (cmd, args)) (hcmd : cmd ≠ "WAIT") :
    (∀ e ∈ (handleMessage env st msg).st.replicas, ∀ r,
      (handleMessage env st msg).st.heap[e.2]? = some r → r.waiting = false) ∧
    ∀ path, (handleEvent (handleMessage env st msg).st path).out = [] := by
  have hq : (handleMessage env st msg).st.quiet := by
    rw [handleMessage_of_parse hparse hcmd]
    exact quiet_dispatch env (quiet_clearWaiting st) cmd args hcmd
  exact ⟨hq, fun path => handleEvent_quiet _ path hq⟩

/-- C6 at the waiting replica `H`: `START H /repo /repo` clears the flag, and the event
`/repo/x` handled next writes nothing. -/
theorem C6_other_command_cancels_waits_witness :
    parseCommand "START H /repo /repo" = .ok ("START", ["H", "/repo", "/repo"]) ∧
    "START" ≠ "WAIT" ∧
    (handleEvent (handleMessage exampleEnv (exampleEngine PathTrie.empty true)
      "START H /repo /repo").st "/repo/x").out = [] :=
  ⟨rfl, by decide,
   (C6_other_command_cancels_waits exampleEnv (exampleEngine PathTrie.empty true)
      "START H /repo /repo" "START" ["H", "/repo", "/repo"] rfl (by decide)).2 "/repo/x"⟩

/-- C7: handling one filesystem event, when no two registry entries share a replica, every
entry points to a replica and `filepath.Rel` fails for no matching dirs entry, writes the
lines of the replicas in registry order: for a replica that had `waiting` set and has at
least one dirs key that is a prefix of the event path exactly one line `CHANGES <hash>`,
for any other replica none.  Afterwards every replica with a matching entry has `waiting`
cleared, and the loop of a further event on such a replica writes nothing. -/
theorem C7_event_notifies_waiting_replicas (st : Engine) (path : String)
    (hnd : (st.replicas.map Prod.snd).Nodup)
    (hok : ∀ e ∈ st.replicas, ∃ r, st.heap[e.2]? = some r ∧ r.relOk path) :
    (handleEvent st path).out =
      st.replicas.flatMap (fun e => ((st.heap[e.2]?).map (fun r =>
        if r.waiting && r.matches path then [sendCommand "CHANGES" [r.hash]] else [])).getD []) ∧
    (∀ e ∈ st.replicas, ∀ r, st.heap[e.2]? = some r → r.matches path = true →
      ∃ r2, (handleEvent st path).st.heap[e.2]? = some r2 ∧ r2.waiting = false ∧
        r2.changes = (r.eventPaths path).foldl PathTrie.Insert r.changes ∧
        ∀ path2 out found, (eventReplica path2 r2 out found).out = out) := by
  obtain ⟨st2, heq, _, _, _, _, h5⟩ := handleEvent_eq st path hnd hok
  rw [heq]
  refine ⟨rfl, ?_⟩
  intro e he r hr hm
  refine ⟨r.afterEvent path, ?_, by simp [replica.afterEvent, hm], rfl, ?_⟩
  · simp [h5, hr, List.mem_map_of_mem Prod.snd he]
  · intro path2 out found
    exact (foldl_eventEntry_quiet path2 _ _ (by simp [replica.afterEvent, hm])).2

/-- C7 at the waiting replica `H` and the event `/repo/x`: one line `CHANGES H`. -/
theorem C7_event_notifies_waiting_replicas_witness :
    (((exampleEngine PathTrie.empty true).replicas.map Prod.snd).Nodup ∧
     ∀ e ∈ (exampleEngine PathTrie.empty true).replicas,
       ∃ r, (exampleEngine PathTrie.empty true).heap[e.2]? = some r ∧ r.relOk "/repo/x") ∧
    (handleEvent (exampleEngine PathTrie.empty true) "/repo/x").out = ["CHANGES H\n"] :=
  have hnd : ((exampleEngine PathTrie.empty true).replicas.map Prod.snd).Nodup := by decide
  have hok : ∀ e ∈ (exampleEngine PathTrie.empty true).replicas,
      ∃ r, (exampleEngine PathTrie.empty true).heap[e.2]? = some r ∧ r.relOk "/repo/x" := by
    intro e he
    have : e = ("H", 0) := by simpa [exampleEngine] using he
    subst this
    refine ⟨exampleReplica PathTrie.empty true, rfl, ?_⟩
    intro d hd _
    have : d = ("/repo", "") := by simpa [exampleReplica] using hd
    subst this
    decide
  ⟨⟨hnd, hok⟩,
   (C7_event_notifies_waiting_replicas (exampleEngine PathTrie.empty true) "/repo/x"
      hnd hok).1.trans (by decide)⟩

theorem lookup_mem_snd {α : Type} {k : String} {v : α} :
    ∀ {m : List (String × α)}, m.lookup k = some v → v ∈ m.map Prod.snd
  | [], h => by simp [List.lookup] at h
  | (k1, v1) :: rest, h => by
    by_cases hk : k = k1
    · subst hk
      simp [List.lookup] at h
      simp [h]
    · have h2 : (k == k1) = false := by simpa using hk
      simp only [List.lookup, h2] at h
      simp [lookup_mem_snd h]

/-- C8: let `H` be a registered replica whose only dirs entry is `base -> ""`, with the
base an absolute path of names, and with no pending change.  After the events for the
paths `base/x` (each `x` a non-empty relative path of names) have been handled, in the
order given, none of them is fatal, and a line that parses to `CHANGES H` writes exactly
one `RECURSIVE` line for each base-relative event path that has no other of them as a
proper ancestor, and then `DONE`.  (The registry has distinct replicas, and for the other
replicas `filepath.Rel` does not fail on these events.)  For the events `/repo/a/b`,
`/repo/a/c` and `/repo/a` in each of their orders the lines are `RECURSIVE a` and
`DONE`. -/
theorem C8_coalescing (env : Env) (st : Engine) (msg H : String) (i : Nat) (r : replica)
    (bs : List String) (xss : List (List String))
    (hparse : parseCommand msg = .ok ("CHANGES", [H]))
    (hreg : st.replicas.lookup H = some i) (hr : st.heap[i]? = some r)
    (hdirs : r.dirs = [("/" ++ strings.Join bs "/", "")]) (hch : r.changes = PathTrie.empty)
    (hb : ∀ s ∈ bs, isName s = true)
    (hxss : ∀ xs ∈ xss, xs ≠ [] ∧ ∀ s ∈ xs, isName s = true)
    (hnd : (st.replicas.map Prod.snd).Nodup)
    (hoth : ∀ e ∈ st.replicas, e.2 ≠ i →
      ∃ a, st.heap[e.2]? = some a ∧
        ∀ xs ∈ xss, a.relOk ("/" ++ strings.Join (bs ++ xs) "/")) :
    ((runFrom (xss.map (fun xs => Input.event ("/" ++ strings.Join (bs ++ xs) "/"))) st []).err
        = none ∧
      ∃ ms : List String, ms.Nodup ∧
        (∀ p, p ∈ ms ↔ PathTrie.minimalIn (xss.map (fun xs => strings.Join xs "/")) p) ∧
        (handleMessage env
          (runFrom (xss.map (fun xs => Input.event ("/" ++ strings.Join (bs ++ xs) "/")))
            st []).st msg).out =
          ms.map (fun p => sendCommand "RECURSIVE" [p]) ++ [sendCommand "DONE" []]) ∧
    ∀ evs : List String, evs.Perm ["/repo/a/b", "/repo/a/c", "/repo/a"] →
      (handleMessage exampleEnv
        (runFrom (evs.map Input.event) (exampleEngine PathTrie.empty false) []).st
        "CHANGES H").out = ["RECURSIVE a\n", "DONE\n"] := by
  refine ⟨?_, ?_⟩
  swap
  · intro evs hevs
    have hmem := List.mem_permutations.mpr hevs
    have hperms : ["/repo/a/b", "/repo/a/c", "/repo/a"].permutations =
        [["/repo/a/b", "/repo/a/c", "/repo/a"], ["/repo/a/c", "/repo/a/b", "/repo/a"],
         ["/repo/a", "/repo/a/c", "/repo/a/b"], ["/repo/a/c", "/repo/a", "/repo/a/b"],
         ["/repo/a", "/repo/a/b", "/repo/a/c"], ["/repo/a/b", "/repo/a", "/repo/a/c"]] := by
      simp [List.permutations, List.permutationsAux_cons, List.permutationsAux2]
    rw [hperms] at hmem
    simp only [List.mem_cons, List.mem_singleton, List.not_mem_nil, or_false] at hmem
    rcases hmem with h | h | h | h | h | h <;> subst h <;> decide
  obtain ⟨r2, g1, g2, g3, g4⟩ := runFrom_events_below_base i bs xss hb hxss xss st [] r
    (fun _ h => h) hnd (lookup_mem_snd hreg) hr hdirs hoth
  refine ⟨g1, ?_⟩
  obtain ⟨_, hmem, hnodup, _⟩ := PathTrie.walk_build (xss.map (fun xs => strings.Join xs "/"))
  have hclean : ∀ p ∈ xss.map (fun xs => strings.Join xs "/"),
      ∀ s ∈ PathTrie.segmentsOf p, isName s = true := by
    intro p hp s hs
    obtain ⟨xs, hxs, rfl⟩ := List.mem_map.mp hp
    rw [PathTrie.segmentsOf_Join xs (hxss xs hxs).1 (hxss xs hxs).2] at hs
    exact (hxss xs hxs).2 s hs
  have hwalk := PathTrie.walk_build_names _ hclean
  refine ⟨_, hnodup, hmem, ?_⟩
  obtain ⟨r3, _, hch3, heq⟩ := handleMessage_CHANGES_eq env hparse (by rw [g2]; exact hreg) g3
  rw [heq]
  simp only [hch3, g4, hch]
  rw [← hwalk]
  rfl

/-- C8 at the replica `H` with base `/repo` and the events `/repo/a/b`, `/repo/a/c` and
`/repo/a`: no event is fatal and `CHANGES H` writes one `RECURSIVE` line for each minimal
relative path, then `DONE`. -/
theorem C8_coalescing_witness :
    (parseCommand "CHANGES H" = .ok ("CHANGES", ["H"]) ∧
     (exampleEngine PathTrie.empty false).replicas.lookup "H" = some 0 ∧
     (exampleEngine PathTrie.empty false).heap[0]? = some (exampleReplica PathTrie.empty false) ∧
     (exampleReplica PathTrie.empty false).dirs = [("/" ++ strings.Join ["repo"] "/", "")] ∧
     (∀ xs ∈ [["a", "b"], ["a", "c"], ["a"]], xs ≠ [] ∧ ∀ s ∈ xs, isName s = true)) ∧
    ((runFrom ([["a", "b"], ["a", "c"], ["a"]].map
        (fun xs => Input.event ("/" ++ strings.Join (["repo"] ++ xs) "/")))
        (exampleEngine PathTrie.empty false) []).err = none ∧
      ∃ ms : List String, ms.Nodup ∧
        (∀ p, p ∈ ms ↔ PathTrie.minimalIn
          ([["a", "b"], ["a", "c"], ["a"]].map (fun xs => strings.Join xs "/")) p) ∧
        (handleMessage exampleEnv
          (runFrom ([["a", "b"], ["a", "c"], ["a"]].map
            (fun xs => Input.event ("/" ++ strings.Join (["repo"] ++ xs) "/")))
            (exampleEngine PathTrie.empty false) []).st "CHANGES H").out =
          ms.map (fun p => sendCommand "RECURSIVE" [p]) ++ [sendCommand "DONE" []]) :=
  ⟨⟨rfl, rfl, rfl, rfl, by decide⟩,
   (C8_coalescing exampleEnv (exampleEngine PathTrie.empty false) "CHANGES H" "H" 0
      (exampleReplica PathTrie.empty false) ["repo"] [["a", "b"], ["a", "c"], ["a"]]
      rfl rfl rfl rfl rfl (by decide) (by decide) (by decide)
      (by
        intro e he hne
        have : e = ("H", 0) := by simpa [exampleEngine] using he
        subst this
        exact absurd rfl hne)).1⟩

theorem handleLINK_ok {env : Env} {st : Engine} {name T : String} {i : Nat} {r : replica}
    {w : FSWatcher} (hact : st.r = some i) (hr : st.heap[i]? = some r)
    (hwatch : FSWatcher.Watch env st.fsWatcher
      (filepath.Join [r.basePath, filepath.Join [st.path, name]]) = (w, none))
    (hlink : env.readlink (filepath.Join [r.basePath, filepath.Join [st.path, name]]) = .ok T) :
    handleLINK env st [name] =
      { st := ({ st with fsWatcher := w } : Engine).update i (fun r =>
          { r with dirs := (gomap.set T
              (if !strings.HasSuffix (filepath.Join [st.path, name]) "/"
                then filepath.Join [st.path, name] ++ "/" else filepath.Join [st.path, name])
              r.dirs) }),
        out := [sendCommand "OK" []], err := none } := by
  simp only [handleLINK, hact, hr, hwatch, hlink]

theorem handleMessage_LINK_ok {env : Env} {st : Engine} {msg name T : String} {i : Nat}
    {r : replica} {w : FSWatcher}
    (hparse : parseCommand msg = .ok ("LINK", [name]))
    (hact : st.r = some i) (hr : st.heap[i]? = some r)
    (hwatch : FSWatcher.Watch env st.fsWatcher
      (filepath.Join [r.basePath, filepath.Join [st.path, name]]) = (w, none))
    (hlink : env.readlink (filepath.Join [r.basePath, filepath.Join [st.path, name]]) = .ok T) :
    ∃ (post : Engine) (r1 : replica), handleMessage env st msg = { st := post, out := [sendCommand "OK" []], err := none } ∧
      r1.changes = r.changes ∧ r1.hash = r.hash ∧
      post.heap[i]? = some { r1 with dirs := (gomap.set T
        (if !strings.HasSuffix (filepath.Join [st.path, name]) "/"
          then filepath.Join [st.path, name] ++ "/" else filepath.Join [st.path, name]) r1.dirs) } := by
  obtain ⟨r1, hr1, hhash, hbase, _, hch, _, _⟩ := clearWaiting_get st.replicas hr
  obtain ⟨_, hf2, hf3, hf4⟩ := clearWaiting_fields st.replicas st
  rw [handleMessage_of_parse hparse (by decide)]
  have hd : dispatch env (clearWaiting st.replicas st) "LINK" [name] =
      handleLINK env (clearWaiting st.replicas st) [name] := by
    simp [dispatch]
  rw [hd, handleLINK_ok (hf2.trans hact) hr1
    (by rw [hf3, hf4, hbase]; exact hwatch) (by rw [hf3, hbase]; exact hlink)]
  refine ⟨_, r1, rfl, hch, hhash, ?_⟩
  simp [Engine.update_heap, hr1, hf3]

/-- The case in which the symlink follow works: when a line that parses to `LINK name` is
handled with a replica active, the watch on `join(basePath, join(p, name))` is installed
and the text of the symlink, as `os.Readlink` returns it, is `T`, the step
does not fail, writes `OK`, and afterwards the dirs of the replica map `T` to
`join(p, name)` with a separator at its end (appended if it was not there).  If further
`p` is a relative path of names, `name` a name and `T` an absolute path of names, the
replica is registered, the registry has distinct replicas and `filepath.Rel` fails for no
matching entry, then a later event for `T/x`, `x` a non-empty relative path of names, is
not fatal and inserts into the changes of the replica, among the paths of its matching
entries, the logical path `p/name/x`.  So the follow works when the text of the symlink
is itself the absolute, clean path of the real directory. -/
theorem symlink_follow_absolute (env : Env) (st : Engine) (msg name T : String) (i : Nat)
    (r : replica) (w : FSWatcher)
    (hparse : parseCommand msg = .ok ("LINK", [name]))
    (hact : st.r = some i) (hr : st.heap[i]? = some r)
    (hwatch : FSWatcher.Watch env st.fsWatcher
      (filepath.Join [r.basePath, filepath.Join [st.path, name]]) = (w, none))
    (hlink : env.readlink (filepath.Join [r.basePath, filepath.Join [st.path, name]]) = .ok T) :
    (handleMessage env st msg).err = none ∧
    (handleMessage env st msg).out = [sendCommand "OK" []] ∧
    ∃ r2 logical, (handleMessage env st msg).st.heap[i]? = some r2 ∧
      r2.dirs.lookup T = some logical ∧ strings.HasSuffix logical "/" = true ∧
      (logical = filepath.Join [st.path, name] ∨
        logical = filepath.Join [st.path, name] ++ "/") ∧
      ∀ ps ts xs : List String,
        st.path = strings.Join ps "/" → (∀ s ∈ ps, isName s = true) → isName name = true →
        T = "/" ++ strings.Join ts "/" → (∀ s ∈ ts, isName s = true) →
        (∀ s ∈ xs, isName s = true) → xs ≠ [] →
        ((handleMessage env st msg).st.replicas.map Prod.snd).Nodup →
        i ∈ (handleMessage env st msg).st.replicas.map Prod.snd →
        (∀ e ∈ (handleMessage env st msg).st.replicas,
          ∃ a, (handleMessage env st msg).st.heap[e.2]? = some a ∧
            a.relOk ("/" ++ strings.Join (ts ++ xs) "/")) →
        (handleEvent (handleMessage env st msg).st ("/" ++ strings.Join (ts ++ xs) "/")).err
          = none ∧
        ∃ r3, (handleEvent (handleMessage env st msg).st
            ("/" ++ strings.Join (ts ++ xs) "/")).st.heap[i]? = some r3 ∧
          r3.changes = (r2.eventPaths ("/" ++ strings.Join (ts ++ xs) "/")).foldl
            PathTrie.Insert r2.changes ∧
          strings.Join (ps ++ [name] ++ xs) "/" ∈
            r2.eventPaths ("/" ++ strings.Join (ts ++ xs) "/") := by
  obtain ⟨post, r1, heq, _, _, hpost⟩ := handleMessage_LINK_ok hparse hact hr hwatch hlink
  rw [heq]
  refine ⟨rfl, rfl, _, _, hpost, gomap.lookup_set_self _ _ _, ?_, ?_, ?_⟩
  · cases hs : strings.HasSuffix (filepath.Join [st.path, name]) "/" with
    | true => simpa using hs
    | false => simpa using filepath.HasSuffix_slash _
  · cases hs : strings.HasSuffix (filepath.Join [st.path, name]) "/" with
    | true => left; simp
    | false => right; simp
  · intro ps ts xs hpath hps hname hT hts hxs hxne hnd hi hok
    simp only at hnd hi hok ⊢
    obtain ⟨st2, heq2, _, _, _, _, h5⟩ := handleEvent_eq _ _ hnd hok
    have hrel : filepath.Join [st.path, name] = strings.Join (ps ++ [name]) "/" := by
      rw [hpath]; exact filepath.Join_path_name ps name hps hname
    have hsuf : strings.HasSuffix (strings.Join (ps ++ [name]) "/") "/" = false :=
      filepath.HasSuffix_names ps name hname
    simp only [hrel, hsuf, Bool.not_false, if_true] at hpost ⊢
    have hmemdirs : (T, strings.Join (ps ++ [name]) "/" ++ "/") ∈
        gomap.set T (strings.Join (ps ++ [name]) "/" ++ "/") r1.dirs :=
      lookup_mem_pair (gomap.lookup_set_self _ _ _)
    have hpn : ∀ s ∈ ps ++ [name], isName s = true := by
      intro s hs
      rcases List.mem_append.mp hs with h | h
      · exact hps s h
      · have : s = name := by simpa using h
        exact this ▸ hname
    have hmem : strings.Join (ps ++ [name] ++ xs) "/" ∈
        ({ r1 with dirs := gomap.set T (strings.Join (ps ++ [name]) "/" ++ "/") r1.dirs }
          : replica).eventPaths ("/" ++ strings.Join (ts ++ xs) "/") := by
      simp only [replica.eventPaths, List.mem_filterMap]
      refine ⟨_, hmemdirs, ?_⟩
      simp only [hT, filepath.HasPrefix_below, if_true, filepath.Rel_below ts xs hts hxs hxne,
        Option.map_some', filepath.Join_link_below (ps ++ [name]) xs hpn hxs (by simp) hxne]
    have hmatch : ({ r1 with dirs := gomap.set T (strings.Join (ps ++ [name]) "/" ++ "/") r1.dirs }
          : replica).matches ("/" ++ strings.Join (ts ++ xs) "/") = true := by
      simp only [replica.matches, List.any_eq_true]
      exact ⟨_, hmemdirs, by simp only [hT, filepath.HasPrefix_below]⟩
    rw [heq2]
    refine ⟨?_, ({ r1 with dirs := gomap.set T (strings.Join (ps ++ [name]) "/" ++ "/") r1.dirs }
          : replica).afterEvent ("/" ++ strings.Join (ts ++ xs) "/"), ?_, rfl, hmem⟩
    · obtain ⟨e, he, hei⟩ := List.mem_map.mp hi
      have hany : post.replicas.any (fun e => ((post.heap[e.2]?).map
          (fun r => r.matches ("/" ++ strings.Join (ts ++ xs) "/"))).getD false) = true :=
        List.any_eq_true.mpr ⟨e, he, by
          simp only [hei, hpost]
          simpa using hmatch⟩
      simp only [hany, if_true]
    · rw [h5, hpost]
      simp only [Option.map_some', hi, if_true]

/-- The replica `H` with base `/repo`, active with the empty path, where `/repo/link` is a
symlink with the text `/other/dir`: `LINK link` writes `OK` and maps `/other/dir`
to `link/`, and the event `/other/dir/f` is then recorded as `link/f`. -/
theorem symlink_follow_absolute_example :
    (parseCommand "LINK link" = .ok ("LINK", ["link"]) ∧ exampleActive.r = some 0 ∧
     exampleEnv.readlink "/repo/link" = .ok "/other/dir") ∧
    (handleMessage exampleEnv exampleActive "LINK link").out = ["OK\n"] ∧
    (((handleMessage exampleEnv exampleActive "LINK link").st.heap[0]?).map
      (fun r => r.dirs.lookup "/other/dir")) = some (some "link/") ∧
    (handleEvent (handleMessage exampleEnv exampleActive "LINK link").st "/other/dir/f").err
      = none ∧
    (((handleEvent (handleMessage exampleEnv exampleActive "LINK link").st
      "/other/dir/f").st.heap[0]?).map (fun r => r.changes.Walk)) = some ["link/f"] := by
  obtain ⟨_, hout, r2, logical, _, _, _, _, hB⟩ :=
    symlink_follow_absolute exampleEnv exampleActive "LINK link" "link" "/other/dir" 0
      (exampleReplica PathTrie.empty false)
      { chans := [("/repo/...", 1), ("/repo/link/...", 3)],
        points := [("/repo/...", 0), ("/repo/link/...", 2)], made := 4 }
      rfl rfl rfl rfl rfl
  have hev := (hB [] ["other", "dir"] ["f"] rfl (by decide) (by decide) rfl (by decide) (by decide)
    (by decide) (by decide) (by decide)
    (by
      intro e he
      have hreps : (handleMessage exampleEnv exampleActive "LINK link").st.replicas
          = [("H", 0)] := rfl
      have hheap : (handleMessage exampleEnv exampleActive "LINK link").st.heap[0]?
          = some { hash := "H", basePath := "/repo",
                   dirs := [("/repo", ""), ("/other/dir", "link/")],
                   changes := PathTrie.empty, waiting := false } := rfl
      rw [hreps] at he
      have : e = ("H", 0) := by simpa using he
      subst this
      refine ⟨_, hheap, ?_⟩
      intro d hd _
      have hd2 : d = ("/repo", "") ∨ d = ("/other/dir", "link/") := by
        simpa using hd
      rcases hd2 with h | h <;> subst h <;> decide)).1
  exact ⟨⟨rfl, rfl, rfl⟩, hout, by decide, hev, by decide⟩

/-- C9: the code fails where the claim says it holds.  The replica `H` has the base `/repo`
and `/repo/link` is a symlink with the relative text `../other/dir`, so its target is the
real directory `/other/dir` (the text resolved in `/repo`, the directory of the link).
`LINK link` installs the watch and writes `OK`, but the key that it stores in dirs is the
text `../other/dir` that `os.Readlink` returns, not `/other/dir`: dirs has no entry for
`/other/dir`.  The later event for `/other/dir/f` then matches no dirs entry: nothing is
recorded in the changes of `H`, and `run` returns with the error that the event matched no
replica. -/
theorem C9_relative_symlink_not_followed :
    exampleRelEnv.readlink "/repo/link" = .ok "../other/dir" ∧
    filepath.Join ["/repo", "../other/dir"] = "/other/dir" ∧
    (runFrom [Input.message exampleRelEnv "START H /repo ",
        Input.message exampleRelEnv "LINK link"] Engine.init []).err = none ∧
    (runFrom [Input.message exampleRelEnv "START H /repo ",
        Input.message exampleRelEnv "LINK link"] Engine.init []).out = ["OK\n", "OK\n"] ∧
    ((runFrom [Input.message exampleRelEnv "START H /repo ",
        Input.message exampleRelEnv "LINK link"] Engine.init []).st.replicaOf "H").map
          (fun r => r.dirs) = some [("/repo", ""), ("../other/dir", "link/")] ∧
    ((runFrom [Input.message exampleRelEnv "START H /repo ",
        Input.message exampleRelEnv "LINK link"] Engine.init []).st.replicaOf "H").map
          (fun r => r.dirs.lookup "/other/dir") = some none ∧
    (runFrom [Input.message exampleRelEnv "START H /repo ",
        Input.message exampleRelEnv "LINK link", Input.event "/other/dir/f"]
        Engine.init []).err = some (Error.unmatched "/other/dir/f") ∧
    ((runFrom [Input.message exampleRelEnv "START H /repo ",
        Input.message exampleRelEnv "LINK link", Input.event "/other/dir/f"]
        Engine.init []).st.replicaOf "H").map (fun r => r.changes.Walk) = some [] :=
  ⟨rfl, by decide⟩

/-- C10: the code fails where the claim says it succeeds.  After `START H /repo /repo`
on the existing directory `/repo` and `DONE`, handling `RESET H` returns the error of
`FSWatcher.Unwatch` (no watcher registered for `/repo`): `Watch` stored the watch under
the key `/repo/...`, while `RESET` unwatches `join(basePath, "")`, which is `/repo`.  The
replica stays in the registry and the watch point stays installed. -/
theorem C10_reset_fails_after_start :
    (runFrom [Input.message exampleEnv "START H /repo /repo", Input.message exampleEnv "DONE",
        Input.message exampleEnv "RESET H"] Engine.init []).err
      = some (Error.notWatched "/repo") ∧
    (runFrom [Input.message exampleEnv "START H /repo /repo", Input.message exampleEnv "DONE",
        Input.message exampleEnv "RESET H"] Engine.init []).st.replicas = [("H", 0)] ∧
    (runFrom [Input.message exampleEnv "START H /repo /repo", Input.message exampleEnv "DONE",
        Input.message exampleEnv "RESET H"] Engine.init []).st.fsWatcher
      = { chans := [("/repo/...", 1)], points := [("/repo/...", 0)], made := 2 } := by
  decide

/-- C11: the code fails where the claim says it succeeds.  On a new watcher, `Watch("/repo")`
for the existing directory `/repo` returns no error and stores the watch under the key
`/repo/...`; `Unwatch("/repo")`, with the identical string, then returns the error "no
watcher registered" and removes nothing.  For the regular file `/f`, `Unwatch("/f")` after
`Watch("/f")` returns no error and drops the key, but the watch point that
`notify.Watch` registered stays: `Watch` kept another channel than the registered one. -/
theorem C11_unwatch_fails_after_watch :
    (FSWatcher.Watch exampleEnv FSWatcher.New "/repo").2 = none ∧
    (FSWatcher.Watch exampleEnv FSWatcher.New "/repo").1.chans = [("/repo/...", 1)] ∧
    (FSWatcher.Unwatch (FSWatcher.Watch exampleEnv FSWatcher.New "/repo").1 "/repo")
      = ((FSWatcher.Watch exampleEnv FSWatcher.New "/repo").1,
         some (Error.notWatched "/repo")) ∧
    (FSWatcher.Watch exampleFileEnv FSWatcher.New "/f").2 = none ∧
    (FSWatcher.Unwatch (FSWatcher.Watch exampleFileEnv FSWatcher.New "/f").1 "/f")
      = ({ chans := [], points := [("/f", 0)], made := 2 }, none) := by
  decide

/-- C17: the code fails where the claim says it holds.  With the replicas `A` at `/repo`
and `B` at `/repo-backup` registered, the event for `/repo-backup/x` is matched against
the dirs entry `/repo -> ""` of `A`, because `/repo` is a string prefix of the event path,
and the path `../repo-backup/x`, with a `..` segment, is inserted into the changes of
`A`. -/
theorem C17_event_matches_by_string :
    strings.HasPrefix "/repo-backup/x" "/repo" = true ∧
    filepath.Rel "/repo" "/repo-backup/x" = some "../repo-backup/x" ∧
    (runFrom [Input.message exampleEnv2 "START A /repo ", Input.message exampleEnv2 "DONE",
        Input.message exampleEnv2 "START B /repo-backup ", Input.message exampleEnv2 "DONE",
        Input.event "/repo-backup/x"] Engine.init []).err = none ∧
    ((runFrom [Input.message exampleEnv2 "START A /repo ", Input.message exampleEnv2 "DONE",
        Input.message exampleEnv2 "START B /repo-backup ", Input.message exampleEnv2 "DONE",
        Input.event "/repo-backup/x"] Engine.init []).st.heap.map
          (fun r => (r.hash, r.changes.Walk)))
      = [("A", ["../repo-backup/x"]), ("B", ["x"])] := by
  decide

/-- C18: the code fails where the claim says it holds.  For the replica `H` with base
`/repo`, the event for `/repo` itself inserts the path `.`, not the empty path
(`filepath.Rel` gives `.`), so it does not take in the changes below the base: after the
events `/repo/a`, `/repo` and `/repo/b`, `CHANGES H` writes three `RECURSIVE` lines, for
`a`, `.` and `b`, before `DONE`. -/
theorem C18_root_event_inserts_dot :
    filepath.Rel "/repo" "/repo" = some "." ∧ filepath.Join ["", "."] = "." ∧
    ((handleEvent (exampleEngine PathTrie.empty false) "/repo").st.heap.map
      (fun r => r.changes.Walk)) = [["."]] ∧
    (runFrom [Input.event "/repo/a", Input.event "/repo", Input.event "/repo/b",
        Input.message exampleEnv "CHANGES H"] (exampleEngine PathTrie.empty false) []).out
      = ["RECURSIVE a\n", "RECURSIVE .\n", "RECURSIVE b\n", "DONE\n"] := by
  decide

theorem unescapeAll_eq_nil {l : List String} (h : unescapeAll l = some []) : l = [] := by
  cases l with
  | nil => rfl
  | cons a rest =>
    simp only [unescapeAll] at h
    cases h1 : url.PathUnescape a with
    | none => simp [h1] at h
    | some b =>
      cases h2 : unescapeAll rest <;> simp [h1, h2] at h

theorem Split_ne_nil (s : String) (sep : Char) : strings.Split s sep ≠ [] := by
  intro h
  have h2 : s.data.splitOn sep = [] := by simpa [strings.Split] using h
  exact List.splitOnP_ne_nil _ _ h2

/-- C19: the code fails where the claim says it rejects.  For the empty message,
`strings.Split` gives one empty piece, so `parseCommand` returns the command `""` with no
argument and no error; its `empty message` error is returned for no input at all (the
list of pieces is never empty, so `out[0]` never fails either).  The empty line is
rejected only later, by the `default` case of the switch, as an unknown command. -/
theorem C19_empty_message_not_rejected :
    parseCommand "" = .ok ("", []) ∧
    (∀ (env : Env) (st : Engine),
      (handleMessage env st "").err = some (Error.unknownCommand "")) ∧
    ∀ msg : String, parseCommand msg ≠ .error Error.emptyMessage := by
  refine ⟨rfl, ?_, ?_⟩
  · intro env st
    have hp : parseCommand "" = .ok ("", []) := rfl
    rw [handleMessage_of_parse hp (by decide)]
    simp [dispatch, Step.fail]
  · intro msg
    unfold parseCommand
    cases h : unescapeAll (strings.Split msg ' ') with
    | none => simp
    | some l =>
      cases l with
      | nil => exact absurd (unescapeAll_eq_nil h) (Split_ne_nil msg ' ')
      | cons c args => simp

/-! ## Protocol errors -/

theorem unescapeAll_none : ∀ {l : List String},
    (∃ piece ∈ l, url.PathUnescape piece = none) → unescapeAll l = none
  | [], h => by simp at h
  | a :: rest, h => by
    simp only [unescapeAll]
    cases h1 : url.PathUnescape a with
    | none => rfl
    | some b =>
      obtain ⟨piece, hp, hnone⟩ := h
      rcases List.mem_cons.mp hp with h2 | h2
      · subst h2; rw [h1] at hnone; exact absurd hnone (by simp)
      · simp [unescapeAll_none ⟨piece, h2, hnone⟩]

theorem handleMessage_eq_dispatch (env : Env) (st : Engine) {msg cmd : String}
    {args : List String} (hparse : parseCommand msg = .ok (cmd, args)) :
    ∃ st1 : Engine, handleMessage env st msg = dispatch env st1 cmd args ∧ st1.r = st.r ∧
      st1.path = st.path ∧ st1.replicas = st.replicas ∧ st1.fsWatcher = st.fsWatcher := by
  by_cases hc : cmd = "WAIT"
  · exact ⟨st, by simp [handleMessage, hparse, hc], rfl, rfl, rfl, rfl⟩
  · obtain ⟨h1, h2, h3, h4⟩ := clearWaiting_fields st.replicas st
    exact ⟨clearWaiting st.replicas st, handleMessage_of_parse hparse hc, h2, h3, h1, h4⟩

theorem handleSTART_badArgs (env : Env) (st : Engine) (args : List String)
    (h : args.length ≠ 3) :
    handleSTART env st args = Step.fail st (Error.badArgs "START" args.length) := by
  unfold handleSTART
  split
  · simp at h
  · rfl

theorem handleLINK_badArgs (env : Env) (st : Engine) (args : List String)
    (h : args.length ≠ 1) :
    handleLINK env st args = Step.fail st (Error.badArgs "LINK" args.length) := by
  unfold handleLINK
  split
  · simp at h
  · rfl

theorem handleWAIT_badArgs (st : Engine) (args : List String) (h : args.length ≠ 1) :
    handleWAIT st args = Step.fail st (Error.badArgs "WAIT" args.length) := by
  unfold handleWAIT
  split
  · simp at h
  · rfl

theorem handleCHANGES_badArgs (st : Engine) (args : List String) (h : args.length ≠ 1) :
    handleCHANGES st args = Step.fail st (Error.badArgs "CHANGES" args.length) := by
  unfold handleCHANGES
  split
  · simp at h
  · rfl

theorem handleRESET_badArgs (st : Engine) (args : List String) (h : args.length ≠ 1) :
    handleRESET st args = Step.fail st (Error.badArgs "RESET" args.length) := by
  unfold handleRESET
  split
  · simp at h
  · rfl

theorem dispatch_badArgs (env : Env) (st : Engine) (cmd : String) (args : List String)
    (n : Nat) (ha : arity cmd = some n) (hl : args.length ≠ n) :
    dispatch env st cmd args = Step.fail st (Error.badArgs cmd args.length) := by
  unfold arity at ha
  unfold dispatch
  split at ha
  · rename_i hc
    have hn : n = 0 := by simpa using ha.symm
    subst hn; subst hc
    simp [handleDEBUG, hl]
  split at ha
  · rename_i _ hc
    have hn : n = 3 := by simpa using ha.symm
    subst hn; subst hc
    simp [handleSTART_badArgs env st args hl]
  split at ha
  · rename_i _ _ hc
    have hn : n = 1 := by simpa using ha.symm
    subst hn; subst hc
    simp [handleDIR, hl]
  split at ha
  · rename_i _ _ _ hc
    have hn : n = 1 := by simpa using ha.symm
    subst hn; subst hc
    simp [handleLINK_badArgs env st args hl]
  split at ha
  · rename_i _ _ _ _ hc
    have hn : n = 0 := by simpa using ha.symm
    subst hn; subst hc
    simp [handleDONE, hl]
  split at ha
  · rename_i _ _ _ _ _ hc
    have hn : n = 1 := by simpa using ha.symm
    subst hn; subst hc
    simp [handleWAIT_badArgs st args hl]
  split at ha
  · rename_i _ _ _ _ _ _ hc
    have hn : n = 1 := by simpa using ha.symm
    subst hn; subst hc
    simp [handleCHANGES_badArgs st args hl]
  split at ha
  · rename_i _ _ _ _ _ _ _ hc
    have hn : n = 1 := by simpa using ha.symm
    subst hn; subst hc
    simp [handleRESET_badArgs st args hl]
  · simp at ha

/-- C12: every protocol error makes the step return an error and write nothing (so no
`OK`): a piece of the line with a malformed percent escape; a command token that is not one
of `DEBUG`, `START`, `DIR`, `LINK`, `DONE`, `WAIT`, `CHANGES`, `RESET`; a number of
arguments different from the arity of the command (0, 3, 1, 1, 0, 1, 1, 1); `START`
while a replica is active; `DIR` or `LINK` while no replica is active. -/
theorem C12_protocol_errors_fatal (env : Env) (st : Engine) (msg : String) :
    ((∃ piece ∈ strings.Split msg ' ', url.PathUnescape piece = none) →
      (handleMessage env st msg).err = some Error.parse ∧ (handleMessage env st msg).out = []) ∧
    ∀ (cmd : String) (args : List String), parseCommand msg = .ok (cmd, args) →
      (cmd ∉ ["DEBUG", "START", "DIR", "LINK", "DONE", "WAIT", "CHANGES", "RESET"] →
        (handleMessage env st msg).err = some (Error.unknownCommand cmd) ∧
        (handleMessage env st msg).out = []) ∧
      (∀ n, arity cmd = some n → args.length ≠ n →
        (handleMessage env st msg).err = some (Error.badArgs cmd args.length) ∧
        (handleMessage env st msg).out = []) ∧
      (cmd = "START" → st.r ≠ none →
        (handleMessage env st msg).err ≠ none ∧ (handleMessage env st msg).out = []) ∧
      ((cmd = "DIR" ∨ cmd = "LINK") → st.r = none →
        (handleMessage env st msg).err ≠ none ∧ (handleMessage env st msg).out = []) := by
  refine ⟨?_, ?_⟩
  · intro h
    have hp : parseCommand msg = .error Error.parse := by
      simp [parseCommand, unescapeAll_none h]
    simp [handleMessage, hp, Step.fail]
  · intro cmd args hparse
    obtain ⟨st1, heq, hr, _, _, _⟩ := handleMessage_eq_dispatch env st hparse
    rw [heq]
    refine ⟨?_, ?_, ?_, ?_⟩
    · intro hc
      simp only [List.mem_cons, List.mem_singleton, List.not_mem_nil, or_false, not_or] at hc
      obtain ⟨h1, h2, h3, h4, h5, h6, h7, h8⟩ := hc
      simp [dispatch, h1, h2, h3, h4, h5, h6, h7, h8, Step.fail]
    · intro n ha hl
      rw [dispatch_badArgs env st1 cmd args n ha hl]
      exact ⟨rfl, rfl⟩
    · intro hc hact
      subst hc
      by_cases hl : args.length = 3
      · have hd : dispatch env st1 "START" args = handleSTART env st1 args := by
          simp [dispatch]
        rw [hd]
        unfold handleSTART
        split
        · simp [hr, hact, Step.fail]
        · simp [Step.fail]
      · rw [dispatch_badArgs env st1 "START" args 3 rfl hl]
        simp [Step.fail]
    · intro hc hact
      by_cases hl : args.length = 1
      · rcases hc with hc | hc
        · subst hc
          simp [dispatch, handleDIR, hl, hr, hact, Step.fail]
        · subst hc
          have hd : dispatch env st1 "LINK" args = handleLINK env st1 args := by
            simp [dispatch]
          rw [hd]
          unfold handleLINK
          split
          · simp [hr, hact, Step.fail]
          · simp [Step.fail]
      · have ha : arity cmd = some 1 := by
          rcases hc with hc | hc <;> subst hc <;> rfl
        rw [dispatch_badArgs env st1 cmd args 1 ha hl]
        simp [Step.fail]

/-- C12 at lines with each kind of error, handled with the replica `H` active. -/
theorem C12_protocol_errors_fatal_witness :
    (handleMessage exampleEnv exampleActive "DIR a%2").err = some Error.parse ∧
    (handleMessage exampleEnv exampleActive "HELLO").err = some (Error.unknownCommand "HELLO") ∧
    (handleMessage exampleEnv exampleActive "DIR a b").err = some (Error.badArgs "DIR" 2) ∧
    (handleMessage exampleEnv exampleActive "START H /repo a").err ≠ none ∧
    (handleMessage exampleEnv (exampleEngine PathTrie.empty false) "LINK a").err ≠ none :=
  ⟨((C12_protocol_errors_fatal exampleEnv exampleActive "DIR a%2").1
      ⟨"a%2", by decide, by decide⟩).1,
   (((C12_protocol_errors_fatal exampleEnv exampleActive "HELLO").2 "HELLO" [] rfl).1
      (by decide)).1,
   (((C12_protocol_errors_fatal exampleEnv exampleActive "DIR a b").2 "DIR" ["a", "b"] rfl).2.1
      1 rfl (by decide)).1,
   (((C12_protocol_errors_fatal exampleEnv exampleActive "START H /repo a").2 "START"
      ["H", "/repo", "a"] rfl).2.2.1 rfl (by decide)).1,
   (((C12_protocol_errors_fatal exampleEnv (exampleEngine PathTrie.empty false) "LINK a").2
      "LINK" ["a"] rfl).2.2.2 (Or.inr rfl) rfl).1⟩

theorem FSWatcher.Watch_error {env : Env} {w : FSWatcher} {path : String} {e : FSError}
    (h : (FSWatcher.Watch env w path).2 = some e) :
    (FSWatcher.Watch env w path).1.chans = w.chans ∧
      (FSWatcher.Watch env w path).1.points = w.points := by
  unfold FSWatcher.Watch at h ⊢
  split
  · exact ⟨rfl, rfl⟩
  · dsimp only at h ⊢
    split
    · exact ⟨rfl, rfl⟩
    · split
      · exact ⟨rfl, rfl⟩
      · rename_i h1 _ h2 _ h3
        simp [h1, h2, h3] at h

/-- C13: when a line that parses to `LINK name` is handled with a replica active and
installing the watch fails with a not-exist error, the step writes nothing and returns no
error.  The registry, the active replica and the active path stay as they were, every
replica keeps its hash, base path, dirs and change trie, and the watcher keeps its keys
and watch points; so the next line meets the state it would have met without the
`LINK` (up to the waiting flags, which any command other than `WAIT` clears). -/
theorem C13_broken_link_is_soft (env : Env) (st : Engine) (msg name : String) (i : Nat)
    (r : replica) (hparse : parseCommand msg = .ok ("LINK", [name]))
    (hact : st.r = some i) (hr : st.heap[i]? = some r)
    (hwatch : (FSWatcher.Watch env st.fsWatcher
      (filepath.Join [r.basePath, filepath.Join [st.path, name]])).2 = some FSError.notExist) :
    (handleMessage env st msg).out = [] ∧ (handleMessage env st msg).err = none ∧
    (handleMessage env st msg).st.replicas = st.replicas ∧
    (handleMessage env st msg).st.r = st.r ∧
    (handleMessage env st msg).st.path = st.path ∧
    (handleMessage env st msg).st.fsWatcher.chans = st.fsWatcher.chans ∧
    (handleMessage env st msg).st.fsWatcher.points = st.fsWatcher.points ∧
    (handleMessage env st msg).st.heap.length = st.heap.length ∧
    (∀ (j : Nat) (a : replica), st.heap[j]? = some a →
      ∃ b : replica, (handleMessage env st msg).st.heap[j]? = some b ∧ b.dirs = a.dirs ∧
        b.changes = a.changes ∧ b.hash = a.hash ∧ b.basePath = a.basePath) := by
  obtain ⟨r1, hr1, _, hbase, _, _, _, _⟩ := clearWaiting_get st.replicas hr
  obtain ⟨hf1, hf2, hf3, hf4⟩ := clearWaiting_fields st.replicas st
  obtain ⟨hw1, hw2⟩ := FSWatcher.Watch_error hwatch
  rw [handleMessage_of_parse hparse (by decide)]
  have hd : dispatch env (clearWaiting st.replicas st) "LINK" [name] =
      handleLINK env (clearWaiting st.replicas st) [name] := by
    simp [dispatch]
  have hw : FSWatcher.Watch env (clearWaiting st.replicas st).fsWatcher
      (filepath.Join [r1.basePath, filepath.Join [(clearWaiting st.replicas st).path, name]]) =
      ((FSWatcher.Watch env st.fsWatcher
        (filepath.Join [r.basePath, filepath.Join [st.path, name]])).1,
       some FSError.notExist) := by
    rw [hf3, hf4, hbase, ← hwatch]
  have hres : handleLINK env (clearWaiting st.replicas st) [name] =
      { st := { clearWaiting st.replicas st with
                fsWatcher := (FSWatcher.Watch env st.fsWatcher
                  (filepath.Join [r.basePath, filepath.Join [st.path, name]])).1 },
        out := [], err := none } := by
    simp only [handleLINK, hf2.trans hact, hr1, hw, if_true]
  rw [hd, hres]
  refine ⟨rfl, rfl, hf1, hf2, hf3, hw1, hw2, ?_, ?_⟩
  · have hlen : ∀ (reps : List (String × Nat)) (s : Engine),
        (clearWaiting reps s).heap.length = s.heap.length := by
      intro reps
      induction reps with
      | nil => intro s; rfl
      | cons e rest ih =>
        intro s
        obtain ⟨k, v⟩ := e
        rw [clearWaiting, ih]
        simp [Engine.update]
    exact hlen _ _
  · intro j a ha
    obtain ⟨b, hb, h1, h2, h3, h4, _, _⟩ := clearWaiting_get st.replicas ha
    exact ⟨b, hb, h3, h4, h1, h2⟩

/-- C13 at the active replica `H` and the name `missing`, which does not exist. -/
theorem C13_broken_link_is_soft_witness :
    (parseCommand "LINK missing" = .ok ("LINK", ["missing"]) ∧ exampleActive.r = some 0) ∧
    (handleMessage exampleEnv exampleActive "LINK missing").out = [] ∧
    (handleMessage exampleEnv exampleActive "LINK missing").err = none :=
  ⟨⟨rfl, rfl⟩,
   (C13_broken_link_is_soft exampleEnv exampleActive "LINK missing" "missing" 0
      (exampleReplica PathTrie.empty false) rfl rfl rfl (by decide)).1,
   (C13_broken_link_is_soft exampleEnv exampleActive "LINK missing" "missing" 0
      (exampleReplica PathTrie.empty false) rfl rfl rfl (by decide)).2.1⟩

theorem replica.no_match {r : replica} {path : String} (h : r.matches path = false) :
    r.relOk path ∧ r.eventOut path = [] ∧ r.afterEvent path = r := by
  have hall : ∀ d ∈ r.dirs, strings.HasPrefix path d.1 = false := by
    intro d hd
    have := List.any_eq_false.mp h d hd
    simpa using this
  refine ⟨?_, ?_, ?_⟩
  · intro d hd hp
    rw [hall d hd] at hp
    exact absurd hp (by simp)
  · simp [replica.eventOut, h]
  · have hp : r.eventPaths path = [] := by
      unfold replica.eventPaths
      apply List.filterMap_eq_nil_iff.mpr
      intro d hd
      simp [hall d hd]
    cases r
    simp only [replica.afterEvent, hp, List.foldl_nil, h, Bool.not_false, Bool.and_true]

/-- C14: handling a filesystem event, in a registry whose entries point to distinct
replica objects, as they do in every state that `run` reaches (`reachable_registry`).  If no dirs entry of any replica matches the path of the event, the step returns
the fatal error that the event matched no replica, writes nothing and leaves every
replica and the registry as they were.  If some dirs entry matches and `filepath.Rel`
fails for no matching entry, the step returns no error. -/
theorem C14_unmatched_event_fatal (st : Engine) (path : String)
    (hnd : (st.replicas.map Prod.snd).Nodup)
    (hvalid : ∀ e ∈ st.replicas, ∃ r, st.heap[e.2]? = some r) :
    ((∀ e ∈ st.replicas, ∀ r, st.heap[e.2]? = some r → r.matches path = false) →
      (handleEvent st path).err = some (Error.unmatched path) ∧
      (handleEvent st path).out = [] ∧
      (∀ j : Nat, (handleEvent st path).st.heap[j]? = st.heap[j]?) ∧
      (handleEvent st path).st.replicas = st.replicas) ∧
    ((∃ e ∈ st.replicas, ∃ r, st.heap[e.2]? = some r ∧ r.matches path = true) →
      (∀ e ∈ st.replicas, ∀ r, st.heap[e.2]? = some r → r.relOk path) →
      (handleEvent st path).err = none) := by
  refine ⟨?_, ?_⟩
  · intro hno
    have hok : ∀ e ∈ st.replicas, ∃ r, st.heap[e.2]? = some r ∧ r.relOk path := by
      intro e he
      obtain ⟨r, hr⟩ := hvalid e he
      exact ⟨r, hr, (replica.no_match (hno e he r hr)).1⟩
    obtain ⟨st2, heq, h1, _, _, _, h5⟩ := handleEvent_eq st path hnd hok
    rw [heq]
    have hany : st.replicas.any (fun e => ((st.heap[e.2]?).map
        (fun r => r.matches path)).getD false) = false := by
      apply List.any_eq_false.mpr
      intro e he
      obtain ⟨r, hr⟩ := hvalid e he
      simp [hr, hno e he r hr]
    have hout : st.replicas.flatMap (fun e => ((st.heap[e.2]?).map
        (fun r => r.eventOut path)).getD []) = [] := by
      apply List.flatMap_eq_nil_iff.mpr
      intro e he
      obtain ⟨r, hr⟩ := hvalid e he
      simp [hr, (replica.no_match (hno e he r hr)).2.1]
    refine ⟨by simp [hany], hout, ?_, h1⟩
    intro j
    rw [h5]
    cases hj : st.heap[j]? with
    | none => rfl
    | some a =>
      by_cases hm : j ∈ st.replicas.map Prod.snd
      · obtain ⟨e, he, hej⟩ := List.mem_map.mp hm
        have : a.matches path = false := hno e he a (by rw [hej]; exact hj)
        simp [hm, (replica.no_match this).2.2]
      · simp [hm]
  · rintro ⟨e, he, r, hr, hm⟩ hrel
    have hok : ∀ e ∈ st.replicas, ∃ r, st.heap[e.2]? = some r ∧ r.relOk path := by
      intro e he
      obtain ⟨r, hr⟩ := hvalid e he
      exact ⟨r, hr, hrel e he r hr⟩
    obtain ⟨st2, heq, _⟩ := handleEvent_eq st path hnd hok
    rw [heq]
    have hany : st.replicas.any (fun e => ((st.heap[e.2]?).map
        (fun r => r.matches path)).getD false) = true :=
      List.any_eq_true.mpr ⟨e, he, by simp [hr, hm]⟩
    simp [hany]

/-- C14 at the replica `H` with base `/repo`: the event `/other/x` matches nothing and is
fatal. -/
theorem C14_unmatched_event_fatal_witness :
    (((exampleEngine PathTrie.empty false).replicas.map Prod.snd).Nodup ∧
     ∀ e ∈ (exampleEngine PathTrie.empty false).replicas,
       ∃ r, (exampleEngine PathTrie.empty false).heap[e.2]? = some r) ∧
    (handleEvent (exampleEngine PathTrie.empty false) "/other/x").err
      = some (Error.unmatched "/other/x") ∧
    (handleEvent (exampleEngine PathTrie.empty false) "/other/x").out = [] :=
  have hnd : ((exampleEngine PathTrie.empty false).replicas.map Prod.snd).Nodup := by decide
  have hvalid : ∀ e ∈ (exampleEngine PathTrie.empty false).replicas,
      ∃ r, (exampleEngine PathTrie.empty false).heap[e.2]? = some r := by
    intro e he
    have : e = ("H", 0) := by simpa [exampleEngine] using he
    subst this
    exact ⟨_, rfl⟩
  have hno : ∀ e ∈ (exampleEngine PathTrie.empty false).replicas, ∀ r,
      (exampleEngine PathTrie.empty false).heap[e.2]? = some r →
      r.matches "/other/x" = false := by
    intro e he r hr
    have : e = ("H", 0) := by simpa [exampleEngine] using he
    subst this
    have hr2 : r = exampleReplica PathTrie.empty false := by
      have h0 : (exampleEngine PathTrie.empty false).heap[0]?
          = some (exampleReplica PathTrie.empty false) := rfl
      rw [h0] at hr
      exact (Option.some.inj hr).symm
    subst hr2
    decide
  ⟨⟨hnd, hvalid⟩,
   ((C14_unmatched_event_fatal (exampleEngine PathTrie.empty false) "/other/x" hnd hvalid).1
      hno).1,
   ((C14_unmatched_event_fatal (exampleEngine PathTrie.empty false) "/other/x" hnd hvalid).1
      hno).2.1⟩

/-! ## Escaping -/

namespace url

theorem hex_digit : ∀ k, k < 16 →
    ishex (upperhex k) = true ∧ unhex (upperhex k) = k ∧ upperhex k ≠ ' ' := by
  decide

theorem shouldEscape_percent : shouldEscape '%' = true := by decide

theorem shouldEscape_space : shouldEscape ' ' = true := by decide

theorem unescapeBytes_escapeByte (c : Char) (rest : List Char) (hc : c.toNat < 256) :
    unescapeBytes (escapeByte c ++ rest) = (unescapeBytes rest).map (fun t => c :: t) := by
  unfold escapeByte
  cases hs : shouldEscape c with
  | true =>
    have h1 := hex_digit (c.toNat / 16 % 16) (Nat.mod_lt _ (by decide))
    have h2 := hex_digit (c.toNat % 16) (Nat.mod_lt _ (by decide))
    have hn : c.toNat / 16 % 16 * 16 + c.toNat % 16 = c.toNat := by omega
    simp only [if_true, List.cons_append, List.nil_append, unescapeBytes, h1.1, h2.1,
      Bool.and_self, h1.2.1, h2.2.1, hn, Char.ofNat_toNat]
    rfl
  | false =>
    have hne : c ≠ '%' := by
      intro h
      rw [h, shouldEscape_percent] at hs
      exact absurd hs (by simp)
    simp only [Bool.false_eq_true, if_false, List.cons_append, List.nil_append]
    conv_lhs => unfold unescapeBytes
    simp only [hne, if_false]

theorem unescapeBytes_escape : ∀ l : List Char, (∀ c ∈ l, c.toNat < 256) →
    unescapeBytes (l.flatMap escapeByte) = some l
  | [], _ => rfl
  | c :: l, h => by
    rw [List.flatMap_cons, unescapeBytes_escapeByte c _ (h c (by simp)),
      unescapeBytes_escape l (fun d hd => h d (by simp [hd]))]
    rfl

theorem PathUnescape_PathEscape (s : String) (h : ∀ c ∈ s.data, c.toNat < 256) :
    PathUnescape (PathEscape s) = some s := by
  simp [PathUnescape, PathEscape, unescapeBytes_escape s.data h]

theorem unescapeBytes_plain : ∀ l : List Char, '%' ∉ l → unescapeBytes l = some l
  | [], _ => rfl
  | c :: l, h => by
    have hc : c ≠ '%' := fun hh => h (by simp [hh])
    have hl : '%' ∉ l := fun hh => h (by simp [hh])
    conv_lhs => unfold unescapeBytes
    simp only [hc, if_false, unescapeBytes_plain l hl, Option.map_some']

theorem PathUnescape_plain (s : String) (h : '%' ∉ s.data) : PathUnescape s = some s := by
  simp [PathUnescape, unescapeBytes_plain s.data h]

theorem escapeByte_no_space (c : Char) : ' ' ∉ escapeByte c := by
  unfold escapeByte
  cases hs : shouldEscape c with
  | true =>
    have h1 := (hex_digit (c.toNat / 16 % 16) (Nat.mod_lt _ (by decide))).2.2
    have h2 := (hex_digit (c.toNat % 16) (Nat.mod_lt _ (by decide))).2.2
    simp only [if_true]
    intro h
    rcases List.mem_cons.mp h with h | h
    · exact absurd h (by decide)
    rcases List.mem_cons.mp h with h | h
    · exact h1 h.symm
    rcases List.mem_cons.mp h with h | h
    · exact h2 h.symm
    · exact absurd h (List.not_mem_nil _)
  | false =>
    have hne : c ≠ ' ' := by
      intro h
      rw [h, shouldEscape_space] at hs
      exact absurd hs (by simp)
    simpa using fun h => hne h.symm

theorem PathEscape_no_space (s : String) : ' ' ∉ (PathEscape s).data := by
  simp only [PathEscape, List.mem_flatMap, not_exists, not_and]
  intro c _
  exact escapeByte_no_space c

end url

theorem intercalate_cons_eq {α : Type} (sep : α) : ∀ (xs : List (List α)) (x : List α),
    [sep].intercalate (x :: xs) = x ++ (xs.map (fun y => sep :: y)).flatten
  | [], x => by simp [List.intercalate, List.intersperse]
  | y :: ys, x => by
    have ih := intercalate_cons_eq sep ys y
    simp only [List.intercalate, List.intersperse] at ih ⊢
    simp [ih]

theorem unescapeAll_escape : ∀ args : List String,
    (∀ a ∈ args, ∀ c ∈ a.data, c.toNat < 256) →
    unescapeAll (args.map url.PathEscape) = some args
  | [], _ => rfl
  | a :: rest, h => by
    simp [unescapeAll, url.PathUnescape_PathEscape a (h a (by simp)),
      unescapeAll_escape rest (fun b hb => h b (by simp [hb]))]

/-- C15: escaping is symmetric.  For a command token without a space and without a percent
sign and any list of arguments (strings of bytes), `parseCommand` applied to the line that
`sendCommand` writes, without its final newline, returns the same command token and the
same arguments, with no error. -/
theorem C15_escaping_round_trip (cmd : String) (args : List String) (line : String)
    (hsp : ' ' ∉ cmd.data) (hpc : '%' ∉ cmd.data)
    (hbytes : ∀ a ∈ args, ∀ c ∈ a.data, c.toNat < 256)
    (hline : sendCommand cmd args = line ++ "\n") :
    parseCommand line = .ok (cmd, args) := by
  have hdata : line.data =
      [' '].intercalate (cmd.data :: args.map (fun a => (url.PathEscape a).data)) := by
    have h1 := congrArg String.data hline
    simp only [sendCommand, String.data_append, String.data_join, List.map_map] at h1
    have h2 := List.append_cancel_right h1
    rw [intercalate_cons_eq, ← h2]
    congr 2
    rw [List.map_map]
    apply List.map_congr_left
    intro a _
    rfl
  have hsplit : strings.Split line ' ' = cmd :: args.map url.PathEscape := by
    have h3 : line.data.splitOn ' ' =
        cmd.data :: args.map (fun a => (url.PathEscape a).data) := by
      rw [hdata]
      apply List.splitOn_intercalate _ _ _ (by simp)
      intro l hl
      rcases List.mem_cons.mp hl with h | h
      · rw [h]; exact hsp
      · obtain ⟨a, _, rfl⟩ := List.mem_map.mp h
        exact url.PathEscape_no_space a
    simp [strings.Split, h3]
  simp [parseCommand, hsplit, unescapeAll, url.PathUnescape_plain cmd hpc,
    unescapeAll_escape args hbytes]

/-- C15 at `RECURSIVE` with the arguments `a b/c%`, the empty string and a string with a
newline. -/
theorem C15_escaping_round_trip_witness :
    sendCommand "RECURSIVE" ["a b/c%", "", "x\ny"] = "RECURSIVE a%20b%2Fc%25  x%0Ay" ++ "\n" ∧
    parseCommand "RECURSIVE a%20b%2Fc%25  x%0Ay" = .ok ("RECURSIVE", ["a b/c%", "", "x\ny"]) :=
  ⟨by decide,
   C15_escaping_round_trip "RECURSIVE" ["a b/c%", "", "x\ny"] "RECURSIVE a%20b%2Fc%25  x%0Ay"
     (by decide) (by decide) (by decide) (by decide)⟩

/-! ## The invariant of the replica objects -/

theorem gomap.mem_set_snd {α : Type} {k : String} {v : α} {e : String × α} :
    ∀ {m : List (String × α)}, e ∈ gomap.set k v m → e ∈ m ∨ e.2 = v
  | [], h => by
    right
    have : e = (k, v) := by simpa [gomap.set] using h
    rw [this]
  | (k1, v1) :: rest, h => by
    by_cases hk : k1 = k
    · simp only [gomap.set, hk, if_true, List.mem_cons] at h
      rcases h with h | h
      · right; rw [h]
      · left; exact List.mem_cons_of_mem _ h
    · simp only [gomap.set, hk, if_false, List.mem_cons] at h
      rcases h with h | h
      · left; rw [h]; exact List.mem_cons_self _ _
      · rcases gomap.mem_set_snd h with h2 | h2
        · left; exact List.mem_cons_of_mem _ h2
        · right; exact h2

theorem gomap.key_set {α : Type} (k : String) (v : α) :
    ∀ m : List (String × α), k ∈ (gomap.set k v m).map Prod.fst
  | [] => by simp [gomap.set]
  | (k1, v1) :: rest => by
    by_cases hk : k1 = k
    · simp [gomap.set, hk]
    · simp only [gomap.set, hk, if_false, List.map_cons, List.mem_cons]
      right
      exact gomap.key_set k v rest

theorem gomap.keys_set {α : Type} (k : String) (v : α) (a : String) :
    ∀ m : List (String × α), a ∈ m.map Prod.fst → a ∈ (gomap.set k v m).map Prod.fst
  | [], h => by simp at h
  | (k1, v1) :: rest, h => by
    by_cases hk : k1 = k
    · simpa [gomap.set, hk] using h
    · simp only [gomap.set, hk, if_false, List.map_cons, List.mem_cons] at h ⊢
      rcases h with h | h
      · left; exact h
      · right; exact gomap.keys_set k v a rest h

theorem sound_init : Engine.init.sound := by
  intro r hr
  simp [Engine.init] at hr

theorem sound_update {st : Engine} (h : st.sound) (i : Nat) (f : replica → replica)
    (hf : ∀ a, st.heap[i]? = some a → a.sound → (f a).sound) : (st.update i f).sound := by
  intro r hr
  obtain ⟨j, hj⟩ := List.mem_iff_getElem?.mp hr
  rw [Engine.update_heap] at hj
  cases ha : st.heap[j]? with
  | none => simp [ha] at hj
  | some a =>
    have hmem : a ∈ st.heap := List.mem_iff_getElem?.mpr ⟨j, ha⟩
    simp only [ha, Option.map_some', Option.some.injEq] at hj
    by_cases hi : i = j
    · simp only [hi, if_true] at hj
      rw [← hj]; exact hf a (hi ▸ ha) (h a hmem)
    · simp only [hi, if_false] at hj
      rw [← hj]; exact h a hmem

theorem sound_of_heap {st st2 : Engine} (h : st.sound) (h1 : st2.heap = st.heap) : st2.sound := by
  intro r hr
  rw [h1] at hr
  exact h r hr

theorem sound_clearWaiting : ∀ (reps : List (String × Nat)) (st : Engine), st.sound →
    (clearWaiting reps st).sound
  | [], _, h => h
  | (_, i) :: rest, st, h => by
    rw [clearWaiting]
    apply sound_clearWaiting rest
    apply sound_update h
    intro a _ ha
    exact ⟨ha.1, ha.2.1, fun hw => by simp at hw⟩

theorem sound_handleSTART (env : Env) {st : Engine} (h : st.sound) (args : List String) :
    (handleSTART env st args).st.sound := by
  unfold handleSTART
  split
  · rename_i hash basePath path
    split
    · exact h
    · have hq : Engine.sound
          { st with
            heap := st.heap ++ [{ hash := hash, basePath := basePath,
                                  dirs := gomap.set basePath "" [],
                                  changes := PathTrie.empty, waiting := false }],
            replicas := gomap.set hash st.heap.length st.replicas,
            r := some st.heap.length } := by
        intro r hr
        simp only [List.mem_append, List.mem_singleton] at hr
        rcases hr with hr | hr
        · exact h r hr
        · rw [hr]
          refine ⟨by simp [gomap.set], ?_, fun hw => by simp at hw⟩
          intro e he
          left
          simp only [gomap.set, List.mem_singleton] at he
          rw [he]
      split
      · dsimp only
        split
        · exact sound_of_heap hq rfl
        · exact sound_of_heap hq rfl
      · exact sound_of_heap h rfl
  · exact h

theorem sound_handleLINK (env : Env) {st : Engine} (h : st.sound) (args : List String) :
    (handleLINK env st args).st.sound := by
  unfold handleLINK
  split
  · split
    · exact h
    · split
      · exact h
      · dsimp only
        split
        · split
          · exact sound_of_heap h rfl
          · exact sound_of_heap h rfl
        · split
          · exact sound_of_heap h rfl
          · apply sound_update (sound_of_heap h rfl)
            intro a _ ha
            refine ⟨gomap.keys_set _ _ _ _ ha.1, ?_, ha.2.2⟩
            intro e he
            rcases gomap.mem_set_snd he with h1 | h1
            · exact ha.2.1 e h1
            · right
              rw [h1]
              split
              · exact filepath.HasSuffix_slash _
              · rename_i hs
                simpa using hs
  · exact h

theorem PathTrie.Empty_Clear (t : PathTrie) : t.Clear.Empty = true := rfl

theorem sound_dispatch (env : Env) {st : Engine} (h : st.sound) (cmd : String)
    (args : List String) : (dispatch env st cmd args).st.sound := by
  unfold dispatch
  split
  · unfold handleDEBUG
    split <;> exact h
  split
  · exact sound_handleSTART env h args
  split
  · unfold handleDIR
    split
    · exact h
    · split <;> exact h
  split
  · exact sound_handleLINK env h args
  split
  · unfold handleDONE
    split
    · exact h
    · split
      · exact h
      · exact sound_of_heap h rfl
  split
  · unfold handleWAIT
    split
    · split
      · exact h
      · split
        · exact h
        · rename_i i r0 hr0
          split
          · exact h
          · rename_i hE
            apply sound_update h
            intro a hi ha
            have hra : r0 = a := Option.some.inj (hr0.symm.trans hi)
            subst hra
            exact ⟨ha.1, ha.2.1, fun _ => by simpa using hE⟩
    · exact h
  split
  · unfold handleCHANGES
    split
    · split
      · exact h
      · split
        · exact h
        · apply sound_update h
          intro a _ ha
          exact ⟨ha.1, ha.2.1, fun _ => PathTrie.Empty_Clear a.changes⟩
    · exact h
  split
  · unfold handleRESET
    split
    · split
      · exact h
      · split
        · exact h
        · split
          · exact sound_of_heap h rfl
          · exact sound_of_heap h rfl
    · exact h
  · exact h

theorem sound_handleMessage (env : Env) {st : Engine} (h : st.sound) (msg : String) :
    (handleMessage env st msg).st.sound := by
  unfold handleMessage
  split
  · exact h
  · apply sound_dispatch
    split
    · exact sound_clearWaiting _ _ h
    · exact h

theorem sound_eventEntry (path : String) (acc : EventLoop) (d : String × String)
    (h : acc.r.sound) : (eventEntry path acc d).r.sound ∧
      (eventEntry path acc d).r.dirs = acc.r.dirs := by
  unfold eventEntry
  split
  · exact ⟨h, rfl⟩
  · split
    · split
      · exact ⟨h, rfl⟩
      · dsimp only
        split
        · exact ⟨⟨h.1, h.2.1, fun hw => by simp at hw⟩, rfl⟩
        · rename_i hw
          exact ⟨⟨h.1, h.2.1, fun hw2 => absurd hw2 hw⟩, rfl⟩
    · exact ⟨h, rfl⟩

theorem sound_foldl_eventEntry (path : String) :
    ∀ (ds : List (String × String)) (acc : EventLoop), acc.r.sound →
      (ds.foldl (eventEntry path) acc).r.sound
  | [], _, h => h
  | d :: ds, acc, h =>
    sound_foldl_eventEntry path ds _ (sound_eventEntry path acc d h).1

theorem sound_eventReplicas (path : String) :
    ∀ (reps : List (String × Nat)) (st : Engine) (out : List String) (found : Bool),
      st.sound → (eventReplicas path reps st out found).1.sound
  | [], _, _, _, h => h
  | (_, i) :: rest, st, out, found, h => by
    unfold eventReplicas
    cases hr : st.heap[i]? with
    | none => exact h
    | some r =>
      have hs : (eventReplica path r out found).r.sound :=
        sound_foldl_eventEntry path r.dirs _ (h r (List.mem_iff_getElem?.mpr ⟨i, hr⟩))
      have h1 : (st.update i (fun _ => (eventReplica path r out found).r)).sound :=
        sound_update h i _ (fun _ _ _ => hs)
      dsimp only
      split
      · exact h1
      · exact sound_eventReplicas path rest _ _ _ h1

theorem sound_handleEvent {st : Engine} (h : st.sound) (path : String) :
    (handleEvent st path).st.sound := by
  have h2 := sound_eventReplicas path st.replicas st [] false h
  unfold handleEvent
  split
  · rename_i heq
    rw [heq] at h2
    exact h2
  · rename_i heq
    rw [heq] at h2
    split <;> exact h2

theorem sound_step {st : Engine} (h : st.sound) (i : Input) : (step st i).st.sound := by
  cases i with
  | message env msg => exact sound_handleMessage env h msg
  | event path => exact sound_handleEvent h path

theorem sound_runFrom : ∀ (inputs : List Input) (st : Engine) (out : List String),
    st.sound → (runFrom inputs st out).st.sound
  | [], _, _, h => h
  | i :: rest, st, out, h => by
    have h1 := sound_step h i
    unfold runFrom
    dsimp only
    split
    · exact h1
    · exact sound_runFrom rest _ _ h1

theorem replicaOf_mem {st : Engine} {hash : String} {r : replica}
    (h : st.replicaOf hash = some r) : r ∈ st.heap := by
  unfold Engine.replicaOf at h
  split at h
  · exact absurd h (by simp)
  · exact List.mem_iff_getElem?.mpr ⟨_, h⟩

/-! ## The invariant of the registry -/

theorem gomap.set_of_lookup_none {α : Type} {k : String} {v : α} :
    ∀ {m : List (String × α)}, m.lookup k = none → gomap.set k v m = m ++ [(k, v)]
  | [], _ => rfl
  | (k1, v1) :: rest, h => by
    by_cases hk : k = k1
    · subst hk
      simp [List.lookup] at h
    · have h2 : (k == k1) = false := by simpa using hk
      simp only [List.lookup, h2] at h
      have hk2 : ¬ k1 = k := fun e => hk e.symm
      simp [gomap.set, hk2, gomap.set_of_lookup_none h]

theorem Engine.update_length (st : Engine) (i : Nat) (f : replica → replica) :
    (st.update i f).heap.length = st.heap.length := by
  simp [Engine.update]

theorem regOk_of_same {st st2 : Engine} (h : st.regOk) (h1 : st2.heap.length = st.heap.length)
    (h2 : st2.replicas = st.replicas) : st2.regOk := by
  unfold Engine.regOk
  rw [h1, h2]
  exact h

theorem regOk_init : Engine.init.regOk := by
  simp [Engine.regOk, Engine.init]

theorem regOk_clearWaiting (reps : List (String × Nat)) {st : Engine} (h : st.regOk) :
    (clearWaiting reps st).regOk := by
  apply regOk_of_same h
  · have : ∀ (reps : List (String × Nat)) (st : Engine),
        (clearWaiting reps st).heap.length = st.heap.length := by
      intro reps
      induction reps with
      | nil => intro st; rfl
      | cons e rest ih =>
        intro st
        rw [clearWaiting, ih, Engine.update_length]
    exact this reps st
  · exact (clearWaiting_fields reps st).1

theorem regOk_handleSTART (env : Env) {st : Engine} (h : st.regOk) (args : List String) :
    (handleSTART env st args).st.regOk := by
  unfold handleSTART
  split
  · rename_i hash basePath path
    split
    · exact h
    · split
      · rename_i hl
        have hq : Engine.regOk
            { st with
              heap := st.heap ++ [{ hash := hash, basePath := basePath,
                                    dirs := gomap.set basePath "" [],
                                    changes := PathTrie.empty, waiting := false }],
              replicas := gomap.set hash st.heap.length st.replicas,
              r := some st.heap.length } := by
          unfold Engine.regOk
          dsimp only
          rw [gomap.set_of_lookup_none hl]
          constructor
          · rw [List.map_append, List.nodup_append]
            refine ⟨h.1, by simp, ?_⟩
            intro a ha hb
            simp only [List.map_cons, List.map_nil, List.mem_singleton] at hb
            obtain ⟨e, he, rfl⟩ := List.mem_map.mp ha
            have := h.2 e he
            omega
          · intro e he
            rw [List.length_append]
            rcases List.mem_append.mp he with he | he
            · have := h.2 e he
              simp only [List.length_singleton]
              omega
            · simp only [List.mem_singleton] at he
              rw [he]
              simp
        dsimp only
        split
        · exact regOk_of_same hq rfl rfl
        · exact regOk_of_same hq rfl rfl
      · exact regOk_of_same h rfl rfl
  · exact h

theorem regOk_handleLINK (env : Env) {st : Engine} (h : st.regOk) (args : List String) :
    (handleLINK env st args).st.regOk := by
  unfold handleLINK
  split
  · split
    · exact h
    · split
      · exact h
      · dsimp only
        split
        · split
          · exact regOk_of_same h rfl rfl
          · exact regOk_of_same h rfl rfl
        · split
          · exact regOk_of_same h rfl rfl
          · exact regOk_of_same h (Engine.update_length _ _ _) rfl
  · exact h

theorem regOk_dispatch (env : Env) {st : Engine} (h : st.regOk) (cmd : String)
    (args : List String) : (dispatch env st cmd args).st.regOk := by
  unfold dispatch
  split
  · unfold handleDEBUG
    split <;> exact h
  split
  · exact regOk_handleSTART env h args
  split
  · unfold handleDIR
    split
    · exact h
    · split <;> exact h
  split
  · exact regOk_handleLINK env h args
  split
  · unfold handleDONE
    split
    · exact h
    · split
      · exact h
      · exact regOk_of_same h rfl rfl
  split
  · unfold handleWAIT
    split
    · split
      · exact h
      · split
        · exact h
        · split
          · exact h
          · exact regOk_of_same h (Engine.update_length _ _ _) rfl
    · exact h
  split
  · unfold handleCHANGES
    split
    · split
      · exact h
      · split
        · exact h
        · exact regOk_of_same h (Engine.update_length _ _ _) rfl
    · exact h
  split
  · unfold handleRESET
    split
    · split
      · exact h
      · split
        · exact h
        · split
          · exact regOk_of_same h rfl rfl
          · refine ⟨?_, fun e he => h.2 e (gomap.mem_delete he)⟩
            exact List.Nodup.sublist (List.Sublist.map _ (List.filter_sublist _)) h.1
    · exact h
  · exact h

theorem regOk_handleMessage (env : Env) {st : Engine} (h : st.regOk) (msg : String) :
    (handleMessage env st msg).st.regOk := by
  unfold handleMessage
  split
  · exact h
  · apply regOk_dispatch
    split
    · exact regOk_clearWaiting _ h
    · exact h

theorem eventReplicas_same (path : String) :
    ∀ (reps : List (String × Nat)) (st : Engine) (out : List String) (found : Bool),
      (eventReplicas path reps st out found).1.heap.length = st.heap.length ∧
        (eventReplicas path reps st out found).1.replicas = st.replicas
  | [], _, _, _ => ⟨rfl, rfl⟩
  | (_, i) :: rest, st, out, found => by
    unfold eventReplicas
    cases hr : st.heap[i]? with
    | none => exact ⟨rfl, rfl⟩
    | some r =>
      dsimp only
      split
      · exact ⟨Engine.update_length _ _ _, rfl⟩
      · have := eventReplicas_same path rest
          (st.update i (fun _ => (eventReplica path r out found).r))
          (eventReplica path r out found).out (eventReplica path r out found).found
        exact ⟨this.1.trans (Engine.update_length _ _ _), this.2⟩

theorem regOk_handleEvent {st : Engine} (h : st.regOk) (path : String) :
    (handleEvent st path).st.regOk := by
  have h2 := eventReplicas_same path st.replicas st [] false
  unfold handleEvent
  split
  · rename_i heq
    rw [heq] at h2
    exact regOk_of_same h h2.1 h2.2
  · rename_i heq
    rw [heq] at h2
    split <;> exact regOk_of_same h h2.1 h2.2

/-- In every state that `run` reaches from its initial state, the pointers of the
registry are distinct and each points to a replica object. -/
theorem regOk_runFrom : ∀ (inputs : List Input) (st : Engine) (out : List String),
    st.regOk → (runFrom inputs st out).st.regOk
  | [], _, _, h => h
  | i :: rest, st, out, h => by
    have h1 : (step st i).st.regOk := by
      cases i with
      | message env msg => exact regOk_handleMessage env h msg
      | event path => exact regOk_handleEvent h path
    unfold runFrom
    dsimp only
    split
    · exact h1
    · exact regOk_runFrom rest _ _ h1

/-- The conditions on the registry under which the event case is specified hold in every
state that `run` reaches from its initial state. -/
theorem reachable_registry (inputs : List Input) :
    ((runFrom inputs Engine.init []).st.replicas.map Prod.snd).Nodup ∧
    ∀ e ∈ (runFrom inputs Engine.init []).st.replicas,
      ∃ r, (runFrom inputs Engine.init []).st.heap[e.2]? = some r := by
  have h := regOk_runFrom inputs Engine.init [] regOk_init
  refine ⟨h.1, fun e he => ?_⟩
  have hlt := h.2 e he
  exact ⟨_, List.getElem?_eq_getElem hlt⟩

/-- C16, as stated, fails: after `START H /repo` and `LINK self`, where the symlink
`/repo/self` reads as `/repo`, the run has no error and the dirs of the replica `H` with
base `/repo` are the single entry `/repo -> self/`: the entry `/repo -> ""` of `START` has
been replaced. -/
theorem C16_counterexample :
    (runFrom [Input.message exampleEnv2 "START H /repo ", Input.message exampleEnv2 "LINK self"]
        Engine.init []).err = none ∧
    (runFrom [Input.message exampleEnv2 "START H /repo ", Input.message exampleEnv2 "LINK self"]
        Engine.init []).out = ["OK\n", "OK\n"] ∧
    ((runFrom [Input.message exampleEnv2 "START H /repo ", Input.message exampleEnv2 "LINK self"]
        Engine.init []).st.replicaOf "H").map (fun r => (r.basePath, r.dirs))
      = some ("/repo", [("/repo", "self/")]) ∧
    ((runFrom [Input.message exampleEnv2 "START H /repo ", Input.message exampleEnv2 "LINK self"]
        Engine.init []).st.replicaOf "H").map
          (fun r => decide ((r.basePath, "") ∈ r.dirs)) = some false := by
  decide

/-- C16, amended: in every state that `run` reaches from its initial state by protocol
lines and filesystem events, whatever `stat`, `notify.Watch` and `readlink` answer, every
replica object, and so every replica of the registry, has `basePath` as a key of its dirs,
and every value of its dirs is the empty string or ends with the separator. -/
theorem C16_dirs_invariant (inputs : List Input) :
    (∀ r ∈ (runFrom inputs Engine.init []).st.heap,
      r.basePath ∈ r.dirs.map Prod.fst ∧
        ∀ e ∈ r.dirs, e.2 = "" ∨ strings.HasSuffix e.2 "/" = true) ∧
    (∀ (hash : String) (r : replica),
      (runFrom inputs Engine.init []).st.replicaOf hash = some r →
      r.basePath ∈ r.dirs.map Prod.fst ∧
        ∀ e ∈ r.dirs, e.2 = "" ∨ strings.HasSuffix e.2 "/" = true) := by
  have h := sound_runFrom inputs Engine.init [] sound_init
  exact ⟨fun r hr => ⟨(h r hr).1, (h r hr).2.1⟩,
    fun _ r hr => ⟨(h r (replicaOf_mem hr)).1, (h r (replicaOf_mem hr)).2.1⟩⟩

/-- C16 at the run `START H /repo`, `LINK self` with the symlink `/repo/self` that reads as
`/repo`. -/
theorem C16_dirs_invariant_witness :
    (runFrom [Input.message exampleEnv2 "START H /repo ", Input.message exampleEnv2 "LINK self"]
        Engine.init []).st.replicaOf "H"
      = some { hash := "H", basePath := "/repo", dirs := [("/repo", "self/")],
               changes := PathTrie.empty, waiting := false } ∧
    ("/repo" ∈ [("/repo", "self/")].map Prod.fst ∧
      ∀ e ∈ [("/repo", "self/")], e.2 = "" ∨ strings.HasSuffix e.2 "/" = true) :=
  ⟨rfl, (C16_dirs_invariant [Input.message exampleEnv2 "START H /repo ",
      Input.message exampleEnv2 "LINK self"]).2 "H"
      { hash := "H", basePath := "/repo", dirs := [("/repo", "self/")],
        changes := PathTrie.empty, waiting := false } rfl⟩

/-- C20: in every state that `run` reaches from its initial state by protocol lines and
filesystem events, a replica object, and so a replica of the registry, whose `waiting`
flag is set has an empty change trie. -/
theorem C20_waiting_implies_empty (inputs : List Input) :
    (∀ r ∈ (runFrom inputs Engine.init []).st.heap,
      r.waiting = true → r.changes.Empty = true) ∧
    (∀ (hash : String) (r : replica),
      (runFrom inputs Engine.init []).st.replicaOf hash = some r →
      r.waiting = true → r.changes.Empty = true) := by
  have h := sound_runFrom inputs Engine.init [] sound_init
  exact ⟨fun r hr => (h r hr).2.2, fun _ r hr => (h r (replicaOf_mem hr)).2.2⟩

/-- C20 at the run `START H /repo`, `DONE`, `WAIT H`, which arms the wait of `H`. -/
theorem C20_waiting_implies_empty_witness :
    (runFrom [Input.message exampleEnv "START H /repo ", Input.message exampleEnv "DONE",
        Input.message exampleEnv "WAIT H"] Engine.init []).st.replicaOf "H"
      = some (exampleReplica PathTrie.empty true) ∧
    (exampleReplica PathTrie.empty true).waiting = true ∧
    (exampleReplica PathTrie.empty true).changes.Empty = true :=
  ⟨rfl, rfl, (C20_waiting_implies_empty [Input.message exampleEnv "START H /repo ",
      Input.message exampleEnv "DONE", Input.message exampleEnv "WAIT H"]).2 "H"
      (exampleReplica PathTrie.empty true) rfl rfl⟩
